import Mathlib

/-!
# Unrolled linked list: embedding of `lib/unrolled_list.h`

The container is a doubly linked chain of buckets (`Node`), each with a slot
array, a live count `size` and `prev`/`next` pointers.  The embedding keeps
the pointer structure: node storage is a map from addresses to nodes, a
pointer is an `Option Nat` (`none` is `nullptr`), and every member function
is a function on the container state, written statement by statement after
the C++ body.

Modelling conventions.

* An operation returns `Option`: `none` stands for undefined behaviour that
  the embedding can see (dereferencing a null or released node pointer,
  reading or destroying a slot that holds no live object, a traversal that
  does not come to an end).
* The slot array of a node is a store indexed by the slot number, with
  `none` for a slot without a live object.  The store is not cut off at
  `NodeMaxSize`: the capacity of a bucket is a property to be established
  about `size`, not something the storage enforces.  In the source a write to
  slot `NodeMaxSize` or above lies outside `elements[NodeMaxSize]` and has no
  defined behaviour; the embedding records the element that the statement
  writes.  A bucket of more than `NodeMaxSize` elements is thus the trace of
  such a write; the theorems on the result of `insert` and on sequences of
  calls are stated for calls that write inside the array (`WF`, `op_fits`,
  `run_fits`).
* The side buffer of `erase` (`T buffer[NodeMaxSize]`) is the list of the
  `count` elements copied out; `count` is below `NodeMaxSize` on every bucket
  of at most `NodeMaxSize` elements.
* `push_back`, `push_front` and `insert` take `const T&`.  The functions of
  these names take the value of an argument that is an object outside the
  node storage; `push_back_ref`, `push_front_ref` and `insert_ref` take the
  reference (`Arg`) and read it where the source constructs the element,
  and agree with the former on such an argument (`insert_ref_value`).
* `size_t` decrements and subtractions wrap at `2 ^ 64`; increments are
  left in `Nat`, since a counter cannot reach `2 ^ 64` live elements.
* The node allocator hands out addresses in increasing order and never
  reuses one (`next_free`).
* Elements are values: copy and move construction store the value, and no
  constructor throws, so the `try`/`catch` paths are not entered.
-/

namespace UnrolledList

/-- Bucket of the chain (`struct Node`). -/
structure Node (T : Type) where
  next : Option Nat
  prev : Option Nat
  size : Nat
  elements : Nat → Option T

/-- Cursor `(node, index)` (`struct Iterator`); the `parent` pointer is the
container that the iterator operations take as an argument. -/
structure Iterator where
  node : Option Nat
  index : Nat
  deriving DecidableEq

/-- Container state (`class unrolled_list`): `head`, `tail`, `total_size`,
and the node storage managed through the node allocator. -/
structure unrolled_list (T : Type) where
  head : Option Nat
  tail : Option Nat
  total_size : Nat
  nodes : Nat → Option (Node T)
  next_free : Nat

variable {T : Type}

/-- Subtraction on `size_t`: wraps at `2 ^ 64`. -/
def size_t_sub (a b : Nat) : Nat :=
  if b ≤ a then a - b else 2 ^ 64 - (b - a)

namespace Node

/-- Freshly constructed node: null links, `size = 0`, no live slot. -/
def blank : Node T := ⟨none, none, 0, fun _ => none⟩

/-- Placement construction `new(element_ptr(i)) T(v)`. -/
def construct (n : Node T) (i : Nat) (v : T) : Node T :=
  { n with elements := Function.update n.elements i (some v) }

/-- Destructor call `element_ptr(i)->~T()`; the slot must hold a live object. -/
def destroy (n : Node T) (i : Nat) : Option (Node T) :=
  match n.elements i with
  | some _ => some { n with elements := Function.update n.elements i none }
  | none => none

/-- One step of a shift: `new(element_ptr(dst)) T(std::move(*element_ptr(src)));
element_ptr(src)->~T();`. -/
def move_slot (n : Node T) (src dst : Nat) : Option (Node T) :=
  match n.elements src with
  | some v => (n.construct dst v).destroy src
  | none => none

/-- Right shift loop
`for (size_t j = from; j > index; --j) { move slot j-1 into slot j }`. -/
def shift_right (index : Nat) : Nat → Node T → Option (Node T)
  | 0, n => some n
  | j + 1, n =>
    if index < j + 1 then
      match n.move_slot j (j + 1) with
      | some n1 => shift_right index j n1
      | none => none
    else some n

/-- Copy-out loop `for (i = 0; i < count; ++i) buffer[i] = *element_ptr(start + i);`. -/
def fill_buffer (n : Node T) : Nat → Nat → Option (List T)
  | _, 0 => some []
  | start, count + 1 =>
    match n.elements start with
    | some v => (fill_buffer n (start + 1) count).map (fun rest => v :: rest)
    | none => none

/-- Copy-back loop
`for (i = 0; i < count; ++i) { element_ptr(start+1+i)->~T(); new(element_ptr(start+i)) T(buffer[i]); }`. -/
def drain_buffer : Node T → Nat → List T → Option (Node T)
  | n, _, [] => some n
  | n, start, v :: rest =>
    match n.destroy (start + 1) with
    | some n1 => drain_buffer (n1.construct start v) (start + 1) rest
    | none => none

/-- Destruction loop of `clear`: `for (i = 0; i < size; ++i) element_ptr(i)->~T();`. -/
def destroy_all : Node T → Nat → Nat → Option (Node T)
  | n, _, 0 => some n
  | n, i, count + 1 =>
    match n.destroy i with
    | some n1 => destroy_all n1 (i + 1) count
    | none => none

end Node

namespace unrolled_list

/-- Default-constructed container: `head = tail = nullptr`, `total_size = 0`. -/
def empty_list : unrolled_list T := ⟨none, none, 0, fun _ => none, 0⟩

/-- Store through a node pointer. -/
def write (l : unrolled_list T) (p : Nat) (n : Node T) : unrolled_list T :=
  { l with nodes := Function.update l.nodes p (some n) }

/-- Field update through a node pointer, e.g. `p->next = q`. -/
def update_node (l : unrolled_list T) (p : Nat) (f : Node T → Node T) :
    Option (unrolled_list T) :=
  match l.nodes p with
  | some n => some (l.write p (f n))
  | none => none

/-- `NodeTraits::allocate` followed by `NodeTraits::construct`. -/
def allocate (l : unrolled_list T) : Nat × unrolled_list T :=
  (l.next_free,
    { l with nodes := Function.update l.nodes l.next_free (some Node.blank),
             next_free := l.next_free + 1 })

/-- `NodeTraits::destroy` followed by `NodeTraits::deallocate`. -/
def deallocate (l : unrolled_list T) (p : Nat) : unrolled_list T :=
  { l with nodes := Function.update l.nodes p none }

/-- Modelled from the spec: `free_node` is called by `erase` but declared
nowhere in the header; the spec says of the emptied bucket that `erase` must
"unlink the Bucket from the chain ... and release it", so `free_node`
releases the node as `pop_back` and `pop_front` do. -/
def free_node (l : unrolled_list T) (p : Nat) : unrolled_list T :=
  l.deallocate p

/-- `size()`. -/
def size (l : unrolled_list T) : Nat := l.total_size

/-- `empty()`. -/
def empty (l : unrolled_list T) : Bool := l.total_size == 0

/-- `begin()`. -/
def begin_ (l : unrolled_list T) : Iterator := ⟨l.head, 0⟩

/-- `end()`. -/
def end_ (_l : unrolled_list T) : Iterator := ⟨none, 0⟩

end unrolled_list

namespace Iterator

/-- `operator*`. -/
def deref (l : unrolled_list T) (it : Iterator) : Option T :=
  match it.node with
  | some a =>
    match l.nodes a with
    | some n => n.elements it.index
    | none => none
  | none => none

/-- `operator++`. -/
def inc (l : unrolled_list T) (it : Iterator) : Option Iterator :=
  match it.node with
  | none => some it
  | some a =>
    match l.nodes a with
    | some n =>
      if it.index + 1 < n.size then some ⟨some a, it.index + 1⟩
      else some ⟨n.next, 0⟩
    | none => none

/-- `operator--`. -/
def dec (l : unrolled_list T) (it : Iterator) : Option Iterator :=
  match it.node with
  | none =>
    match l.tail with
    | some t =>
      match l.nodes t with
      | some n => some ⟨some t, size_t_sub n.size 1⟩
      | none => none
    | none => some ⟨none, it.index⟩
  | some a =>
    if it.index > 0 then some ⟨some a, it.index - 1⟩
    else
      match l.nodes a with
      | some n =>
        match n.prev with
        | some p =>
          match l.nodes p with
          | some pn => some ⟨some p, size_t_sub pn.size 1⟩
          | none => none
        | none => some ⟨none, it.index⟩
      | none => none

/-- `operator==`: The node pointers and the indices agree. -/
def eq (a b : Iterator) : Bool := a.node == b.node && a.index == b.index

end Iterator

namespace unrolled_list

/-- Allocation branch of `push_back`: a new node is linked after `tail`. -/
def link_back (l : unrolled_list T) : Option (unrolled_list T) :=
  let (p, l1) := l.allocate
  match l1.update_node p (fun n => { n with next := none, prev := l.tail }) with
  | some l2 =>
    let l3 :=
      match l.tail with
      | some t => l2.update_node t (fun n => { n with next := some p })
      | none => some l2
    match l3 with
    | some l4 =>
      let l5 := { l4 with tail := some p }
      some (if l5.head = none then { l5 with head := l5.tail } else l5)
    | none => none
  | none => none

/-- `push_back(const T&)`; the argument is read before any element moves
(`push_back_ref` keeps the reference). -/
def push_back (K : Nat) (l : unrolled_list T) (value : T) : Option (unrolled_list T) :=
  let full : Option Bool :=
    match l.tail with
    | none => some true
    | some t => (l.nodes t).map (fun n => n.size == K)
  match full with
  | none => none
  | some c =>
    match (if c then l.link_back else some l) with
    | none => none
    | some l1 =>
      match l1.tail with
      | none => none
      | some t =>
        match l1.nodes t with
        | none => none
        | some n =>
          some { l1.write t { n.construct n.size value with size := n.size + 1 } with
                 total_size := l1.total_size + 1 }

/-- Allocation branch of `push_front`: a new node is linked before `head`. -/
def link_front (l : unrolled_list T) : Option (unrolled_list T) :=
  let (p, l1) := l.allocate
  match l1.update_node p (fun n => { n with next := l.head, prev := none }) with
  | some l2 =>
    let l3 :=
      match l.head with
      | some h => l2.update_node h (fun n => { n with prev := some p })
      | none => some l2
    match l3 with
    | some l4 =>
      let l5 := { l4 with head := some p }
      some (if l5.tail = none then { l5 with tail := l5.head } else l5)
    | none => none
  | none => none

/-- Shift branch of `push_front`:
`for (size_t i = head->size; i > 0; --i) { move slot i-1 into slot i }`. -/
def shift_head (l : unrolled_list T) : Option (unrolled_list T) :=
  match l.head with
  | none => none
  | some h =>
    match l.nodes h with
    | none => none
    | some n => (n.shift_right 0 n.size).map (fun n1 => l.write h n1)

/-- `push_front(const T&)` for an argument outside the node storage, whose
value the shift loop does not change (`push_front_ref` reads the argument
after the loop, as the source does). -/
def push_front (K : Nat) (l : unrolled_list T) (value : T) : Option (unrolled_list T) :=
  let full : Option Bool :=
    match l.head with
    | none => some true
    | some h => (l.nodes h).map (fun n => n.size == K)
  match full with
  | none => none
  | some c =>
    match (if c then l.link_front else l.shift_head) with
    | none => none
    | some l1 =>
      match l1.head with
      | none => none
      | some h =>
        match l1.nodes h with
        | none => none
        | some n =>
          some { l1.write h { n.construct 0 value with size := n.size + 1 } with
                 total_size := l1.total_size + 1 }

/-- Unlinking branch of `pop_back` (`tail->size == 0`): the node `old` is the
emptied tail, whose `prev` becomes the tail. -/
def unlink_back (l : unrolled_list T) (old : Nat) (n : Node T) : Option (unrolled_list T) :=
  let l1 := { l with tail := n.prev }
  let l2 :=
    match l1.tail with
    | some t => l1.update_node t (fun m => { m with next := none })
    | none => some { l1 with head := none }
  l2.map (fun l3 => l3.deallocate old)

/-- `pop_back()`. -/
def pop_back (l : unrolled_list T) : Option (unrolled_list T) :=
  match l.tail with
  | none => some l
  | some t =>
    match l.nodes t with
    | none => none
    | some n =>
      if n.size > 0 then
        match n.destroy (size_t_sub n.size 1) with
        | none => none
        | some n1 =>
          let n2 := { n1 with size := size_t_sub n1.size 1 }
          let l1 := { l.write t n2 with total_size := size_t_sub l.total_size 1 }
          if n2.size = 0 then l1.unlink_back t n2 else some l1
      else some l

/-- Left shift through a side buffer, as in `pop_front` (`new T[count]`) and
`erase` (`T buffer[NodeMaxSize]`): with `count > 0`, the slots
`index+1 .. index+count` are copied out and written back one slot lower.  The
buffer is the list of the `count` elements. -/
def shift_left (n : Node T) (index count : Nat) : Option (Node T) :=
  if count > 0 then
    match n.fill_buffer (index + 1) count with
    | some buffer => n.drain_buffer index buffer
    | none => none
  else some n

/-- Unlinking branch of `pop_front` (`head->size == 0`). -/
def unlink_front (l : unrolled_list T) (old : Nat) (n : Node T) : Option (unrolled_list T) :=
  let l1 := { l with head := n.next }
  let l2 :=
    match l1.head with
    | some h => l1.update_node h (fun m => { m with prev := none })
    | none => some { l1 with tail := none }
  l2.map (fun l3 => l3.deallocate old)

/-- `pop_front()`. -/
def pop_front (l : unrolled_list T) : Option (unrolled_list T) :=
  match l.head with
  | none => some l
  | some h =>
    match l.nodes h with
    | none => none
    | some n =>
      if n.size > 0 then
        match n.destroy 0 with
        | none => none
        | some n1 =>
          match shift_left n1 0 (size_t_sub n1.size 1) with
          | none => none
          | some n2 =>
            let n3 := { n2 with size := size_t_sub n2.size 1 }
            let l1 := { l.write h n3 with total_size := size_t_sub l.total_size 1 }
            if n3.size = 0 then l1.unlink_front h n3 else some l1
      else some l

/-- Unlinking branch of `erase` (`node->size == 0`): the neighbours are
linked to each other, `head`/`tail` move when the node was first/last, and
the node is released. -/
def unlink (l : unrolled_list T) (a : Nat) (n : Node T) : Option (unrolled_list T) :=
  let l1 :=
    match n.prev with
    | some p => l.update_node p (fun m => { m with next := n.next })
    | none => some { l with head := n.next }
  match l1 with
  | none => none
  | some l2 =>
    let l3 :=
      match n.next with
      | some q => l2.update_node q (fun m => { m with prev := n.prev })
      | none => some { l2 with tail := n.prev }
    l3.map (fun l4 => l4.free_node a)

/-- `erase(const_iterator)`: returns the resulting iterator and the new state. -/
def erase (l : unrolled_list T) (cpos : Iterator) : Option (Iterator × unrolled_list T) :=
  match cpos.node with
  | none => some (l.end_, l)
  | some a =>
    match l.nodes a with
    | none => none
    | some n =>
      let index := cpos.index
      match n.destroy index with
      | none => none
      | some n1 =>
        match shift_left n1 index (size_t_sub (size_t_sub n1.size index) 1) with
        | none => none
        | some n2 =>
          let n3 := { n2 with size := size_t_sub n2.size 1 }
          let l1 := { l.write a n3 with total_size := size_t_sub l.total_size 1 }
          if n3.size = 0 then
            (l1.unlink a n3).map (fun l2 => (⟨n3.next, 0⟩, l2))
          else some (⟨some a, index⟩, l1)

end unrolled_list

/-- Move loop of the split in `insert`:
`for (j = 0; j < num_to_move; ++j) { new(dst slot j) T(std::move(src slot mid+j)); destroy src slot mid+j }`. -/
def Node.move_across (mid : Nat) : Nat → Nat → Node T × Node T → Option (Node T × Node T)
  | _, 0, p => some p
  | j, count + 1, (src, dst) =>
    match src.elements (mid + j) with
    | some v =>
      match src.destroy (mid + j) with
      | some src1 => Node.move_across mid (j + 1) count (src1, dst.construct j v)
      | none => none
    | none => none

namespace unrolled_list

/-- Shift-and-construct step shared by the branches of `insert`: shift the
slots `[index, size)` of the node right by one, construct `value` in slot
`index`, and count it.  The highest slot written is slot `size`, whatever
`size` is: the statements carry no bound of their own. -/
def place (n : Node T) (index : Nat) (value : T) : Option (Node T) :=
  (n.shift_right index n.size).map
    (fun n1 => { n1.construct index value with size := n1.size + 1 })

/-- Linking statements of the split branch of `insert`: a new node is
allocated and linked immediately after `node` (`new_node->next = node->next;
new_node->prev = node; if (node->next) node->next->prev = new_node;
node->next = new_node; if (tail == node) tail = new_node;`). Returns the new
node's address and the state. -/
def link_after (l : unrolled_list T) (a : Nat) (n : Node T) :
    Option (Nat × unrolled_list T) :=
  let (p, l1) := l.allocate
  match l1.update_node p (fun m => { m with next := n.next, prev := some a }) with
  | none => none
  | some l2 =>
    let l3 :=
      match n.next with
      | some q => l2.update_node q (fun m => { m with prev := some p })
      | none => some l2
    match l3 with
    | none => none
    | some l4 =>
      match l4.update_node a (fun m => { m with next := some p }) with
      | none => none
      | some l5 => some (p, if l5.tail = some a then { l5 with tail := some p } else l5)

/-- Split branch of `insert` (`else` of `node->size <= NodeMaxSize`). -/
def insert_split (K : Nat) (l : unrolled_list T) (a : Nat) (n : Node T) (index : Nat)
    (value : T) : Option (Iterator × unrolled_list T) :=
  match l.link_after a n with
  | none => none
  | some (p, l6) =>
    let mid := K / 2
    match l6.nodes a, l6.nodes p with
    | some src, some dst =>
      let num_to_move := size_t_sub src.size mid
      match Node.move_across mid 0 num_to_move (src, dst) with
      | none => none
      | some (src1, dst1) =>
        let dst2 := { dst1 with size := num_to_move }
        let src2 := { src1 with size := mid }
        if index ≤ mid then
          (place src2 index value).map (fun src3 =>
            (⟨some a, index⟩,
              { (l6.write p dst2).write a src3 with total_size := l6.total_size + 1 }))
        else
          let new_index := size_t_sub index mid
          (place dst2 new_index value).map (fun dst3 =>
            (⟨some p, new_index⟩,
              { (l6.write a src2).write p dst3 with total_size := l6.total_size + 1 }))
    | _, _ => none

/-- `insert(const_iterator, const T&)` for an argument outside the node
storage, whose value the shift and move loops do not change (`insert_ref`
reads the argument after the loops, as the source does).  The guard is the
source's `node->size <= NodeMaxSize`: on a bucket of `NodeMaxSize` elements
the shift branch runs and writes slot `NodeMaxSize`. -/
def insert (K : Nat) (l : unrolled_list T) (pos : Iterator) (value : T) :
    Option (Iterator × unrolled_list T) :=
  if pos.eq l.end_ then
    match l.push_back K value with
    | none => none
    | some l1 => (Iterator.dec l1 l1.end_).map (fun it => (it, l1))
  else
    match pos.node with
    | none => none
    | some a =>
      match l.nodes a with
      | none => none
      | some n =>
        if n.size ≤ K then
          (place n pos.index value).map (fun n1 =>
            (⟨some a, pos.index⟩, { l.write a n1 with total_size := l.total_size + 1 }))
        else insert_split K l a n pos.index value

/-- Loop of `clear`: destroy the live elements of each node and release the
node, following `next`. -/
def clear_loop : Nat → unrolled_list T → Option Nat → Option (unrolled_list T)
  | _, l, none => some l
  | 0, _, some _ => none
  | fuel + 1, l, some c =>
    match l.nodes c with
    | none => none
    | some n =>
      match n.destroy_all 0 n.size with
      | none => none
      | some _ => clear_loop fuel (l.deallocate c) n.next

/-- `clear()`; the loop is given one step per address ever allocated. -/
def clear (l : unrolled_list T) : Option (unrolled_list T) :=
  (clear_loop (l.next_free + 1) l l.head).map
    (fun l1 => { l1 with head := none, tail := none, total_size := 0 })

/-- Loop `for (; first != last; ++first) push_back(*first);` over the range `xs`. -/
def push_back_all (K : Nat) : unrolled_list T → List T → Option (unrolled_list T)
  | l, [] => some l
  | l, x :: xs =>
    match l.push_back K x with
    | some l1 => push_back_all K l1 xs
    | none => none

/-- `assign(InputIt first, InputIt last)` and `assign(std::initializer_list<T>)`. -/
def assign (K : Nat) (l : unrolled_list T) (xs : List T) : Option (unrolled_list T) :=
  match l.clear with
  | some l1 => push_back_all K l1 xs
  | none => none

/-- `assign(size_type n, const T& t)`. -/
def assign_n (K : Nat) (l : unrolled_list T) (n : Nat) (t : T) : Option (unrolled_list T) :=
  match l.clear with
  | some l1 => push_back_all K l1 (List.replicate n t)
  | none => none

/-- Forward iteration `for (it = ...; it != end(); ++it) out.push_back(*it)`,
with one unit of fuel per loop test. -/
def collect (l : unrolled_list T) : Nat → Iterator → Option (List T)
  | 0, _ => none
  | fuel + 1, it =>
    if it.eq l.end_ then some []
    else
      match it.deref l, it.inc l with
      | some v, some it1 => (collect l fuel it1).map (fun rest => v :: rest)
      | _, _ => none

/-- Element sequence seen by forward iteration from `begin()` to `end()`. -/
def to_list (l : unrolled_list T) : Option (List T) :=
  l.collect (l.total_size + 1) l.begin_

/-- `std::advance(it, n)` for `n >= 0`: `n` increments. -/
def advance (l : unrolled_list T) : Nat → Iterator → Option Iterator
  | 0, it => some it
  | n + 1, it =>
    match it.inc l with
    | some it1 => advance l n it1
    | none => none

/-- Live slots `[0, size)` of a node, in slot order. -/
def slots (n : Node T) : List (Option T) :=
  (List.range n.size).map n.elements

/-- Bucket chain read by following `next`: the slots `[0, size)` of each node. -/
def buckets_from (l : unrolled_list T) : Nat → Option Nat → Option (List (List (Option T)))
  | _, none => some []
  | 0, some _ => none
  | fuel + 1, some c =>
    match l.nodes c with
    | none => none
    | some n => (buckets_from l fuel n.next).map (fun rest => slots n :: rest)

/-- Bucket chain from `head`. -/
def buckets (l : unrolled_list T) : Option (List (List (Option T))) :=
  l.buckets_from (l.next_free + 1) l.head

end unrolled_list

/-! ## Well-formed containers

A container is described by its bucket chain: the list of its buckets from
`head` to `tail`, each given by its address and the list of its live
elements. -/

/-- The node holds exactly the elements `xs`, left-packed in the slots `[0, size)`. -/
def Holds (n : Node T) (xs : List T) : Prop :=
  n.size = xs.length ∧ ∀ k, n.elements k = xs[k]?

/-- Slot store in the middle of a shift: the slots below the hole `j` agree
with `lo`, slot `j` holds no object, the slots above agree with `hi`. -/
def Mix (n : Node T) (lo hi : List T) (j : Nat) : Prop :=
  ∀ k, n.elements k = if k < j then lo[k]? else if k = j then none else hi[k]?

/-- Address of the first bucket of a segment, or `q` when it has none. -/
def first_addr : List (Nat × List T) → Option Nat → Option Nat
  | [], q => q
  | b :: _, _ => some b.1

/-- Address of the last bucket of a segment, or `p` when it has none. -/
def last_addr : List (Nat × List T) → Option Nat → Option Nat
  | [], p => p
  | b :: rest, _ => last_addr rest (some b.1)

/-- Doubly linked segment: the buckets `bs` are stored at their addresses and
linked in order, the first having `prev = p` and the last `next = q`. -/
def Seg (nodes : Nat → Option (Node T)) :
    Option Nat → List (Nat × List T) → Option Nat → Prop
  | _, [], _ => True
  | p, b :: rest, q =>
    ∃ n, nodes b.1 = some n ∧ n.prev = p ∧ n.next = first_addr rest q ∧ Holds n b.2 ∧
      Seg nodes (some b.1) rest q

/-- Element sequence of a bucket chain. -/
def elems (bs : List (Nat × List T)) : List T :=
  (bs.map Prod.snd).flatten

/-- `xs` with `v` inserted before position `i`. -/
def ins (xs : List T) (i : Nat) (v : T) : List T :=
  xs.take i ++ v :: xs.drop i

/-- The container state `l` is the bucket chain `bs`: the chain is linked
from `head` to `tail`, the addresses are distinct, allocated ones, and
exactly the nodes of the chain are allocated; `total_size` is the sum of the
bucket sizes. -/
structure Chain (l : unrolled_list T) (bs : List (Nat × List T)) : Prop where
  seg : Seg l.nodes none bs none
  head_eq : l.head = first_addr bs none
  tail_eq : l.tail = last_addr bs none
  nodup : (bs.map Prod.fst).Nodup
  below : ∀ a ∈ bs.map Prod.fst, a < l.next_free
  owned : ∀ a, (l.nodes a).isSome → a ∈ bs.map Prod.fst
  total : l.total_size = (bs.map (fun b => b.2.length)).sum

/-- Container in which each bucket holds between 1 and `K` elements. -/
def WF (K : Nat) (l : unrolled_list T) (bs : List (Nat × List T)) : Prop :=
  Chain l bs ∧ ∀ b ∈ bs, 1 ≤ b.2.length ∧ b.2.length ≤ K

/-- Bucket chain filled from the front: every bucket but the last holds `K`
elements, and the last holds between 1 and `K`. -/
def Packed (K : Nat) (bs : List (Nat × List T)) : Prop :=
  ∀ init b, bs = init ++ [b] → (∀ c ∈ init, c.2.length = K) ∧ 1 ≤ b.2.length ∧ b.2.length ≤ K

/-! ## Operation sequences and a sample container -/

/-- Calls of the mutating interface. -/
inductive Op (T : Type) where
  | push_back (v : T)
  | push_front (v : T)
  | insert (pos : Iterator) (v : T)
  | erase (pos : Iterator)
  | pop_back
  | pop_front
  | assign (xs : List T)
  | assign_n (n : Nat) (v : T)
  | clear

namespace unrolled_list

/-- Normal position: an allocated node and an index below its `size`. -/
def normal (l : unrolled_list T) (pos : Iterator) : Bool :=
  match pos.node with
  | some a =>
    match l.nodes a with
    | some n => decide (pos.index < n.size)
    | none => false
  | none => false

/-- Valid position argument of `insert`: `end()` or a normal position. -/
def valid_pos (l : unrolled_list T) (pos : Iterator) : Bool :=
  pos.eq l.end_ || l.normal pos

/-- One call; a call whose position argument is not valid has no outcome. -/
def step (K : Nat) (l : unrolled_list T) : Op T → Option (unrolled_list T)
  | Op.push_back v => l.push_back K v
  | Op.push_front v => l.push_front K v
  | Op.insert pos v => if l.valid_pos pos then (l.insert K pos v).map Prod.snd else none
  | Op.erase pos => if l.normal pos then (l.erase pos).map Prod.snd else none
  | Op.pop_back => l.pop_back
  | Op.pop_front => l.pop_front
  | Op.assign xs => l.assign K xs
  | Op.assign_n n v => l.assign_n K n v
  | Op.clear => l.clear

/-- A sequence of calls, from left to right. -/
def run (K : Nat) : unrolled_list T → List (Op T) → Option (unrolled_list T)
  | l, [] => some l
  | l, op :: ops =>
    match l.step K op with
    | some l1 => run K l1 ops
    | none => none

/-- The `size` fields of the nodes of the chain, read by following `next`. -/
def sizes_from (l : unrolled_list T) : Nat → Option Nat → Option (List Nat)
  | _, none => some []
  | 0, some _ => none
  | fuel + 1, some c =>
    match l.nodes c with
    | none => none
    | some n => (sizes_from l fuel n.next).map (fun rest => n.size :: rest)

/-- The `size` fields of the nodes of the chain from `head`. -/
def bucket_sizes (l : unrolled_list T) : Option (List Nat) :=
  l.sizes_from (l.next_free + 1) l.head

/-- The spec's example state for `K = 2`: buckets `[1,2] -> [3]` at the
addresses 0 and 1, as left by `push_back(1); push_back(2); push_back(3)`. -/
def sample : unrolled_list Nat :=
  ⟨some 0, some 1, 3,
    fun a =>
      if a = 0 then some ⟨some 1, none, 2, fun i => if i = 0 then some 1 else if i = 1 then some 2 else none⟩
      else if a = 1 then some ⟨none, some 0, 1, fun i => if i = 0 then some 3 else none⟩
      else none,
    2⟩

/-- The elements of `sample` in another layout: buckets `[1] -> [2,3]`. -/
def sample_alt : unrolled_list Nat :=
  ⟨some 0, some 1, 3,
    fun a =>
      if a = 0 then some ⟨some 1, none, 1, fun i => if i = 0 then some 1 else none⟩
      else if a = 1 then some ⟨none, some 0, 2, fun i => if i = 0 then some 2 else if i = 1 then some 3 else none⟩
      else none,
    2⟩

/-- One-element container: a single bucket `[5]` at address 0. -/
def single : unrolled_list Nat :=
  ⟨some 0, some 0, 1,
    fun a => if a = 0 then some ⟨none, none, 1, fun i => if i = 0 then some 5 else none⟩
      else none,
    1⟩

end unrolled_list

/-! ## Range operations, comparison, copy and reverse iteration -/

namespace unrolled_list

/-- Loop of `erase(const_iterator first, const_iterator last)`:
`while (it != last) it = erase(it);`, one unit of fuel per loop test. -/
def erase_loop : Nat → unrolled_list T → Iterator → Iterator →
    Option (Iterator × unrolled_list T)
  | 0, _, _, _ => none
  | fuel + 1, l, it, last =>
    if it.eq last then some (it, l)
    else
      match l.erase it with
      | some (it1, l1) => erase_loop fuel l1 it1 last
      | none => none

/-- `erase(const_iterator first, const_iterator last)`; each pass of a loop
that comes to an end removes an element, so the loop is given one test more
than there are elements. -/
def erase_range (l : unrolled_list T) (first last : Iterator) :
    Option (Iterator × unrolled_list T) :=
  erase_loop (l.total_size + 1) l first last

/-- Loop of `insert(const_iterator pos, size_type n, const T& value)`:
`for (i = 0; i < n; ++i) { it = insert(pos, value); ++pos; }`. -/
def insert_n_loop (K : Nat) : Nat → unrolled_list T → Iterator → Iterator → T →
    Option (Iterator × unrolled_list T)
  | 0, l, _, it, _ => some (it, l)
  | n + 1, l, pos, _, value =>
    match l.insert K pos value with
    | some (it1, l1) =>
      match pos.inc l1 with
      | some pos1 => insert_n_loop K n l1 pos1 it1 value
      | none => none
    | none => none

/-- `insert(const_iterator pos, size_type n, const T& value)`. -/
def insert_n (K : Nat) (l : unrolled_list T) (pos : Iterator) (n : Nat) (value : T) :
    Option (Iterator × unrolled_list T) :=
  insert_n_loop K n l pos pos value

/-- `insert(const_iterator pos, InputIt first, InputIt last)` over the range
`xs`: `for (; first != last; ++first) { pos = insert(pos, *first); ++pos; }`. -/
def insert_range (K : Nat) : unrolled_list T → Iterator → List T → Option (unrolled_list T)
  | l, _, [] => some l
  | l, pos, x :: xs =>
    match l.insert K pos x with
    | some (it, l1) =>
      match it.inc l1 with
      | some pos1 => insert_range K l1 pos1 xs
      | none => none
    | none => none

/-- `unrolled_list(InputIt first, InputIt last)` and
`unrolled_list(std::initializer_list<T>)`: `insert(end(), first, last)` on the
new, empty container. -/
def from_range (K : Nat) (xs : List T) : Option (unrolled_list T) :=
  insert_range K empty_list (empty_list : unrolled_list T).end_ xs

/-- `std::equal(first1, last1, first2)` over the two containers:
`for (; first1 != last1; ++first1, ++first2) if (!(*first1 == *first2)) return false;
return true;`. -/
def equal_loop [DecidableEq T] (a b : unrolled_list T) :
    Nat → Iterator → Iterator → Option Bool
  | 0, _, _ => none
  | fuel + 1, it1, it2 =>
    if it1.eq a.end_ then some true
    else
      match it1.deref a, it2.deref b with
      | some x, some y =>
        if x = y then
          match it1.inc a, it2.inc b with
          | some i1, some i2 => equal_loop a b fuel i1 i2
          | _, _ => none
        else some false
      | _, _ => none

/-- `operator==`. -/
def equals [DecidableEq T] (a b : unrolled_list T) : Option Bool :=
  if a.total_size ≠ b.total_size then some false
  else equal_loop a b (a.total_size + 1) a.begin_ b.begin_

/-- `operator!=`. -/
def not_equals [DecidableEq T] (a b : unrolled_list T) : Option Bool :=
  (equals a b).map (fun r => !r)

/-- Loop of `copy_from`: `for (const auto& element : other) push_back(element);`. -/
def copy_loop (K : Nat) (other : unrolled_list T) :
    Nat → Iterator → unrolled_list T → Option (unrolled_list T)
  | 0, _, _ => none
  | fuel + 1, it, l =>
    if it.eq other.end_ then some l
    else
      match it.deref other with
      | some element =>
        match l.push_back K element with
        | some l1 =>
          match it.inc other with
          | some it1 => copy_loop K other fuel it1 l1
          | none => none
        | none => none
      | none => none

/-- `copy_from(other)` on the container `l`. -/
def copy_from (K : Nat) (l other : unrolled_list T) : Option (unrolled_list T) :=
  copy_loop K other (other.total_size + 1) other.begin_ l

/-- Copy constructor `unrolled_list(const unrolled_list& other)`: `copy_from`
on the new, empty container. -/
def copy (K : Nat) (other : unrolled_list T) : Option (unrolled_list T) :=
  copy_from K empty_list other

/-- Reverse iteration `for (r = rbegin(); r != rend(); ++r) out.push_back(*r)`
in terms of the base iterator `cur` of `std::reverse_iterator`: the test is
`cur != begin()`, `*r` dereferences the decremented base and `++r` decrements
the base. -/
def collect_rev (l : unrolled_list T) : Nat → Iterator → Option (List T)
  | 0, _ => none
  | fuel + 1, cur =>
    if cur.eq l.begin_ then some []
    else
      match cur.dec l with
      | some tmp =>
        match tmp.deref l with
        | some v => (collect_rev l fuel tmp).map (fun rest => v :: rest)
        | none => none
      | none => none

/-- Element sequence seen by reverse iteration from `rbegin()` to `rend()`. -/
def to_list_rev (l : unrolled_list T) : Option (List T) :=
  l.collect_rev (l.total_size + 1) l.end_

/-- `front()`. -/
def front (l : unrolled_list T) : Option T :=
  l.begin_.deref l

/-- `back()`: `auto it = end(); --it; return *it;`. -/
def back (l : unrolled_list T) : Option T :=
  match l.end_.dec l with
  | some it => it.deref l
  | none => none

end unrolled_list

/-! ## Arguments passed by reference

`push_back`, `push_front` and `insert` take their argument as `const T&` and
read it where the new element is constructed, after any allocation and after
the shift loop.  The argument may be an object outside the node storage or an
element of the container itself (`l.push_front(l.back())`).  The functions
below keep the reference and read through it at the point where the source
does; the functions above, which take the value, are the case of an argument
outside the node storage. -/

/-- Argument bound to a `const T&` parameter: an object outside the node
storage, or the element in slot `index` of the node at address `node`. -/
inductive Arg (T : Type) where
  | value (v : T)
  | slot (node : Nat) (index : Nat)

/-- Read through the reference in the state `l`: the object, or the live
object in the slot. -/
def Arg.read (l : unrolled_list T) : Arg T → Option T
  | Arg.value v => some v
  | Arg.slot a i =>
    match l.nodes a with
    | some n => n.elements i
    | none => none

namespace unrolled_list

/-- `push_back(const T&)` with the argument read at
`new(place) T(value)`, after the allocation branch. -/
def push_back_ref (K : Nat) (l : unrolled_list T) (value : Arg T) :
    Option (unrolled_list T) :=
  let full : Option Bool :=
    match l.tail with
    | none => some true
    | some t => (l.nodes t).map (fun n => n.size == K)
  match full with
  | none => none
  | some c =>
    match (if c then l.link_back else some l) with
    | none => none
    | some l1 =>
      match l1.tail with
      | none => none
      | some t =>
        match l1.nodes t with
        | none => none
        | some n =>
          match value.read l1 with
          | none => none
          | some v =>
            some { l1.write t { n.construct n.size v with size := n.size + 1 } with
                   total_size := l1.total_size + 1 }

/-- `push_front(const T&)` with the argument read at
`new(head->element_ptr(0)) T(value)`, after the allocation branch or the
shift loop. -/
def push_front_ref (K : Nat) (l : unrolled_list T) (value : Arg T) :
    Option (unrolled_list T) :=
  let full : Option Bool :=
    match l.head with
    | none => some true
    | some h => (l.nodes h).map (fun n => n.size == K)
  match full with
  | none => none
  | some c =>
    match (if c then l.link_front else l.shift_head) with
    | none => none
    | some l1 =>
      match l1.head with
      | none => none
      | some h =>
        match l1.nodes h with
        | none => none
        | some n =>
          match value.read l1 with
          | none => none
          | some v =>
            some { l1.write h { n.construct 0 v with size := n.size + 1 } with
                   total_size := l1.total_size + 1 }

/-- Shift-and-construct step of `insert` on the node at `a`, whose record is
`n`: the slots `[index, size)` are shifted right by one in place, then the
argument is read and constructed in slot `index`, and the element is counted
in the node. -/
def place_ref (l : unrolled_list T) (a : Nat) (n : Node T) (index : Nat) (value : Arg T) :
    Option (unrolled_list T) :=
  match n.shift_right index n.size with
  | none => none
  | some n1 =>
    match value.read (l.write a n1) with
    | none => none
    | some v => some (l.write a { n1.construct index v with size := n1.size + 1 })

/-- Split branch of `insert` with the argument read where it is constructed,
after the move loop and the shift loop. -/
def insert_split_ref (K : Nat) (l : unrolled_list T) (a : Nat) (n : Node T) (index : Nat)
    (value : Arg T) : Option (Iterator × unrolled_list T) :=
  match l.link_after a n with
  | none => none
  | some (p, l6) =>
    let mid := K / 2
    match l6.nodes a, l6.nodes p with
    | some src, some dst =>
      let num_to_move := size_t_sub src.size mid
      match Node.move_across mid 0 num_to_move (src, dst) with
      | none => none
      | some (src1, dst1) =>
        let dst2 := { dst1 with size := num_to_move }
        let src2 := { src1 with size := mid }
        let l7 := (l6.write p dst2).write a src2
        if index ≤ mid then
          (place_ref l7 a src2 index value).map (fun l8 =>
            (⟨some a, index⟩, { l8 with total_size := l6.total_size + 1 }))
        else
          let new_index := size_t_sub index mid
          (place_ref l7 p dst2 new_index value).map (fun l8 =>
            (⟨some p, new_index⟩, { l8 with total_size := l6.total_size + 1 }))
    | _, _ => none

/-- `insert(const_iterator, const T&)` with the argument read where it is
constructed. -/
def insert_ref (K : Nat) (l : unrolled_list T) (pos : Iterator) (value : Arg T) :
    Option (Iterator × unrolled_list T) :=
  if pos.eq l.end_ then
    match l.push_back_ref K value with
    | none => none
    | some l1 => (Iterator.dec l1 l1.end_).map (fun it => (it, l1))
  else
    match pos.node with
    | none => none
    | some a =>
      match l.nodes a with
      | none => none
      | some n =>
        if n.size ≤ K then
          (place_ref l a n pos.index value).map (fun l1 =>
            (⟨some a, pos.index⟩, { l1 with total_size := l.total_size + 1 }))
        else insert_split_ref K l a n pos.index value

/-- One bucket `[1,2,3]` at address 0, as left by `push_back` of 1, 2, 3 with
`K = 10`. -/
def triple : unrolled_list Nat :=
  ⟨some 0, some 0, 3,
    fun a =>
      if a = 0 then
        some ⟨none, none, 3,
          fun i => if i = 0 then some 1 else if i = 1 then some 2 else if i = 2 then some 3
            else none⟩
      else none,
    1⟩

end unrolled_list

/-! ## Slot loops -/

theorem size_t_sub_of_le {a b : Nat} (h : b ≤ a) : size_t_sub a b = a - b := by
  simp [size_t_sub, h]

theorem Holds.mix_length {n : Node T} {xs : List T} (zs : List T) (h : Holds n xs)
    (hz : zs.length ≤ xs.length + 1) : Mix n xs zs xs.length := by
  intro k
  rw [h.2 k]
  split_ifs with h1 h2
  · rfl
  · subst h2; simp
  · rw [List.getElem?_eq_none (by omega), List.getElem?_eq_none (by omega)]

theorem Mix.holds_of_construct {n : Node T} {lo hi : List T} {j : Nat} {v : T}
    (h : Mix n lo hi j) (hlo : ∀ k, k < j → lo[k]? = hi[k]?) (hv : hi[j]? = some v)
    (sz : Nat) (hsz : sz = hi.length) :
    Holds { n.construct j v with size := sz } hi := by
  refine ⟨hsz, fun k => ?_⟩
  simp only [Node.construct, Function.update_apply]
  split_ifs with h1
  · subst h1; exact hv.symm
  · rw [h k]
    split_ifs with h2
    · exact hlo k h2
    · rfl

theorem shift_right_mix (xs zs : List T) (i : Nat) :
    ∀ (j : Nat) (n : Node T), i ≤ j → j ≤ xs.length →
      (∀ k, i ≤ k → k < j → zs[k + 1]? = xs[k]?) → Mix n xs zs j →
      ∃ n1, n.shift_right i j = some n1 ∧ Mix n1 xs zs i ∧ n1.next = n.next ∧
        n1.prev = n.prev ∧ n1.size = n.size := by
  intro j
  induction j with
  | zero =>
    intro n hi _ _ hm
    have : i = 0 := by omega
    subst this
    exact ⟨n, rfl, hm, rfl, rfl, rfl⟩
  | succ j ih =>
    intro n hi hj hz hm
    by_cases hlt : i < j + 1
    · have hjx : j < xs.length := by omega
      have hej : n.elements j = some xs[j] := by
        rw [hm j]; simp [List.getElem?_eq_getElem hjx]
      obtain ⟨m, hmdef⟩ : ∃ m : Node T, m = ⟨n.next, n.prev, n.size,
          Function.update (Function.update n.elements (j + 1) (some xs[j])) j none⟩ :=
        ⟨_, rfl⟩
      have hmove : n.move_slot j (j + 1) = some m := by
        simp [Node.move_slot, Node.construct, Node.destroy, hej, Function.update_apply, hmdef]
      have hm1 : Mix m xs zs j := by
        intro k
        simp only [hmdef, Function.update_apply]
        by_cases h1 : k = j
        · subst h1; simp
        · by_cases h2 : k = j + 1
          · subst h2
            have h3 : ¬ (j + 1 < j) := by omega
            simp only [h1, h3, if_false, if_true]
            rw [hz j (by omega) (by omega), List.getElem?_eq_getElem hjx]
          · simp only [h1, h2, if_false, hm k]
            by_cases h3 : k < j
            · have h4 : k < j + 1 := by omega
              simp [h3, h4]
            · have h4 : ¬ k < j + 1 := by omega
              simp [h3, h4]
      obtain ⟨n1, h1, h2, h3, h4, h5⟩ :=
        ih m (by omega) (by omega) (fun k hk1 hk2 => hz k hk1 (by omega)) hm1
      refine ⟨n1, ?_, h2, ?_, ?_, ?_⟩
      · simp [Node.shift_right, hlt, hmove, h1]
      · rw [h3, hmdef]
      · rw [h4, hmdef]
      · rw [h5, hmdef]
    · have : i = j + 1 := by omega
      subst this
      exact ⟨n, by simp [Node.shift_right], hm, rfl, rfl, rfl⟩

theorem getElem?_ins_lt (xs : List T) (i : Nat) (v : T) (k : Nat) (hk : k < i)
    (hi : i ≤ xs.length) : (ins xs i v)[k]? = xs[k]? := by
  unfold ins
  rw [List.getElem?_append_left (by simp; omega), List.getElem?_take_of_lt hk]

theorem getElem?_ins_self (xs : List T) (i : Nat) (v : T) (hi : i ≤ xs.length) :
    (ins xs i v)[i]? = some v := by
  unfold ins
  rw [List.getElem?_append_right (by simp)]
  simp [Nat.min_eq_left hi]

theorem getElem?_ins_gt (xs : List T) (i : Nat) (v : T) (k : Nat) (hk : i ≤ k)
    (hi : i ≤ xs.length) : (ins xs i v)[k + 1]? = xs[k]? := by
  unfold ins
  rw [List.getElem?_append_right (by simp; omega)]
  simp only [List.length_take, Nat.min_eq_left hi]
  have : k + 1 - i = (k - i) + 1 := by omega
  rw [this, List.getElem?_cons_succ, List.getElem?_drop]
  congr 1; omega

theorem length_ins (xs : List T) (i : Nat) (v : T) :
    (ins xs i v).length = xs.length + 1 := by
  simp [ins]; omega

theorem place_holds {n : Node T} {xs : List T} (h : Holds n xs) (i : Nat) (v : T)
    (hi : i ≤ xs.length) :
    ∃ n1, unrolled_list.place n i v = some n1 ∧ Holds n1 (ins xs i v) ∧
      n1.next = n.next ∧ n1.prev = n.prev := by
  obtain ⟨n1, h1, h2, h3, h4, h5⟩ :=
    shift_right_mix xs (ins xs i v) i xs.length n hi le_rfl
      (fun k hk1 _ => getElem?_ins_gt xs i v k hk1 hi)
      (h.mix_length _ (by rw [length_ins]))
  refine ⟨{ n1.construct i v with size := n1.size + 1 }, ?_, ?_, h3, h4⟩
  · simp [unrolled_list.place, h.1, h1]
  · exact h2.holds_of_construct (fun k hk => (getElem?_ins_lt xs i v k hk hi).symm)
      (getElem?_ins_self xs i v hi) _ (by rw [length_ins, h5, h.1])

theorem fill_buffer_eq (n : Node T) (xs : List T) :
    ∀ (c s : Nat), (∀ k, s ≤ k → k < s + c → n.elements k = xs[k]?) → s + c ≤ xs.length →
      n.fill_buffer s c = some ((xs.drop s).take c) := by
  intro c
  induction c with
  | zero => intro s _ _; simp [Node.fill_buffer]
  | succ c ih =>
    intro s he hs
    have hsx : s < xs.length := by omega
    have h0 : n.elements s = some xs[s] := by
      rw [he s le_rfl (by omega), List.getElem?_eq_getElem hsx]
    have h1 := ih (s + 1) (fun k hk1 hk2 => he k (by omega) (by omega)) (by omega)
    rw [Node.fill_buffer, h0]
    simp only [h1, Option.map_some']
    rw [List.drop_eq_getElem_cons hsx, List.take_succ_cons]

theorem drain_buffer_mix (ys xs : List T) :
    ∀ (b : List T) (j : Nat) (n : Node T), Mix n ys xs j →
      (∀ m, m < b.length → xs[j + 1 + m]? = b[m]? ∧ ys[j + m]? = b[m]?) →
      ∃ n1, n.drain_buffer j b = some n1 ∧ Mix n1 ys xs (j + b.length) ∧
        n1.next = n.next ∧ n1.prev = n.prev ∧ n1.size = n.size := by
  intro b
  induction b with
  | nil => intro j n hm _; exact ⟨n, rfl, by simpa using hm, rfl, rfl, rfl⟩
  | cons v rest ih =>
    intro j n hm hb
    have hb0 := hb 0 (by simp)
    simp only [Nat.add_zero, List.getElem?_cons_zero] at hb0
    have hej : n.elements (j + 1) = some v := by
      rw [hm (j + 1)]
      have h1 : ¬ (j + 1 < j) := by omega
      simp [h1, hb0.1]
    obtain ⟨m, hmdef⟩ : ∃ m : Node T, m = ⟨n.next, n.prev, n.size,
        Function.update (Function.update n.elements (j + 1) none) j (some v)⟩ := ⟨_, rfl⟩
    have hstep : n.destroy (j + 1) = some ⟨n.next, n.prev, n.size,
        Function.update n.elements (j + 1) none⟩ := by
      simp [Node.destroy, hej]
    have hm1 : Mix m ys xs (j + 1) := by
      intro k
      simp only [hmdef, Function.update_apply]
      by_cases h1 : k = j
      · subst h1; simp [hb0.2]
      · by_cases h2 : k = j + 1
        · subst h2; simp
        · simp only [h1, h2, if_false, hm k]
          by_cases h3 : k < j
          · have h4 : k < j + 1 := by omega
            simp [h3, h4]
          · have h4 : ¬ k < j + 1 := by omega
            simp [h3, h4]
    obtain ⟨n1, h1, h2, h3, h4, h5⟩ := ih (j + 1) m hm1 (fun k hk => by
      have := hb (k + 1) (by simp; omega)
      simp only [List.getElem?_cons_succ] at this
      constructor
      · rw [← this.1]; congr 1; omega
      · rw [← this.2]; congr 1; omega)
    refine ⟨n1, ?_, ?_, ?_, ?_, ?_⟩
    · rw [Node.drain_buffer, hstep]
      simp only [Node.construct]
      rw [← hmdef, h1]
    · have : j + (v :: rest).length = j + 1 + rest.length := by simp; omega
      rw [this]; exact h2
    · rw [h3, hmdef]
    · rw [h4, hmdef]
    · rw [h5, hmdef]

theorem getElem?_eraseIdx_lt (xs : List T) (i k : Nat) (hk : k < i) :
    (xs.eraseIdx i)[k]? = xs[k]? := by
  rw [List.getElem?_eraseIdx]; simp [hk]

theorem getElem?_eraseIdx_ge (xs : List T) (i k : Nat) (hk : i ≤ k) :
    (xs.eraseIdx i)[k]? = xs[k + 1]? := by
  rw [List.getElem?_eraseIdx]
  have : ¬ k < i := by omega
  simp [this]

/-- Slot work of `erase` (and of `pop_front`, with `i = 0`): destroy slot `i`,
shift the slots above it down, decrement `size`. -/
theorem erase_slot_holds {n : Node T} {xs : List T} (h : Holds n xs) (i : Nat)
    (hi : i < xs.length) :
    ∃ n1 n2, n.destroy i = some n1 ∧
      unrolled_list.shift_left n1 i (size_t_sub (size_t_sub n1.size i) 1) = some n2 ∧
      Holds ⟨n2.next, n2.prev, size_t_sub n2.size 1, n2.elements⟩ (xs.eraseIdx i) ∧
      n2.next = n.next ∧ n2.prev = n.prev := by
  have hei : n.elements i = some xs[i] := by rw [h.2 i, List.getElem?_eq_getElem hi]
  obtain ⟨n1, hn1⟩ : ∃ n1 : Node T, n1 = ⟨n.next, n.prev, n.size,
      Function.update n.elements i none⟩ := ⟨_, rfl⟩
  have hd : n.destroy i = some n1 := by simp [Node.destroy, hei, hn1]
  have hsz : n1.size = xs.length := by rw [hn1]; exact h.1
  have hcount : size_t_sub (size_t_sub n1.size i) 1 = xs.length - i - 1 := by
    rw [hsz, size_t_sub_of_le (Nat.le_of_lt hi), size_t_sub_of_le (by omega)]
  have hmix : Mix n1 (xs.eraseIdx i) xs i := by
    intro k
    simp only [hn1, Function.update_apply]
    by_cases h1 : k = i
    · subst h1; simp
    · simp only [h1, if_false, h.2 k]
      by_cases h2 : k < i
      · simp [h2, getElem?_eraseIdx_lt xs i k h2]
      · simp [h2]
  have hlen : (xs.eraseIdx i).length = xs.length - 1 := List.length_eraseIdx_of_lt hi
  have hfinal : ∀ (n2 : Node T), Mix n2 (xs.eraseIdx i) xs (xs.length - 1) →
      n2.size = xs.length →
      Holds ⟨n2.next, n2.prev, size_t_sub n2.size 1, n2.elements⟩ (xs.eraseIdx i) := by
    intro n2 hm2 hs2
    refine ⟨?_, fun k => ?_⟩
    · show size_t_sub n2.size 1 = _
      rw [hs2, size_t_sub_of_le (by omega), hlen]
    · show n2.elements k = _
      rw [hm2 k]
      by_cases h1 : k < xs.length - 1
      · simp [h1]
      · by_cases h2 : k = xs.length - 1
        · subst h2
          simp only [h1, if_false, if_true]
          rw [List.getElem?_eq_none (by omega)]
        · simp only [h1, h2, if_false]
          rw [List.getElem?_eq_none (by omega), List.getElem?_eq_none (by omega)]
  by_cases hc : xs.length - i - 1 > 0
  · have hfill := fill_buffer_eq n1 xs (xs.length - i - 1) (i + 1)
      (fun k hk1 _ => by
        have : k ≠ i := by omega
        simp [hn1, Function.update_apply, this, h.2 k]) (by omega)
    obtain ⟨n2, h1, h2, h3, h4, h5⟩ := drain_buffer_mix (xs.eraseIdx i) xs
      ((xs.drop (i + 1)).take (xs.length - i - 1)) i n1 hmix (fun m hm => by
        have hm' : m < xs.length - i - 1 := by
          simp only [List.length_take, List.length_drop] at hm; omega
        have e1 : ((xs.drop (i + 1)).take (xs.length - i - 1))[m]? = xs[i + 1 + m]? := by
          rw [List.getElem?_take_of_lt hm', List.getElem?_drop]
        constructor
        · rw [e1]
        · rw [e1, getElem?_eraseIdx_ge xs i (i + m) (by omega)]
          congr 1; omega)
    have hl : i + ((xs.drop (i + 1)).take (xs.length - i - 1)).length = xs.length - 1 := by
      simp; omega
    rw [hl] at h2
    refine ⟨n1, n2, hd, ?_, hfinal n2 h2 (by rw [h5, hsz]), ?_, ?_⟩
    · rw [hcount]
      simp [unrolled_list.shift_left, hc, hfill, h1]
    · rw [h3, hn1]
    · rw [h4, hn1]
  · have hi' : i = xs.length - 1 := by omega
    refine ⟨n1, n1, hd, ?_, hfinal n1 (by rw [← hi']; exact hmix) hsz, ?_, ?_⟩
    · rw [hcount]
      simp [unrolled_list.shift_left, hc]
    · rw [hn1]
    · rw [hn1]

theorem append_holds {n : Node T} {xs : List T} (h : Holds n xs) (v : T) :
    Holds ({ n.construct n.size v with size := n.size + 1 }) (xs ++ [v]) := by
  refine ⟨by simp [h.1], fun k => ?_⟩
  simp only [Node.construct, Function.update_apply, h.1]
  by_cases h1 : k = xs.length
  · subst h1; simp
  · simp only [h1, if_false, h.2 k]
    by_cases h2 : k < xs.length
    · rw [List.getElem?_append_left h2]
    · rw [List.getElem?_eq_none (by omega), List.getElem?_eq_none (by simp; omega)]

theorem drop_last_holds {n : Node T} {xs : List T} (h : Holds n xs) (hx : 0 < xs.length) :
    ∃ n1, n.destroy (size_t_sub n.size 1) = some n1 ∧
      Holds ({ n1 with size := size_t_sub n1.size 1 }) xs.dropLast ∧
      n1.next = n.next ∧ n1.prev = n.prev := by
  have hs : size_t_sub n.size 1 = xs.length - 1 := by
    rw [h.1, size_t_sub_of_le (by omega)]
  have hlt : xs.length - 1 < xs.length := by omega
  have he : n.elements (xs.length - 1) = some xs[xs.length - 1] := by
    rw [h.2, List.getElem?_eq_getElem hlt]
  refine ⟨⟨n.next, n.prev, n.size, Function.update n.elements (xs.length - 1) none⟩,
    ?_, ⟨?_, fun k => ?_⟩, rfl, rfl⟩
  · rw [hs]; simp [Node.destroy, he]
  · show size_t_sub n.size 1 = _
    rw [hs]; simp
  · show Function.update n.elements (xs.length - 1) none k = _
    simp only [Function.update_apply]
    by_cases h1 : k = xs.length - 1
    · subst h1; simp
    · simp only [h1, if_false, h.2 k]
      by_cases h2 : k < xs.length - 1
      · rw [List.getElem?_dropLast]
        simp [List.getElem?_take_of_lt, h2]
      · rw [List.getElem?_eq_none (by omega), List.getElem?_eq_none (by simp; omega)]

theorem destroy_all_isSome :
    ∀ (c i : Nat) (n : Node T), (∀ k, i ≤ k → k < i + c → (n.elements k).isSome) →
      (n.destroy_all i c).isSome := by
  intro c
  induction c with
  | zero => intro i n _; simp [Node.destroy_all]
  | succ c ih =>
    intro i n h
    obtain ⟨v, hv⟩ := Option.isSome_iff_exists.mp (h i le_rfl (by omega))
    simp only [Node.destroy_all, Node.destroy, hv]
    apply ih
    intro k hk1 hk2
    have : k ≠ i := by omega
    simp only [Function.update_apply, this, if_false]
    exact h k (by omega) (by omega)

theorem Holds.destroy_all_defined {n : Node T} {xs : List T} (h : Holds n xs) :
    (n.destroy_all 0 n.size).isSome := by
  apply destroy_all_isSome
  intro k _ hk
  rw [h.2 k, List.getElem?_eq_getElem (by rw [← h.1]; omega)]
  rfl

theorem first_addr_append (l1 l2 : List (Nat × List T)) (q : Option Nat) :
    first_addr (l1 ++ l2) q = first_addr l1 (first_addr l2 q) := by
  cases l1 <;> rfl

theorem last_addr_append (l1 l2 : List (Nat × List T)) (p : Option Nat) :
    last_addr (l1 ++ l2) p = last_addr l2 (last_addr l1 p) := by
  induction l1 generalizing p with
  | nil => rfl
  | cons b rest ih => exact ih (some b.1)

theorem last_addr_mem (l : List (Nat × List T)) (p : Option Nat) (t : Nat)
    (h : last_addr l p = some t) : p = some t ∨ t ∈ l.map Prod.fst := by
  induction l generalizing p with
  | nil => exact Or.inl h
  | cons b rest ih =>
    rcases ih (some b.1) h with h1 | h1
    · right; simp only [Option.some.injEq] at h1; simp [h1]
    · right; simp only [List.map_cons, List.mem_cons]; exact Or.inr h1

theorem last_addr_cons_ne_none (b : Nat × List T) (l : List (Nat × List T)) (p : Option Nat) :
    ∃ t, last_addr (b :: l) p = some t := by
  induction l generalizing b p with
  | nil => exact ⟨b.1, rfl⟩
  | cons c rest ih => exact ih c (some b.1)

theorem seg_cons (nodes : Nat → Option (Node T)) (b : Nat × List T)
    (rest : List (Nat × List T)) (p q : Option Nat) :
    Seg nodes p (b :: rest) q ↔
      ∃ n, nodes b.1 = some n ∧ n.prev = p ∧ n.next = first_addr rest q ∧ Holds n b.2 ∧
        Seg nodes (some b.1) rest q :=
  Iff.rfl

theorem seg_append (nodes : Nat → Option (Node T)) (l1 l2 : List (Nat × List T))
    (p q : Option Nat) :
    Seg nodes p (l1 ++ l2) q ↔
      Seg nodes p l1 (first_addr l2 q) ∧ Seg nodes (last_addr l1 p) l2 q := by
  induction l1 generalizing p with
  | nil => simp [Seg, last_addr]
  | cons b rest ih =>
    rw [List.cons_append, seg_cons, seg_cons, ih, first_addr_append]
    constructor
    · rintro ⟨n, h1, h2, h3, h4, h5, h6⟩
      exact ⟨⟨n, h1, h2, h3, h4, h5⟩, h6⟩
    · rintro ⟨⟨n, h1, h2, h3, h4, h5⟩, h6⟩
      exact ⟨n, h1, h2, h3, h4, h5, h6⟩

theorem seg_frame {nodes nodes' : Nat → Option (Node T)} {bs : List (Nat × List T)}
    {p q : Option Nat} (hf : ∀ a ∈ bs.map Prod.fst, nodes' a = nodes a)
    (h : Seg nodes p bs q) : Seg nodes' p bs q := by
  induction bs generalizing p with
  | nil => trivial
  | cons b rest ih =>
    obtain ⟨n, h1, h2, h3, h4, h5⟩ := h
    refine ⟨n, ?_, h2, h3, h4, ih (fun a ha => hf a ?_) h5⟩
    · rw [hf b.1 (by simp), h1]
    · simp only [List.map_cons, List.mem_cons]; exact Or.inr ha

theorem seg_single (nodes : Nat → Option (Node T)) (a : Nat) (xs : List T)
    (p q : Option Nat) :
    Seg nodes p [(a, xs)] q ↔
      ∃ n, nodes a = some n ∧ n.prev = p ∧ n.next = q ∧ Holds n xs := by
  simp [Seg, first_addr]

/-- Changing only the `next` field of the last node of a segment retargets
the segment. -/
theorem seg_set_next {nodes : Nat → Option (Node T)} {bs : List (Nat × List T)}
    {p q : Option Nat} (q' : Option Nat) (t : Nat) (n : Node T)
    (h : Seg nodes p bs q) (hnd : (bs.map Prod.fst).Nodup) (hne : bs ≠ [])
    (ht : last_addr bs p = some t) (hn : nodes t = some n) :
    Seg (Function.update nodes t (some ⟨q', n.prev, n.size, n.elements⟩)) p bs q' := by
  induction bs generalizing p with
  | nil => exact absurd rfl hne
  | cons b rest ih =>
    obtain ⟨m, h1, h2, h3, h4, h5⟩ := h
    cases rest with
    | nil =>
      simp only [last_addr, Option.some.injEq] at ht
      subst ht
      rw [h1] at hn
      simp only [Option.some.injEq] at hn
      subst hn
      exact ⟨⟨q', m.prev, m.size, m.elements⟩, by simp, h2, rfl, ⟨h4.1, h4.2⟩, trivial⟩
    | cons c rest' =>
      have hnd' : ((c :: rest').map Prod.fst).Nodup := (List.nodup_cons.mp hnd).2
      have hb : b.1 ∉ (c :: rest').map Prod.fst := (List.nodup_cons.mp hnd).1
      have htm : t ∈ (c :: rest').map Prod.fst := by
        rcases last_addr_mem (c :: rest') (some b.1) t ht with h6 | h6
        · obtain ⟨t', ht'⟩ := last_addr_cons_ne_none c rest' (some b.1)
          have : last_addr (c :: rest') (some b.1) = last_addr (c :: rest') (some c.1) := rfl
          rcases last_addr_mem rest' (some c.1) t ht with h7 | h7
          · simp only [Option.some.injEq] at h7; simp [h7]
          · simp only [List.map_cons, List.mem_cons]; exact Or.inr h7
        · exact h6
      have hbt : b.1 ≠ t := fun e => hb (e ▸ htm)
      refine ⟨m, ?_, h2, h3, h4, ih h5 hnd' (by simp) ht⟩
      simp [Function.update_apply, hbt, h1]

/-- Changing only the `prev` field of the first node of a segment retargets
the segment. -/
theorem seg_set_prev {nodes : Nat → Option (Node T)} {b : Nat × List T}
    {rest : List (Nat × List T)} {p q : Option Nat} (p' : Option Nat) (n : Node T)
    (h : Seg nodes p (b :: rest) q) (hnd : ((b :: rest).map Prod.fst).Nodup)
    (hn : nodes b.1 = some n) :
    Seg (Function.update nodes b.1 (some ⟨n.next, p', n.size, n.elements⟩)) p'
      (b :: rest) q := by
  obtain ⟨m, h1, h2, h3, h4, h5⟩ := h
  rw [h1] at hn
  simp only [Option.some.injEq] at hn
  subst hn
  refine ⟨⟨m.next, p', m.size, m.elements⟩, by simp, rfl, h3, ⟨h4.1, h4.2⟩,
    seg_frame (fun a ha => ?_) h5⟩
  have hb : b.1 ∉ rest.map Prod.fst := (List.nodup_cons.mp hnd).1
  have : a ≠ b.1 := fun e => hb (e ▸ ha)
  simp [Function.update_apply, this]

/-- Replacing the contents of one node, links unchanged, replaces its bucket. -/
theorem seg_replace {nodes : Nat → Option (Node T)} {l1 l2 : List (Nat × List T)}
    {a : Nat} {xs : List T} {p q : Option Nat} (ys : List T) (n' : Node T)
    (h : Seg nodes p (l1 ++ (a, xs) :: l2) q)
    (hnd : ((l1 ++ (a, xs) :: l2).map Prod.fst).Nodup)
    (hl : ∀ n, nodes a = some n → n'.next = n.next ∧ n'.prev = n.prev)
    (hh : Holds n' ys) :
    Seg (Function.update nodes a (some n')) p (l1 ++ (a, ys) :: l2) q := by
  rw [seg_append] at h ⊢
  obtain ⟨h1, n, h2, h3, h4, h5, h6⟩ := h
  simp only [List.map_append, List.map_cons, List.nodup_append, List.nodup_cons] at hnd
  obtain ⟨hn1, ⟨hn2, hn3⟩, hn4⟩ := hnd
  refine ⟨seg_frame (fun b hb => ?_) h1, n', by simp, ?_, ?_, hh, seg_frame (fun b hb => ?_) h6⟩
  · have : b ≠ a := fun e => hn4 hb (by simp [e])
    simp [Function.update_apply, this]
  · rw [(hl n h2).2, h3]
  · rw [(hl n h2).1, h4]
  · have : b ≠ a := fun e => hn2 (e ▸ hb)
    simp [Function.update_apply, this]

/-! ## Forward iteration over a chain -/

theorem elems_nil : elems ([] : List (Nat × List T)) = [] := rfl

theorem elems_cons (b : Nat × List T) (rest : List (Nat × List T)) :
    elems (b :: rest) = b.2 ++ elems rest := rfl

theorem elems_append (l1 l2 : List (Nat × List T)) :
    elems (l1 ++ l2) = elems l1 ++ elems l2 := by
  simp [elems]

theorem length_elems (bs : List (Nat × List T)) :
    (elems bs).length = (bs.map (fun b => b.2.length)).sum := by
  induction bs with
  | nil => rfl
  | cons b rest ih => simp [elems_cons, ih]

theorem collect_bucket (l : unrolled_list T) (a : Nat) (n : Node T) (xs rest : List T)
    (hn : l.nodes a = some n) (hh : Holds n xs) :
    ∀ (d i f : Nat), i + (d + 1) = xs.length →
      l.collect f ⟨n.next, 0⟩ = some rest →
      l.collect (f + (d + 1)) ⟨some a, i⟩ = some (xs.drop i ++ rest) := by
  intro d
  induction d with
  | zero =>
    intro i f hi hr
    have hix : i < xs.length := by omega
    have hd : Iterator.deref l ⟨some a, i⟩ = some xs[i] := by
      simp [Iterator.deref, hn, hh.2 i, List.getElem?_eq_getElem hix]
    have hinc : Iterator.inc l ⟨some a, i⟩ = some ⟨n.next, 0⟩ := by
      have : ¬ i + 1 < n.size := by rw [hh.1]; omega
      simp [Iterator.inc, hn, this]
    have hdrop : xs.drop i = [xs[i]] := by
      rw [List.drop_eq_getElem_cons hix, List.drop_eq_nil_of_le (by omega)]
    show l.collect (f + 1) ⟨some a, i⟩ = _
    rw [unrolled_list.collect]
    simp [Iterator.eq, unrolled_list.end_, hd, hinc, hr, hdrop]
  | succ d ih =>
    intro i f hi hr
    have hix : i < xs.length := by omega
    have hd : Iterator.deref l ⟨some a, i⟩ = some xs[i] := by
      simp [Iterator.deref, hn, hh.2 i, List.getElem?_eq_getElem hix]
    have hinc : Iterator.inc l ⟨some a, i⟩ = some ⟨some a, i + 1⟩ := by
      have : i + 1 < n.size := by rw [hh.1]; omega
      simp [Iterator.inc, hn, this]
    have hrec := ih (i + 1) f (by omega) hr
    show l.collect (f + (d + 1) + 1) ⟨some a, i⟩ = _
    rw [unrolled_list.collect]
    simp only [Iterator.eq, unrolled_list.end_, hd, hinc, hrec, Option.map_some']
    rw [List.drop_eq_getElem_cons hix, List.cons_append]
    rfl

theorem collect_seg (l : unrolled_list T) :
    ∀ (bs : List (Nat × List T)) (p : Option Nat), Seg l.nodes p bs none →
      (∀ b ∈ bs, b.2 ≠ []) → ∀ f, (elems bs).length < f →
      l.collect f ⟨first_addr bs none, 0⟩ = some (elems bs) := by
  intro bs
  induction bs with
  | nil =>
    intro p _ _ f hf
    obtain ⟨f', rfl⟩ : ∃ f', f = f' + 1 := ⟨f - 1, by omega⟩
    simp [unrolled_list.collect, first_addr, Iterator.eq, unrolled_list.end_, elems_nil]
  | cons b rest ih =>
    intro p hs hne f hf
    obtain ⟨n, h1, _, h3, h4, h5⟩ := hs
    have hb : b.2 ≠ [] := hne b (by simp)
    have hlen : 0 < b.2.length := List.length_pos.mpr hb
    rw [elems_cons, List.length_append] at hf
    obtain ⟨d, hd⟩ : ∃ d, b.2.length = d + 1 := ⟨b.2.length - 1, by omega⟩
    obtain ⟨f', hf'⟩ : ∃ f', f = f' + (d + 1) := ⟨f - (d + 1), by omega⟩
    have hrest := ih (some b.1) h5 (fun c hc => hne c (by simp [hc])) f' (by omega)
    rw [← h3] at hrest
    have := collect_bucket l b.1 n b.2 (elems rest) h1 h4 d 0 f' (by omega) hrest
    rw [hf', elems_cons]
    simpa [first_addr] using this

theorem advance_add (l : unrolled_list T) :
    ∀ (m k : Nat) (it : Iterator),
      l.advance (m + k) it = (l.advance m it).bind (l.advance k) := by
  intro m
  induction m with
  | zero => intro k it; simp [unrolled_list.advance]
  | succ m ih =>
    intro k it
    have e : m + 1 + k = (m + k) + 1 := by omega
    rw [e, unrolled_list.advance, unrolled_list.advance]
    cases hinc : it.inc l with
    | none => rfl
    | some it1 => exact ih k it1

theorem advance_bucket (l : unrolled_list T) (a : Nat) (n : Node T) (xs : List T)
    (hn : l.nodes a = some n) (hh : Holds n xs) :
    ∀ (k j : Nat), j + k < xs.length →
      l.advance k ⟨some a, j⟩ = some ⟨some a, j + k⟩ := by
  intro k
  induction k with
  | zero => intro j _; rfl
  | succ k ih =>
    intro j hj
    have hinc : Iterator.inc l ⟨some a, j⟩ = some ⟨some a, j + 1⟩ := by
      have : j + 1 < n.size := by rw [hh.1]; omega
      simp [Iterator.inc, hn, this]
    rw [unrolled_list.advance, hinc]
    show l.advance k ⟨some a, j + 1⟩ = _
    rw [ih (j + 1) (by omega)]
    congr 2
    omega

theorem advance_cross (l : unrolled_list T) (a : Nat) (n : Node T) (xs : List T)
    (hn : l.nodes a = some n) (hh : Holds n xs) (hx : 0 < xs.length) :
    l.advance xs.length ⟨some a, 0⟩ = some ⟨n.next, 0⟩ := by
  obtain ⟨m, hm⟩ : ∃ m, xs.length = m + 1 := ⟨xs.length - 1, by omega⟩
  have hinc : Iterator.inc l ⟨some a, 0 + m⟩ = some ⟨n.next, 0⟩ := by
    have : ¬ (0 + m + 1 < n.size) := by rw [hh.1]; omega
    simp only [Iterator.inc, hn, this, if_false]
  rw [hm, advance_add, advance_bucket l a n xs hn hh m 0 (by omega)]
  show l.advance 1 ⟨some a, 0 + m⟩ = _
  rw [unrolled_list.advance, hinc]
  rfl

theorem advance_seg (l : unrolled_list T) (rest : List (Nat × List T)) :
    ∀ (l1 : List (Nat × List T)) (p : Option Nat), Seg l.nodes p (l1 ++ rest) none →
      (∀ b ∈ l1, b.2 ≠ []) →
      l.advance (elems l1).length ⟨first_addr (l1 ++ rest) none, 0⟩ =
        some ⟨first_addr rest none, 0⟩ := by
  intro l1
  induction l1 with
  | nil => intro p _ _; rfl
  | cons b l1 ih =>
    intro p hs hne
    obtain ⟨n, h1, _, h3, h4, h5⟩ := hs
    have hb : 0 < b.2.length := List.length_pos.mpr (hne b (by simp))
    rw [elems_cons, List.length_append, advance_add]
    show (l.advance b.2.length ⟨some b.1, 0⟩).bind _ = _
    rw [advance_cross l b.1 n b.2 h1 h4 hb, h3]
    exact ih (some b.1) h5 (fun c hc => hne c (by simp [hc]))

/-- Forward iteration over a chain of non-empty buckets yields the elements
of the buckets in chain order. -/
theorem to_list_chain {l : unrolled_list T} {bs : List (Nat × List T)} (h : Chain l bs)
    (hne : ∀ b ∈ bs, b.2 ≠ []) : l.to_list = some (elems bs) := by
  unfold unrolled_list.to_list unrolled_list.begin_
  rw [h.head_eq]
  exact collect_seg l bs none h.seg hne _ (by rw [length_elems, h.total]; omega)

theorem WF.nonempty {K : Nat} {l : unrolled_list T} {bs : List (Nat × List T)}
    (h : WF K l bs) : ∀ b ∈ bs, b.2 ≠ [] := by
  intro b hb e
  have := (h.2 b hb).1
  rw [e] at this
  simp at this

/-! ## Chains under the operations -/

theorem Chain.node_at {l : unrolled_list T} {l1 l2 : List (Nat × List T)} {a : Nat}
    {xs : List T} (h : Chain l (l1 ++ (a, xs) :: l2)) :
    ∃ n, l.nodes a = some n ∧ n.prev = last_addr l1 none ∧ n.next = first_addr l2 none ∧
      Holds n xs := by
  have := h.seg
  rw [seg_append, seg_cons] at this
  obtain ⟨_, n, h1, h2, h3, h4, _⟩ := this
  exact ⟨n, h1, h2, h3, h4⟩

theorem Chain.fresh_ne {l : unrolled_list T} {bs : List (Nat × List T)} (h : Chain l bs)
    {a : Nat} (ha : a ∈ bs.map Prod.fst) : a ≠ l.next_free :=
  Nat.ne_of_lt (h.below a ha)

theorem Chain.fresh_none {l : unrolled_list T} {bs : List (Nat × List T)} (h : Chain l bs) :
    l.nodes l.next_free = none := by
  cases hn : l.nodes l.next_free with
  | none => rfl
  | some n =>
    have := h.owned l.next_free (by simp [hn])
    exact absurd rfl (h.fresh_ne this)

theorem first_addr_replace (l1 l2 : List (Nat × List T)) (a : Nat) (xs ys : List T)
    (q : Option Nat) :
    first_addr (l1 ++ (a, ys) :: l2) q = first_addr (l1 ++ (a, xs) :: l2) q := by
  cases l1 <;> rfl

theorem last_addr_replace (l1 l2 : List (Nat × List T)) (a : Nat) (xs ys : List T)
    (p : Option Nat) :
    last_addr (l1 ++ (a, ys) :: l2) p = last_addr (l1 ++ (a, xs) :: l2) p := by
  rw [last_addr_append, last_addr_append]; rfl

theorem sum_lengths_replace (l1 l2 : List (Nat × List T)) (a : Nat) (xs ys : List T) :
    ((l1 ++ (a, ys) :: l2).map (fun b => b.2.length)).sum + xs.length =
      ((l1 ++ (a, xs) :: l2).map (fun b => b.2.length)).sum + ys.length := by
  simp only [List.map_append, List.map_cons, List.sum_append, List.sum_cons]
  omega

/-- Rewriting the contents of one bucket in place. -/
theorem Chain.replace {l : unrolled_list T} {l1 l2 : List (Nat × List T)} {a : Nat}
    {xs : List T} (h : Chain l (l1 ++ (a, xs) :: l2)) (ys : List T) (n' : Node T) (ts : Nat)
    (hl : ∀ n, l.nodes a = some n → n'.next = n.next ∧ n'.prev = n.prev)
    (hh : Holds n' ys) (hts : ts + xs.length = l.total_size + ys.length) :
    Chain ⟨l.head, l.tail, ts, Function.update l.nodes a (some n'), l.next_free⟩
      (l1 ++ (a, ys) :: l2) := by
  have hmap : (l1 ++ (a, ys) :: l2).map Prod.fst = (l1 ++ (a, xs) :: l2).map Prod.fst := by
    simp
  refine ⟨seg_replace ys n' h.seg h.nodup hl hh, ?_, ?_, ?_, ?_, ?_, ?_⟩
  · rw [first_addr_replace l1 l2 a xs ys]; exact h.head_eq
  · rw [last_addr_replace l1 l2 a xs ys]; exact h.tail_eq
  · rw [hmap]; exact h.nodup
  · rw [hmap]; exact h.below
  · intro b hb
    rw [hmap]
    by_cases e : b = a
    · subst e; simp
    · simp only [Function.update_apply, e, if_false] at hb
      exact h.owned b hb
  · have h1 := sum_lengths_replace l1 l2 a xs ys
    have h2 := h.total
    show ts = _
    omega

theorem eq_nil_or_snoc (bs : List (Nat × List T)) :
    bs = [] ∨ ∃ init b, bs = init ++ [b] := by
  rcases List.eq_nil_or_concat bs with h | ⟨L, b, h⟩
  · exact Or.inl h
  · exact Or.inr ⟨L, b, by rw [h, List.concat_eq_append]⟩

theorem Holds.blank : Holds (⟨none, none, 0, fun _ => none⟩ : Node T) [] :=
  ⟨rfl, fun _ => rfl⟩

theorem holds_empty (p q : Option Nat) : Holds (⟨p, q, 0, fun _ => none⟩ : Node T) [] :=
  ⟨rfl, fun _ => rfl⟩

theorem sum_lengths_append (l1 l2 : List (Nat × List T)) :
    ((l1 ++ l2).map (fun b => b.2.length)).sum =
      (l1.map (fun b => b.2.length)).sum + (l2.map (fun b => b.2.length)).sum := by
  simp

/-- Allocation branch of `push_back`: the chain gets a new, still empty,
last bucket at the fresh address. -/
theorem link_back_chain {l : unrolled_list T} {bs : List (Nat × List T)} (h : Chain l bs) :
    ∃ l1, l.link_back = some l1 ∧ Chain l1 (bs ++ [(l.next_free, [])]) := by
  have hfresh := h.fresh_none
  rcases eq_nil_or_snoc bs with hbs | ⟨init, ⟨t, xs⟩, hbs⟩
  · subst hbs
    have ht : l.tail = none := h.tail_eq
    have hh : l.head = none := h.head_eq
    refine ⟨⟨some l.next_free, some l.next_free, l.total_size,
      Function.update (Function.update l.nodes l.next_free (some Node.blank)) l.next_free
        (some ⟨none, none, 0, fun _ => none⟩), l.next_free + 1⟩, ?_, ?_⟩
    · simp [unrolled_list.link_back, unrolled_list.allocate, unrolled_list.update_node,
        unrolled_list.write, ht, hh, Node.blank]
    · refine ⟨?_, rfl, rfl, by simp, ?_, ?_, ?_⟩
      · show Seg _ none [(l.next_free, [])] none
        rw [seg_single]
        exact ⟨_, by simp, rfl, rfl, holds_empty _ _⟩
      · intro a ha
        simp only [List.nil_append, List.map_cons, List.map_nil, List.mem_singleton] at ha
        show a < l.next_free + 1
        omega
      · intro a ha
        by_cases e : a = l.next_free
        · simp [e]
        · simp only [Function.update_apply, e, if_false] at ha
          exact absurd (h.owned a ha) (by simp)
      · show l.total_size = _
        rw [h.total]; simp
  · subst hbs
    have ht : l.tail = some t := by rw [h.tail_eq, last_addr_append]; rfl
    obtain ⟨fst, hfst⟩ : ∃ f, l.head = some f := by
      rw [h.head_eq, first_addr_append]
      cases init with
      | nil => exact ⟨t, rfl⟩
      | cons c _ => exact ⟨c.1, rfl⟩
    obtain ⟨n, hn, hnp, hnn, hnh⟩ := h.node_at
    have htm : t ∈ (init ++ [(t, xs)]).map Prod.fst := by simp
    have htp : t ≠ l.next_free := h.fresh_ne htm
    have htp' : l.next_free ≠ t := fun e => htp e.symm
    refine ⟨⟨l.head, some l.next_free, l.total_size,
      Function.update
        (Function.update (Function.update l.nodes l.next_free (some Node.blank)) l.next_free
          (some ⟨none, some t, 0, fun _ => none⟩))
        t (some ⟨some l.next_free, n.prev, n.size, n.elements⟩), l.next_free + 1⟩, ?_, ?_⟩
    · simp [unrolled_list.link_back, unrolled_list.allocate, unrolled_list.update_node,
        unrolled_list.write, ht, hfst, Node.blank, Function.update_apply, htp, hn]
    · refine ⟨?_, ?_, ?_, ?_, ?_, ?_, ?_⟩
      · show Seg _ none ((init ++ [(t, xs)]) ++ [(l.next_free, [])]) none
        rw [seg_append]
        constructor
        · have hlast : last_addr (init ++ [(t, xs)]) none = some t := by
            rw [last_addr_append]; rfl
          refine seg_frame (fun a ha => ?_)
            (seg_set_next (some l.next_free) t n h.seg h.nodup (by simp) hlast hn)
          have hap : a ≠ l.next_free := h.fresh_ne ha
          simp [Function.update_apply, hap]
        · rw [last_addr_append, seg_single]
          exact ⟨⟨none, some t, 0, fun _ => none⟩,
            by simp [Function.update_apply, htp'], rfl, rfl, holds_empty _ _⟩
      · show l.head = _
        rw [h.head_eq, first_addr_append, first_addr_append, first_addr_append]
        cases init <;> rfl
      · show some l.next_free = _
        rw [last_addr_append]; rfl
      · rw [List.map_append, List.nodup_append]
        refine ⟨h.nodup, by simp, ?_⟩
        intro a ha hb
        simp only [List.map_cons, List.map_nil, List.mem_singleton] at hb
        exact h.fresh_ne ha hb
      · intro a ha
        show a < l.next_free + 1
        rw [List.map_append, List.mem_append] at ha
        rcases ha with ha | ha
        · exact Nat.lt_succ_of_lt (h.below a ha)
        · simp only [List.map_cons, List.map_nil, List.mem_singleton] at ha
          omega
      · intro a ha
        rw [List.map_append, List.mem_append]
        by_cases e : a = l.next_free
        · right; simp [e]
        · left
          by_cases e2 : a = t
          · rw [e2]; exact htm
          · simp only [Function.update_apply, e, e2, if_false] at ha
            exact h.owned a ha
      · show l.total_size = _
        rw [sum_lengths_append, ← h.total]; simp

/-- Last statements of `push_back`: the value is constructed in the first
free slot of the tail node. -/
theorem push_tail_chain {l : unrolled_list T} {init : List (Nat × List T)} {t : Nat}
    {xs : List T} (h : Chain l (init ++ [(t, xs)])) (v : T) :
    ∃ n, l.tail = some t ∧ l.nodes t = some n ∧ n.size = xs.length ∧
      Chain ({ l.write t { n.construct n.size v with size := n.size + 1 } with
               total_size := l.total_size + 1 })
        (init ++ [(t, xs ++ [v])]) := by
  obtain ⟨n, hn, _, _, hnh⟩ := h.node_at
  refine ⟨n, ?_, hn, hnh.1, ?_⟩
  · rw [h.tail_eq, last_addr_append]; rfl
  · exact h.replace (xs ++ [v]) _ (l.total_size + 1)
      (fun m hm => by
        rw [hn] at hm
        simp only [Option.some.injEq] at hm
        subst hm
        exact ⟨rfl, rfl⟩)
      (append_holds hnh v) (by simp; omega)

theorem push_back_chain (K : Nat) {l : unrolled_list T} {bs : List (Nat × List T)} (v : T)
    (h : Chain l bs) :
    ∃ l', l.push_back K v = some l' ∧
      (((bs = [] ∨ ∃ init t xs, bs = init ++ [(t, xs)] ∧ xs.length = K) ∧
          Chain l' (bs ++ [(l.next_free, [v])])) ∨
        ∃ init t xs, bs = init ++ [(t, xs)] ∧ xs.length ≠ K ∧
          Chain l' (init ++ [(t, xs ++ [v])])) := by
  have hnew : ∃ l', (match l.link_back with
      | none => none
      | some l1 =>
        match l1.tail with
        | none => none
        | some t =>
          match l1.nodes t with
          | none => none
          | some n =>
            some { l1.write t { n.construct n.size v with size := n.size + 1 } with
                   total_size := l1.total_size + 1 }) = some l' ∧
      Chain l' (bs ++ [(l.next_free, [v])]) := by
    obtain ⟨l1, hl1, hc1⟩ := link_back_chain h
    obtain ⟨n, h1, h2, _, h4⟩ := push_tail_chain hc1 v
    exact ⟨_, by simp [hl1, h1, h2], h4⟩
  rcases eq_nil_or_snoc bs with hbs | ⟨init, ⟨t, xs⟩, hbs⟩
  · obtain ⟨l', h1, h2⟩ := hnew
    have ht : l.tail = none := by rw [h.tail_eq, hbs]; rfl
    refine ⟨l', ?_, Or.inl ⟨Or.inl hbs, h2⟩⟩
    rw [← h1]
    simp [unrolled_list.push_back, ht]
  · subst hbs
    obtain ⟨n, h1, h2, h3, h4⟩ := push_tail_chain h v
    by_cases hk : xs.length = K
    · obtain ⟨l', h5, h6⟩ := hnew
      refine ⟨l', ?_, Or.inl ⟨Or.inr ⟨init, t, xs, rfl, hk⟩, h6⟩⟩
      rw [← h5]
      simp [unrolled_list.push_back, h1, h2, h3, hk]
    · refine ⟨_, ?_, Or.inr ⟨init, t, xs, rfl, hk, h4⟩⟩
      simp [unrolled_list.push_back, h1, h2, h3, hk]

/-- Allocation branch of `push_front`: the chain gets a new, still empty,
first bucket at the fresh address. -/
theorem link_front_chain {l : unrolled_list T} {bs : List (Nat × List T)} (h : Chain l bs) :
    ∃ l1, l.link_front = some l1 ∧ Chain l1 ((l.next_free, []) :: bs) := by
  have hfresh := h.fresh_none
  cases bs with
  | nil =>
    have ht : l.tail = none := h.tail_eq
    have hh : l.head = none := h.head_eq
    refine ⟨⟨some l.next_free, some l.next_free, l.total_size,
      Function.update (Function.update l.nodes l.next_free (some Node.blank)) l.next_free
        (some ⟨none, none, 0, fun _ => none⟩), l.next_free + 1⟩, ?_, ?_⟩
    · simp [unrolled_list.link_front, unrolled_list.allocate, unrolled_list.update_node,
        unrolled_list.write, ht, hh, Node.blank]
    · refine ⟨?_, rfl, rfl, by simp, ?_, ?_, ?_⟩
      · show Seg _ none [(l.next_free, [])] none
        rw [seg_single]
        exact ⟨_, by simp, rfl, rfl, holds_empty _ _⟩
      · intro a ha
        simp only [List.map_cons, List.map_nil, List.mem_singleton] at ha
        show a < l.next_free + 1
        omega
      · intro a ha
        by_cases e : a = l.next_free
        · simp [e]
        · simp only [Function.update_apply, e, if_false] at ha
          exact absurd (h.owned a ha) (by simp)
      · show l.total_size = _
        rw [h.total]; simp
  | cons b rest =>
    obtain ⟨h0, xs⟩ := b
    have hh : l.head = some h0 := h.head_eq
    obtain ⟨lst, hlst⟩ : ∃ t, l.tail = some t := by
      rw [h.tail_eq]; exact last_addr_cons_ne_none _ _ _
    obtain ⟨n, hn, hnp, hnn, hnh⟩ := h.seg
    have htm : h0 ∈ ((h0, xs) :: rest).map Prod.fst := by simp
    have htp : h0 ≠ l.next_free := h.fresh_ne htm
    have htp' : l.next_free ≠ h0 := fun e => htp e.symm
    refine ⟨⟨some l.next_free, l.tail, l.total_size,
      Function.update
        (Function.update (Function.update l.nodes l.next_free (some Node.blank)) l.next_free
          (some ⟨some h0, none, 0, fun _ => none⟩))
        h0 (some ⟨n.next, some l.next_free, n.size, n.elements⟩), l.next_free + 1⟩, ?_, ?_⟩
    · simp [unrolled_list.link_front, unrolled_list.allocate, unrolled_list.update_node,
        unrolled_list.write, hh, hlst, Node.blank, Function.update_apply, htp, hn]
    · refine ⟨?_, rfl, ?_, ?_, ?_, ?_, ?_⟩
      · show Seg _ none ((l.next_free, []) :: (h0, xs) :: rest) none
        rw [seg_cons]
        refine ⟨⟨some h0, none, 0, fun _ => none⟩, by simp [Function.update_apply, htp'],
          rfl, rfl, holds_empty _ _, ?_⟩
        refine seg_frame (fun a ha => ?_)
          (seg_set_prev (some l.next_free) n h.seg h.nodup hn)
        have hap : a ≠ l.next_free := h.fresh_ne ha
        simp [Function.update_apply, hap]
      · show l.tail = _
        rw [h.tail_eq]; rfl
      · rw [List.map_cons, List.nodup_cons]
        exact ⟨fun hm => h.fresh_ne hm rfl, h.nodup⟩
      · intro a ha
        show a < l.next_free + 1
        rw [List.map_cons, List.mem_cons] at ha
        rcases ha with ha | ha
        · simp only at ha; omega
        · exact Nat.lt_succ_of_lt (h.below a ha)
      · intro a ha
        rw [List.map_cons, List.mem_cons]
        by_cases e : a = l.next_free
        · left; exact e
        · right
          by_cases e2 : a = h0
          · rw [e2]; exact htm
          · simp only [Function.update_apply, e, e2, if_false] at ha
            exact h.owned a ha
      · show l.total_size = _
        rw [h.total]; simp

theorem holds_cons_of_mix {m : Node T} {xs : List T} {v : T} (hm : Mix m xs (v :: xs) 0)
    (hs : m.size = xs.length) :
    Holds ({ m.construct 0 v with size := m.size + 1 }) (v :: xs) :=
  hm.holds_of_construct (fun k hk => absurd hk (Nat.not_lt_zero k))
    (List.getElem?_cons_zero) _ (by simp [hs])

theorem push_front_chain (K : Nat) {l : unrolled_list T} {bs : List (Nat × List T)} (v : T)
    (h : Chain l bs) :
    ∃ l', l.push_front K v = some l' ∧
      (((bs = [] ∨ ∃ h0 xs rest, bs = (h0, xs) :: rest ∧ xs.length = K) ∧
          Chain l' ((l.next_free, [v]) :: bs)) ∨
        ∃ h0 xs rest, bs = (h0, xs) :: rest ∧ xs.length ≠ K ∧
          Chain l' ((h0, v :: xs) :: rest)) := by
  have hnew : ∃ l', (match l.link_front with
      | none => none
      | some l1 =>
        match l1.head with
        | none => none
        | some h0 =>
          match l1.nodes h0 with
          | none => none
          | some n =>
            some { l1.write h0 { n.construct 0 v with size := n.size + 1 } with
                   total_size := l1.total_size + 1 }) = some l' ∧
      Chain l' ((l.next_free, [v]) :: bs) := by
    obtain ⟨l1, hl1, hc1⟩ := link_front_chain h
    have hc1' : Chain l1 ([] ++ (l.next_free, []) :: bs) := hc1
    obtain ⟨n, hn, _, _, hnh⟩ := hc1'.node_at
    have hhd : l1.head = some l.next_free := hc1.head_eq
    refine ⟨_, by simp only [hl1, hhd, hn]; rfl, ?_⟩
    have hmix : Mix n [] [v] 0 := by
      intro k
      rw [hnh.2 k]
      by_cases hk : k = 0
      · subst hk; simp
      · have : ¬ k < 0 := by omega
        simp only [this, hk, if_false]
        rw [List.getElem?_eq_none (by simp), List.getElem?_eq_none (by simp; omega)]
    exact hc1'.replace [v] _ (l1.total_size + 1)
      (fun m hm => by
        rw [hn] at hm
        simp only [Option.some.injEq] at hm
        subst hm
        exact ⟨rfl, rfl⟩)
      (holds_cons_of_mix hmix hnh.1) (by simp)
  cases bs with
  | nil =>
    obtain ⟨l', h1, h2⟩ := hnew
    have ht : l.head = none := h.head_eq
    refine ⟨l', ?_, Or.inl ⟨Or.inl rfl, h2⟩⟩
    rw [← h1]
    simp [unrolled_list.push_front, ht]
  | cons b rest =>
    obtain ⟨h0, xs⟩ := b
    have hh : l.head = some h0 := h.head_eq
    have h' : Chain l ([] ++ (h0, xs) :: rest) := h
    obtain ⟨n, hn, _, _, hnh⟩ := h'.node_at
    by_cases hk : xs.length = K
    · obtain ⟨l', h5, h6⟩ := hnew
      refine ⟨l', ?_, Or.inl ⟨Or.inr ⟨h0, xs, rest, rfl, hk⟩, h6⟩⟩
      rw [← h5]
      simp [unrolled_list.push_front, hh, hn, hnh.1, hk]
    · obtain ⟨n1, h1, h2, h3, h4, h5⟩ :=
        shift_right_mix xs (v :: xs) 0 xs.length n (Nat.zero_le _) le_rfl
          (fun k _ _ => by simp) (hnh.mix_length _ (by simp))
      have hres := h'.replace (v :: xs) ({ n1.construct 0 v with size := n1.size + 1 })
        (l.total_size + 1)
        (fun m hm => by
          rw [hn] at hm
          simp only [Option.some.injEq] at hm
          subst hm
          exact ⟨h3, h4⟩)
        (holds_cons_of_mix h2 (by rw [h5, hnh.1])) (by simp; omega)
      refine ⟨_, ?_, Or.inr ⟨h0, xs, rest, rfl, hk, hres⟩⟩
      simp [unrolled_list.push_front, unrolled_list.shift_head, hh, hn, hnh.1, hk, h1,
        unrolled_list.write, Node.construct]

theorem last_addr_snoc (init : List (Nat × List T)) (b : Nat × List T) (p : Option Nat) :
    last_addr (init ++ [b]) p = some b.1 := by
  rw [last_addr_append]; rfl

/-- Unlinking branch of `erase`: an emptied bucket leaves the chain. -/
theorem unlink_chain {l : unrolled_list T} {l1 l2 : List (Nat × List T)} {a : Nat}
    (h : Chain l (l1 ++ (a, []) :: l2)) (n : Node T) (hn : l.nodes a = some n) :
    ∃ l', l.unlink a n = some l' ∧ Chain l' (l1 ++ l2) ∧ l'.total_size = l.total_size ∧
      l'.next_free = l.next_free := by
  obtain ⟨n0, hn0, hprev, hnext, _⟩ := h.node_at
  rw [hn] at hn0
  simp only [Option.some.injEq] at hn0
  subst hn0
  have hseg := h.seg
  rw [seg_append, seg_cons] at hseg
  obtain ⟨hs1, _, _, _, _, _, hs2⟩ := hseg
  have hnd := h.nodup
  simp only [List.map_append, List.map_cons, List.nodup_append, List.nodup_cons] at hnd
  obtain ⟨hnd1, ⟨hnd2, hnd3⟩, hnd4⟩ := hnd
  have ha1 : a ∉ l1.map Prod.fst := fun hm => hnd4 hm (by simp)
  have h12 : ∀ b, b ∈ l1.map Prod.fst → b ∉ l2.map Prod.fst :=
    fun b hb1 hb2 => hnd4 hb1 (by simp [hb2])
  -- first statement pair: `prev->next = next` or `head = next`
  have step1 : ∃ s1, (match n.prev with
        | some p => l.update_node p (fun m => { m with next := n.next })
        | none => some { l with head := n.next }) = some s1 ∧
      Seg s1.nodes none l1 (first_addr l2 none) ∧
      (∀ b, b ∉ l1.map Prod.fst → s1.nodes b = l.nodes b) ∧
      (∀ b, (s1.nodes b).isSome → (l.nodes b).isSome) ∧
      s1.head = first_addr (l1 ++ l2) none ∧ s1.tail = l.tail ∧
      s1.total_size = l.total_size ∧ s1.next_free = l.next_free := by
    rcases eq_nil_or_snoc l1 with e | ⟨init, ⟨p, ps⟩, e⟩
    · subst e
      have hp : n.prev = none := hprev
      refine ⟨{ l with head := n.next }, by simp [hp], trivial, fun _ _ => rfl,
        fun _ hb => hb, ?_, rfl, rfl, rfl⟩
      show n.next = _
      rw [hnext]; rfl
    · subst e
      have hp : n.prev = some p := by rw [hprev, last_addr_snoc]
      have hc : Chain l (init ++ (p, ps) :: ([] ++ (a, []) :: l2)) := by
        simpa [List.append_assoc] using h
      obtain ⟨m, hm, _, _, _⟩ := hc.node_at
      refine ⟨l.write p ⟨n.next, m.prev, m.size, m.elements⟩,
        by simp [hp, unrolled_list.update_node, hm], ?_, ?_, ?_, ?_, rfl, rfl, rfl⟩
      · rw [← hnext]
        exact seg_set_next n.next p m hs1 hnd1 (by simp) (last_addr_snoc _ _ _) hm
      · intro b hb
        have : b ≠ p := fun e => hb (by simp [e])
        simp [unrolled_list.write, Function.update_apply, this]
      · intro b hb
        by_cases e : b = p
        · rw [e, hm]; rfl
        · simpa [unrolled_list.write, Function.update_apply, e] using hb
      · show l.head = _
        rw [h.head_eq, first_addr_append, first_addr_append, first_addr_append,
          first_addr_append]
        cases init <;> rfl
  obtain ⟨s1, hs1eq, hseg1, hfr1, hsome1, hhead1, htail1, htot1, hfree1⟩ := step1
  -- second statement pair: `next->prev = prev` or `tail = prev`
  have step2 : ∃ s2, (match n.next with
        | some q => s1.update_node q (fun m => { m with prev := n.prev })
        | none => some { s1 with tail := n.prev }) = some s2 ∧
      Seg s2.nodes (last_addr l1 none) l2 none ∧
      (∀ b, b ∉ l2.map Prod.fst → s2.nodes b = s1.nodes b) ∧
      (∀ b, (s2.nodes b).isSome → (s1.nodes b).isSome) ∧
      s2.head = s1.head ∧ s2.tail = last_addr (l1 ++ l2) none ∧
      s2.total_size = s1.total_size ∧ s2.next_free = s1.next_free := by
    cases l2 with
    | nil =>
      have hq : n.next = none := hnext
      refine ⟨{ s1 with tail := n.prev }, by simp [hq], trivial, fun _ _ => rfl,
        fun _ hb => hb, rfl, ?_, rfl, rfl⟩
      show n.prev = _
      rw [hprev, List.append_nil]
    | cons c rest =>
      obtain ⟨q, qs⟩ := c
      have hq : n.next = some q := hnext
      have hs2' : Seg l.nodes (some a) ((q, qs) :: rest) none := hs2
      obtain ⟨m, hm, _, _, _⟩ := hs2
      have hq1 : q ∉ l1.map Prod.fst := fun hmem => h12 q hmem (by simp)
      have hm1 : s1.nodes q = some m := by rw [hfr1 q hq1]; exact hm
      have hnd2 : (((q, qs) :: rest).map Prod.fst).Nodup := hnd3
      refine ⟨s1.write q ⟨m.next, n.prev, m.size, m.elements⟩,
        by simp [hq, unrolled_list.update_node, hm1], ?_, ?_, ?_, rfl, ?_, rfl, rfl⟩
      · rw [← hprev]
        have hsq : Seg s1.nodes (some a) ((q, qs) :: rest) none :=
          seg_frame (fun b hb => hfr1 b (fun hb1 => h12 b hb1 hb)) hs2'
        exact seg_set_prev n.prev m hsq hnd2 hm1
      · intro b hb
        have : b ≠ q := fun e => hb (by simp [e])
        simp [unrolled_list.write, Function.update_apply, this]
      · intro b hb
        by_cases e : b = q
        · rw [e, hm1]; rfl
        · simpa [unrolled_list.write, Function.update_apply, e] using hb
      · show s1.tail = _
        rw [htail1, h.tail_eq, last_addr_append, last_addr_append]
        rfl
  obtain ⟨s2, hs2eq, hseg2, hfr2, hsome2, hhead2, htail2, htot2, hfree2⟩ := step2
  refine ⟨s2.free_node a, ?_, ?_, ?_, ?_⟩
  · simp only [unrolled_list.unlink, hs1eq, hs2eq, Option.map_some']
  · refine ⟨?_, ?_, ?_, ?_, ?_, ?_, ?_⟩
    · show Seg (Function.update s2.nodes a none) none (l1 ++ l2) none
      rw [seg_append]
      constructor
      · refine seg_frame (fun b hb => ?_) hseg1
        have hba : b ≠ a := fun e => ha1 (e ▸ hb)
        simp only [Function.update_apply, hba, if_false]
        exact hfr2 b (h12 b hb)
      · refine seg_frame (fun b hb => ?_) hseg2
        have hba : b ≠ a := fun e => hnd2 (e ▸ hb)
        simp [Function.update_apply, hba]
    · show s2.head = _
      rw [hhead2, hhead1]
    · exact htail2
    · rw [List.map_append, List.nodup_append]
      exact ⟨hnd1, hnd3, fun b hb1 hb2 => h12 b hb1 hb2⟩
    · intro b hb
      show b < s2.next_free
      rw [hfree2, hfree1]
      apply h.below
      simp only [List.map_append, List.mem_append, List.map_cons, List.mem_cons] at hb ⊢
      tauto
    · intro b hb
      by_cases e : b = a
      · subst e
        simp [unrolled_list.free_node, unrolled_list.deallocate] at hb
      · have hb' : (s2.nodes b).isSome := by
          simpa [unrolled_list.free_node, unrolled_list.deallocate, Function.update_apply, e]
            using hb
        have := h.owned b (hsome1 b (hsome2 b hb'))
        simp only [List.map_append, List.mem_append, List.map_cons, List.mem_cons] at this ⊢
        tauto
    · show s2.total_size = _
      rw [htot2, htot1, h.total]
      simp
  · show s2.total_size = _
    rw [htot2, htot1]
  · show s2.next_free = _
    rw [hfree2, hfree1]

theorem unlink_back_eq (l : unrolled_list T) (a : Nat) (n : Node T) (hn : n.next = none) :
    l.unlink_back a n = l.unlink a n := by
  cases hp : n.prev with
  | none => simp [unrolled_list.unlink_back, unrolled_list.unlink, hp, hn,
      unrolled_list.free_node]
  | some p =>
    cases hm : l.nodes p with
    | none => simp [unrolled_list.unlink_back, unrolled_list.unlink, hp, hn,
        unrolled_list.update_node, hm]
    | some m => simp [unrolled_list.unlink_back, unrolled_list.unlink, hp, hn,
        unrolled_list.update_node, hm, unrolled_list.free_node, unrolled_list.write]

theorem unlink_front_eq (l : unrolled_list T) (a : Nat) (n : Node T) (hn : n.prev = none) :
    l.unlink_front a n = l.unlink a n := by
  cases hp : n.next with
  | none => simp [unrolled_list.unlink_front, unrolled_list.unlink, hp, hn,
      unrolled_list.free_node]
  | some p =>
    cases hm : l.nodes p with
    | none => simp [unrolled_list.unlink_front, unrolled_list.unlink, hp, hn,
        unrolled_list.update_node, hm]
    | some m => simp [unrolled_list.unlink_front, unrolled_list.unlink, hp, hn,
        unrolled_list.update_node, hm, unrolled_list.free_node, unrolled_list.write]

theorem Chain.length_le_total {l : unrolled_list T} {l1 l2 : List (Nat × List T)} {a : Nat}
    {xs : List T} (h : Chain l (l1 ++ (a, xs) :: l2)) : xs.length ≤ l.total_size := by
  rw [h.total]
  simp only [List.map_append, List.map_cons, List.sum_append, List.sum_cons]
  omega

/-- Common tail of `erase`, `pop_front` and `pop_back`: the node, one element
shorter, is stored back with the counts decremented, and is unlinked when it
became empty. -/
theorem shrink_chain {l : unrolled_list T} {l1 l2 : List (Nat × List T)} {a : Nat}
    {xs : List T} (h : Chain l (l1 ++ (a, xs) :: l2)) (ys : List T) (n3 : Node T)
    (hlen : ys.length + 1 = xs.length) (hh : Holds n3 ys)
    (hl : ∀ n, l.nodes a = some n → n3.next = n.next ∧ n3.prev = n.prev) :
    ∃ l', (if n3.size = 0 then
            ({ l.write a n3 with total_size := size_t_sub l.total_size 1 }).unlink a n3
          else some { l.write a n3 with total_size := size_t_sub l.total_size 1 }) = some l' ∧
      l'.total_size + 1 = l.total_size ∧ l'.next_free = l.next_free ∧
      ((ys = [] ∧ Chain l' (l1 ++ l2)) ∨ (ys ≠ [] ∧ Chain l' (l1 ++ (a, ys) :: l2))) := by
  have hle := h.length_le_total
  have hts : size_t_sub l.total_size 1 = l.total_size - 1 := size_t_sub_of_le (by omega)
  have hc : Chain ({ l.write a n3 with total_size := size_t_sub l.total_size 1 })
      (l1 ++ (a, ys) :: l2) :=
    h.replace ys n3 _ hl hh (by rw [hts]; omega)
  by_cases hz : n3.size = 0
  · have hys : ys = [] := List.length_eq_zero.mp (by rw [← hh.1]; exact hz)
    subst hys
    obtain ⟨l', h1, h2, h3, h4⟩ := unlink_chain hc n3
      (by simp [unrolled_list.write])
    refine ⟨l', by simp [hz, h1], ?_, ?_, Or.inl ⟨rfl, h2⟩⟩
    · rw [h3]; show size_t_sub l.total_size 1 + 1 = _
      rw [hts]; omega
    · rw [h4]; rfl
  · have hys : ys ≠ [] := fun e => hz (by rw [hh.1, e]; rfl)
    refine ⟨{ l.write a n3 with total_size := size_t_sub l.total_size 1 }, by simp [hz],
      ?_, rfl, Or.inr ⟨hys, hc⟩⟩
    show size_t_sub l.total_size 1 + 1 = _
    rw [hts]; omega

theorem erase_chain {l : unrolled_list T} {l1 l2 : List (Nat × List T)} {a : Nat}
    {xs : List T} (h : Chain l (l1 ++ (a, xs) :: l2)) (i : Nat) (hi : i < xs.length) :
    ∃ it l', l.erase ⟨some a, i⟩ = some (it, l') ∧ l'.total_size + 1 = l.total_size ∧
      l'.next_free = l.next_free ∧
      ((xs.length = 1 ∧ it = ⟨first_addr l2 none, 0⟩ ∧ Chain l' (l1 ++ l2)) ∨
        (xs.length ≠ 1 ∧ it = ⟨some a, i⟩ ∧ Chain l' (l1 ++ (a, xs.eraseIdx i) :: l2))) := by
  obtain ⟨n, hn, hnp, hnn, hnh⟩ := h.node_at
  obtain ⟨n1, n2, hd, hsl, hh3, hl1, hl2⟩ := erase_slot_holds hnh i hi
  have hlen : (xs.eraseIdx i).length + 1 = xs.length := by
    rw [List.length_eraseIdx_of_lt hi]; omega
  obtain ⟨l', h1, h2, h3, h4⟩ := shrink_chain h (xs.eraseIdx i) _ hlen hh3
    (fun m hm => by
      rw [hn] at hm
      simp only [Option.some.injEq] at hm
      subst hm
      exact ⟨hl1, hl2⟩)
  have hsz : size_t_sub n2.size 1 = xs.length - 1 := by
    have := hh3.1
    rw [List.length_eraseIdx_of_lt hi] at this
    exact this
  by_cases hx : xs.length = 1
  · have hz : size_t_sub n2.size 1 = 0 := by rw [hsz, hx]
    rcases h4 with ⟨_, hc⟩ | ⟨hne, _⟩
    · refine ⟨⟨first_addr l2 none, 0⟩, l', ?_, h2, h3, Or.inl ⟨hx, rfl, hc⟩⟩
      simp only [hz, if_true] at h1
      simp only [unrolled_list.erase, hn, hd, hsl, hz, if_true, h1, Option.map_some']
      rw [hl1, hnn]
    · exact absurd (List.length_eq_zero.mp (by omega)) hne
  · have hz : size_t_sub n2.size 1 ≠ 0 := by rw [hsz]; omega
    rcases h4 with ⟨he, _⟩ | ⟨_, hc⟩
    · rw [he] at hlen; simp at hlen; omega
    · refine ⟨⟨some a, i⟩, l', ?_, h2, h3, Or.inr ⟨hx, rfl, hc⟩⟩
      simp only [hz, if_false] at h1
      have h1' := Option.some.inj h1
      subst h1'
      simp only [unrolled_list.erase, hn, hd, hsl, hz, if_false]

theorem size_t_sub_zero (a : Nat) : size_t_sub a 0 = a := by
  simp [size_t_sub]

theorem pop_front_chain {l : unrolled_list T} {bs : List (Nat × List T)} (h : Chain l bs) :
    ∃ l', l.pop_front = some l' ∧
      (((bs = [] ∨ ∃ h0 rest, bs = (h0, []) :: rest) ∧ l' = l) ∨
        ∃ h0 x xs rest, bs = (h0, x :: xs) :: rest ∧ l'.total_size + 1 = l.total_size ∧
          l'.next_free = l.next_free ∧
          ((xs = [] ∧ Chain l' rest) ∨ (xs ≠ [] ∧ Chain l' ((h0, xs) :: rest)))) := by
  cases bs with
  | nil =>
    have hh : l.head = none := h.head_eq
    exact ⟨l, by simp [unrolled_list.pop_front, hh], Or.inl ⟨Or.inl rfl, rfl⟩⟩
  | cons b rest =>
    obtain ⟨h0, ys⟩ := b
    have hh : l.head = some h0 := h.head_eq
    have h' : Chain l ([] ++ (h0, ys) :: rest) := h
    obtain ⟨n, hn, hnp, hnn, hnh⟩ := h'.node_at
    cases ys with
    | nil =>
      have hs : n.size = 0 := hnh.1
      exact ⟨l, by simp [unrolled_list.pop_front, hh, hn, hs],
        Or.inl ⟨Or.inr ⟨h0, rest, rfl⟩, rfl⟩⟩
    | cons x xs =>
      have hs : n.size > 0 := by rw [hnh.1]; simp
      obtain ⟨n1, n2, hd, hsl, hh3, hl1, hl2⟩ := erase_slot_holds hnh 0 (by simp)
      rw [size_t_sub_zero] at hsl
      have he : (x :: xs).eraseIdx 0 = xs := rfl
      rw [he] at hh3
      obtain ⟨l', h1, h2, h3, h4⟩ := shrink_chain h' xs _ (by simp) hh3
        (fun m hm => by
          rw [hn] at hm
          simp only [Option.some.injEq] at hm
          subst hm
          exact ⟨hl1, hl2⟩)
      refine ⟨l', ?_, Or.inr ⟨h0, x, xs, rest, rfl, h2, h3, ?_⟩⟩
      · rw [← h1]
        simp only [unrolled_list.pop_front, hh, hn, hs, if_true, hd, hsl]
        rw [unlink_front_eq]
        show n2.prev = none
        rw [hl2, hnp]; rfl
      · simpa using h4

theorem pop_back_chain {l : unrolled_list T} {bs : List (Nat × List T)} (h : Chain l bs) :
    ∃ l', l.pop_back = some l' ∧
      (((bs = [] ∨ ∃ init t, bs = init ++ [(t, [])]) ∧ l' = l) ∨
        ∃ init t xs, bs = init ++ [(t, xs)] ∧ xs ≠ [] ∧ l'.total_size + 1 = l.total_size ∧
          l'.next_free = l.next_free ∧
          ((xs.dropLast = [] ∧ Chain l' init) ∨
            (xs.dropLast ≠ [] ∧ Chain l' (init ++ [(t, xs.dropLast)])))) := by
  rcases eq_nil_or_snoc bs with hbs | ⟨init, ⟨t, xs⟩, hbs⟩
  · subst hbs
    have ht : l.tail = none := h.tail_eq
    exact ⟨l, by simp [unrolled_list.pop_back, ht], Or.inl ⟨Or.inl rfl, rfl⟩⟩
  · subst hbs
    have ht : l.tail = some t := by rw [h.tail_eq, last_addr_snoc]
    obtain ⟨n, hn, hnp, hnn, hnh⟩ := h.node_at
    by_cases hx : xs = []
    · subst hx
      have hs : n.size = 0 := hnh.1
      exact ⟨l, by simp [unrolled_list.pop_back, ht, hn, hs],
        Or.inl ⟨Or.inr ⟨init, t, rfl⟩, rfl⟩⟩
    · have hpos : 0 < xs.length := List.length_pos.mpr hx
      have hs : n.size > 0 := by rw [hnh.1]; exact hpos
      obtain ⟨n1, hd, hh1, hl1, hl2⟩ := drop_last_holds hnh hpos
      obtain ⟨l', h1, h2, h3, h4⟩ := shrink_chain h xs.dropLast _ (by simp; omega) hh1
        (fun m hm => by
          rw [hn] at hm
          simp only [Option.some.injEq] at hm
          subst hm
          exact ⟨hl1, hl2⟩)
      refine ⟨l', ?_, Or.inr ⟨init, t, xs, rfl, hx, h2, h3, ?_⟩⟩
      · rw [← h1]
        simp only [unrolled_list.pop_back, ht, hn, hs, if_true, hd]
        rw [unlink_back_eq]
        show n1.next = none
        rw [hl1, hnn]; rfl
      · simpa using h4

theorem dec_end_chain {l : unrolled_list T} {init : List (Nat × List T)} {t : Nat}
    {xs : List T} (h : Chain l (init ++ [(t, xs)])) :
    Iterator.dec l l.end_ = some ⟨some t, size_t_sub xs.length 1⟩ := by
  obtain ⟨n, hn, _, _, hnh⟩ := h.node_at
  have ht : l.tail = some t := by rw [h.tail_eq, last_addr_snoc]
  simp [Iterator.dec, unrolled_list.end_, ht, hn, hnh.1]

/-- `insert` at `end()`: the state is the one `push_back` gives. -/
theorem insert_end_chain (K : Nat) {l : unrolled_list T} {bs : List (Nat × List T)} (v : T)
    (h : Chain l bs) :
    ∃ it l', l.insert K l.end_ v = some (it, l') ∧ l.push_back K v = some l' := by
  obtain ⟨l', h1, h2⟩ := push_back_chain K v h
  have hdec : ∃ it, Iterator.dec l' l'.end_ = some it := by
    rcases h2 with ⟨_, hc⟩ | ⟨init, t, xs, _, _, hc⟩
    · exact ⟨_, dec_end_chain hc⟩
    · exact ⟨_, dec_end_chain hc⟩
  obtain ⟨it, hit⟩ := hdec
  refine ⟨it, l', ?_, h1⟩
  simp [unrolled_list.insert, Iterator.eq, unrolled_list.end_, h1] at hit ⊢
  simp [unrolled_list.end_, hit]

/-- `insert` at a position of a node with `size <= NodeMaxSize`: the value is
placed in the node, no bucket is added. -/
theorem insert_fit_chain (K : Nat) {l : unrolled_list T} {l1 l2 : List (Nat × List T)}
    {a : Nat} {xs : List T} (h : Chain l (l1 ++ (a, xs) :: l2)) (i : Nat) (v : T)
    (hi : i ≤ xs.length) (hk : xs.length ≤ K) :
    ∃ l', l.insert K ⟨some a, i⟩ v = some (⟨some a, i⟩, l') ∧
      l'.total_size = l.total_size + 1 ∧ l'.next_free = l.next_free ∧
      Chain l' (l1 ++ (a, ins xs i v) :: l2) := by
  obtain ⟨n, hn, _, _, hnh⟩ := h.node_at
  obtain ⟨n1, hp, hh1, hl1, hl2⟩ := place_holds hnh i v hi
  have hc := h.replace (ins xs i v) n1 (l.total_size + 1)
    (fun m hm => by
      rw [hn] at hm
      simp only [Option.some.injEq] at hm
      subst hm
      exact ⟨hl1, hl2⟩)
    hh1 (by rw [length_ins]; omega)
  refine ⟨⟨l.head, l.tail, l.total_size + 1, Function.update l.nodes a (some n1),
    l.next_free⟩, ?_, rfl, rfl, hc⟩
  have hsz : n.size ≤ K := by rw [hnh.1]; exact hk
  simp [unrolled_list.insert, Iterator.eq, unrolled_list.end_, hn, hsz, hp,
    unrolled_list.write]

/-- The position `(a, i)` of a chain is reached from `begin()` by as many
increments as there are elements before it. -/
theorem advance_chain {l : unrolled_list T} {l1 l2 : List (Nat × List T)} {a : Nat}
    {xs : List T} (h : Chain l (l1 ++ (a, xs) :: l2))
    (hne : ∀ b ∈ l1 ++ (a, xs) :: l2, b.2 ≠ []) (i : Nat) (hi : i < xs.length) :
    l.advance ((elems l1).length + i) l.begin_ = some ⟨some a, i⟩ := by
  obtain ⟨n, hn, _, _, hh⟩ := h.node_at
  unfold unrolled_list.begin_
  rw [h.head_eq, advance_add,
    advance_seg l ((a, xs) :: l2) l1 none h.seg (fun b hb => hne b (by simp [hb]))]
  show l.advance i ⟨some a, 0⟩ = _
  rw [advance_bucket l a n xs hn hh i 0 (by omega)]
  simp

/-- The position `end()` is reached from `begin()` by as many increments as
there are elements. -/
theorem advance_end {l : unrolled_list T} {bs : List (Nat × List T)} (h : Chain l bs)
    (hne : ∀ b ∈ bs, b.2 ≠ []) :
    l.advance (elems bs).length l.begin_ = some l.end_ := by
  unfold unrolled_list.begin_
  rw [h.head_eq]
  have := advance_seg l [] bs none (by simpa using h.seg) hne
  simpa using this

/-! ## The sample container -/

theorem empty_chain : Chain (unrolled_list.empty_list : unrolled_list T) [] :=
  ⟨trivial, rfl, rfl, List.nodup_nil, by simp, by simp [unrolled_list.empty_list], rfl⟩

theorem sample_chain : Chain unrolled_list.sample [(0, [1, 2]), (1, [3])] := by
  refine ⟨?_, rfl, rfl, by decide, ?_, ?_, rfl⟩
  · refine ⟨⟨some 1, none, 2, fun i => if i = 0 then some 1 else if i = 1 then some 2 else none⟩,
      rfl, rfl, rfl, ⟨rfl, ?_⟩,
      ⟨none, some 0, 1, fun i => if i = 0 then some 3 else none⟩, rfl, rfl, rfl, ⟨rfl, ?_⟩,
      trivial⟩
    · intro k
      rcases k with _ | _ | k <;> simp
    · intro k
      rcases k with _ | k <;> simp
  · intro a ha
    simp only [List.map_cons, List.map_nil, List.mem_cons, List.mem_singleton,
      List.not_mem_nil, or_false] at ha
    show a < 2
    omega
  · intro a ha
    simp only [List.map_cons, List.map_nil, List.mem_cons, List.mem_singleton,
      List.not_mem_nil, or_false]
    by_cases h0 : a = 0
    · exact Or.inl h0
    · by_cases h1 : a = 1
      · exact Or.inr h1
      · simp [unrolled_list.sample, h0, h1] at ha

theorem sample_wf : WF 2 unrolled_list.sample [(0, [1, 2]), (1, [3])] :=
  ⟨sample_chain, by simp⟩

/-! ## Single operations on a well-formed container -/

theorem Chain.size_eq {l : unrolled_list T} {bs : List (Nat × List T)} (h : Chain l bs) :
    l.size = (elems bs).length := by
  rw [length_elems, ← h.total]; rfl

theorem WF.to_list {K : Nat} {l : unrolled_list T} {bs : List (Nat × List T)}
    (h : WF K l bs) : l.to_list = some (elems bs) :=
  to_list_chain h.1 h.nonempty

theorem push_back_elems (K : Nat) {l : unrolled_list T} {bs : List (Nat × List T)} (v : T)
    (h : Chain l bs) (hne : ∀ b ∈ bs, b.2 ≠ []) :
    ∃ l' bs', l.push_back K v = some l' ∧ Chain l' bs' ∧ (∀ b ∈ bs', b.2 ≠ []) ∧
      elems bs' = elems bs ++ [v] := by
  obtain ⟨l', h1, h2⟩ := push_back_chain K v h
  rcases h2 with ⟨_, hc⟩ | ⟨init, t, xs, hbs, _, hc⟩
  · refine ⟨l', _, h1, hc, ?_, ?_⟩
    · intro b hb
      rw [List.mem_append] at hb
      rcases hb with hb | hb
      · exact hne b hb
      · simp only [List.mem_singleton] at hb; rw [hb]; simp
    · rw [elems_append]; simp [elems]
  · subst hbs
    refine ⟨l', _, h1, hc, ?_, ?_⟩
    · intro b hb
      rw [List.mem_append] at hb
      rcases hb with hb | hb
      · exact hne b (by simp [hb])
      · simp only [List.mem_singleton] at hb; rw [hb]; simp
    · simp [elems_append, elems]

/-- C5: on a container whose buckets hold between 1 and `K` elements,
`push_back(v)` succeeds, forward iteration afterwards yields the previous
element sequence followed by `v`, and `size()` has grown by one. -/
theorem push_back_appends (K : Nat) (l : unrolled_list T) (bs : List (Nat × List T)) (v : T)
    (h : WF K l bs) :
    ∃ l', l.push_back K v = some l' ∧ l.to_list = some (elems bs) ∧
      l'.to_list = some (elems bs ++ [v]) ∧ l'.size = l.size + 1 := by
  obtain ⟨l', bs', h1, hc, hne', he⟩ := push_back_elems K v h.1 h.nonempty
  refine ⟨l', h1, h.to_list, ?_, ?_⟩
  · rw [to_list_chain hc hne', he]
  · rw [hc.size_eq, h.1.size_eq, he]
    simp

theorem push_back_appends_witness :
    WF 2 unrolled_list.sample [(0, [1, 2]), (1, [3])] ∧
    ∃ l', unrolled_list.sample.push_back 2 4 = some l' ∧
      unrolled_list.sample.to_list = some (elems [(0, [1, 2]), (1, [3])]) ∧
      l'.to_list = some (elems [(0, [1, 2]), (1, [3])] ++ [4]) ∧
      l'.size = unrolled_list.sample.size + 1 :=
  ⟨sample_wf, push_back_appends 2 unrolled_list.sample [(0, [1, 2]), (1, [3])] 4 sample_wf⟩

theorem nonempty_replace {l1 l2 : List (Nat × List T)} {a : Nat} {xs ys : List T}
    (h : ∀ b ∈ l1 ++ (a, xs) :: l2, b.2 ≠ []) (hy : ys ≠ []) :
    ∀ b ∈ l1 ++ (a, ys) :: l2, b.2 ≠ [] := by
  intro b hb
  simp only [List.mem_append, List.mem_cons] at hb
  rcases hb with hb | hb | hb
  · exact h b (by simp [hb])
  · rw [hb]; exact hy
  · exact h b (by simp [hb])

theorem nonempty_remove {l1 l2 : List (Nat × List T)} {a : Nat} {xs : List T}
    (h : ∀ b ∈ l1 ++ (a, xs) :: l2, b.2 ≠ []) : ∀ b ∈ l1 ++ l2, b.2 ≠ [] := by
  intro b hb
  simp only [List.mem_append] at hb
  rcases hb with hb | hb
  · exact h b (by simp [hb])
  · exact h b (by simp [hb])

theorem elems_mid (l1 l2 : List (Nat × List T)) (a : Nat) (xs : List T) :
    elems (l1 ++ (a, xs) :: l2) = elems l1 ++ xs ++ elems l2 := by
  rw [elems_append, elems_cons, List.append_assoc]

/-- After a bucket left the chain, its node is released. -/
theorem released_of_chain {l l' : unrolled_list T} {l1 l2 : List (Nat × List T)} {a : Nat}
    {xs : List T} (h : Chain l (l1 ++ (a, xs) :: l2)) (h' : Chain l' (l1 ++ l2)) :
    l'.nodes a = none := by
  cases hn : l'.nodes a with
  | none => rfl
  | some n =>
    have hm := h'.owned a (by simp [hn])
    have hnd := h.nodup
    simp only [List.map_append, List.map_cons, List.nodup_append, List.nodup_cons] at hnd
    obtain ⟨_, ⟨hnd2, _⟩, hnd4⟩ := hnd
    rw [List.map_append, List.mem_append] at hm
    rcases hm with hm | hm
    · exact absurd (List.mem_cons_self a _) (fun hc => hnd4 hm hc)
    · exact absurd hm hnd2

theorem WF.ne_nil_of_not_empty {K : Nat} {l : unrolled_list T} {bs : List (Nat × List T)}
    (h : WF K l bs) (hne : l.empty = false) : bs ≠ [] := by
  intro e
  subst e
  have := h.1.total
  simp [unrolled_list.empty] at hne
  exact hne this

/-- C7: on a non-empty container whose buckets hold between 1 and `K`
elements, `pop_front()` succeeds, forward iteration afterwards yields the
previous sequence without its first element, `size()` has dropped by one; a
head bucket with more than one element keeps its remaining elements
left-packed in order, and a head bucket with exactly one element is released
and unlinked: `head` becomes its `next` (the chain is the rest of the old
chain, so `tail` is null when there is no next bucket). -/
theorem pop_front_removes_first (K : Nat) (l : unrolled_list T) (bs : List (Nat × List T))
    (h : WF K l bs) (hne : l.empty = false) :
    ∃ l' h0 x xs rest n, bs = (h0, x :: xs) :: rest ∧ l.nodes h0 = some n ∧
      l.pop_front = some l' ∧
      l.to_list = some (x :: (xs ++ elems rest)) ∧ l'.to_list = some (xs ++ elems rest) ∧
      l'.size + 1 = l.size ∧
      (xs ≠ [] → Chain l' ((h0, xs) :: rest)) ∧
      (xs = [] → Chain l' rest ∧ l'.head = n.next ∧ l'.nodes h0 = none ∧
        (n.next = none → l'.tail = none)) := by
  obtain ⟨l', h1, h2⟩ := pop_front_chain h.1
  have hnil := h.ne_nil_of_not_empty hne
  have hnon := h.nonempty
  rcases h2 with ⟨hcase, _⟩ | ⟨h0, x, xs, rest, hbs, hsz, _, hc⟩
  · rcases hcase with e | ⟨h0, rest, e⟩
    · exact absurd e hnil
    · exact absurd rfl (hnon (h0, []) (by rw [e]; simp))
  · subst hbs
    have hch : Chain l ([] ++ (h0, x :: xs) :: rest) := h.1
    obtain ⟨n, hn, _, hnn, _⟩ := hch.node_at
    have hto : l.to_list = some (x :: (xs ++ elems rest)) := by
      rw [h.to_list]; rfl
    have hnon0 : ∀ b ∈ [] ++ (h0, x :: xs) :: rest, b.2 ≠ [] := hnon
    refine ⟨l', h0, x, xs, rest, n, rfl, hn, h1, hto, ?_, hsz, ?_, ?_⟩
    · rcases hc with ⟨e, hc⟩ | ⟨e, hc⟩
      · subst e
        have hr : ∀ b ∈ [] ++ rest, b.2 ≠ [] := nonempty_remove hnon0
        rw [to_list_chain hc hr]; rfl
      · have hr : ∀ b ∈ [] ++ (h0, xs) :: rest, b.2 ≠ [] := nonempty_replace hnon0 e
        rw [to_list_chain hc hr]; rfl
    · intro e
      rcases hc with ⟨e', _⟩ | ⟨_, hc⟩
      · exact absurd e' e
      · exact hc
    · intro e
      rcases hc with ⟨_, hc⟩ | ⟨e', _⟩
      · have hc' : Chain l' ([] ++ rest) := hc
        refine ⟨hc, ?_, released_of_chain hch hc', ?_⟩
        · rw [hc.head_eq, hnn]
        · intro hnone
          rw [hnn] at hnone
          cases rest with
          | nil => exact hc.tail_eq
          | cons c _ => simp [first_addr] at hnone
      · exact absurd e e'

theorem pop_front_removes_first_witness :
    WF 2 unrolled_list.sample [(0, [1, 2]), (1, [3])] ∧ unrolled_list.sample.empty = false ∧
    ∃ l' h0 x xs rest n, [(0, [1, 2]), (1, [3])] = (h0, x :: xs) :: rest ∧
      unrolled_list.sample.nodes h0 = some n ∧
      unrolled_list.sample.pop_front = some l' ∧
      unrolled_list.sample.to_list = some (x :: (xs ++ elems rest)) ∧
      l'.to_list = some (xs ++ elems rest) ∧
      l'.size + 1 = unrolled_list.sample.size ∧
      (xs ≠ [] → Chain l' ((h0, xs) :: rest)) ∧
      (xs = [] → Chain l' rest ∧ l'.head = n.next ∧ l'.nodes h0 = none ∧
        (n.next = none → l'.tail = none)) :=
  ⟨sample_wf, rfl,
    pop_front_removes_first 2 unrolled_list.sample [(0, [1, 2]), (1, [3])] sample_wf rfl⟩

/-- C8: on a non-empty container whose buckets hold between 1 and `K`
elements, `pop_back()` succeeds, forward iteration afterwards yields the
previous sequence without its last element, `size()` has dropped by one; a
tail bucket with exactly one element is released and unlinked: `tail` becomes
its `prev` (the chain is the old chain without its last bucket, so `head` is
null when there is no previous bucket). -/
theorem pop_back_removes_last (K : Nat) (l : unrolled_list T) (bs : List (Nat × List T))
    (h : WF K l bs) (hne : l.empty = false) :
    ∃ l' init t xs x n, bs = init ++ [(t, xs ++ [x])] ∧ l.nodes t = some n ∧
      l.pop_back = some l' ∧
      l.to_list = some (elems init ++ xs ++ [x]) ∧ l'.to_list = some (elems init ++ xs) ∧
      l'.size + 1 = l.size ∧
      (xs ≠ [] → Chain l' (init ++ [(t, xs)])) ∧
      (xs = [] → Chain l' init ∧ l'.tail = n.prev ∧ l'.nodes t = none ∧
        (n.prev = none → l'.head = none)) := by
  obtain ⟨l', h1, h2⟩ := pop_back_chain h.1
  have hnil := h.ne_nil_of_not_empty hne
  have hnon := h.nonempty
  rcases h2 with ⟨hcase, _⟩ | ⟨init, t, ys, hbs, hys, hsz, _, hc⟩
  · rcases hcase with e | ⟨init, t, e⟩
    · exact absurd e hnil
    · exact absurd rfl (hnon (t, []) (by rw [e]; simp))
  · subst hbs
    obtain ⟨n, hn, hnp, _, _⟩ := h.1.node_at
    have hsplit : ys = ys.dropLast ++ [ys.getLast hys] :=
      (List.dropLast_append_getLast hys).symm
    have hto : l.to_list = some (elems init ++ ys.dropLast ++ [ys.getLast hys]) := by
      rw [h.to_list, elems_mid, elems_nil, List.append_nil, List.append_assoc, ← hsplit]
    refine ⟨l', init, t, ys.dropLast, ys.getLast hys, n, by rw [← hsplit], hn, h1, hto, ?_,
      hsz, ?_, ?_⟩
    · rcases hc with ⟨e, hc⟩ | ⟨e, hc⟩
      · have hc' : Chain l' (init ++ []) := by simpa using hc
        rw [to_list_chain hc' (nonempty_remove hnon), e]; simp
      · rw [to_list_chain hc (nonempty_replace hnon e), elems_mid, elems_nil,
          List.append_nil]
    · intro e
      rcases hc with ⟨e', _⟩ | ⟨_, hc⟩
      · exact absurd e' e
      · exact hc
    · intro e
      rcases hc with ⟨_, hc⟩ | ⟨e', _⟩
      · have hc' : Chain l' (init ++ []) := by simpa using hc
        refine ⟨hc, ?_, released_of_chain h.1 hc', ?_⟩
        · rw [hc.tail_eq, hnp]
        · intro hnone
          rw [hnp] at hnone
          cases init with
          | nil => exact hc.head_eq
          | cons c rest =>
            obtain ⟨t', ht'⟩ := last_addr_cons_ne_none c rest none
            rw [ht'] at hnone
            exact absurd hnone (by simp)
      · exact absurd e e'

theorem pop_back_removes_last_witness :
    WF 2 unrolled_list.sample [(0, [1, 2]), (1, [3])] ∧ unrolled_list.sample.empty = false ∧
    ∃ l' init t xs x n, [(0, [1, 2]), (1, [3])] = init ++ [(t, xs ++ [x])] ∧
      unrolled_list.sample.nodes t = some n ∧
      unrolled_list.sample.pop_back = some l' ∧
      unrolled_list.sample.to_list = some (elems init ++ xs ++ [x]) ∧
      l'.to_list = some (elems init ++ xs) ∧
      l'.size + 1 = unrolled_list.sample.size ∧
      (xs ≠ [] → Chain l' (init ++ [(t, xs)])) ∧
      (xs = [] → Chain l' init ∧ l'.tail = n.prev ∧ l'.nodes t = none ∧
        (n.prev = none → l'.head = none)) :=
  ⟨sample_wf, rfl,
    pop_back_removes_last 2 unrolled_list.sample [(0, [1, 2]), (1, [3])] sample_wf rfl⟩

theorem deref_chain {l : unrolled_list T} {l1 l2 : List (Nat × List T)} {a : Nat}
    {xs : List T} (h : Chain l (l1 ++ (a, xs) :: l2)) (i : Nat) :
    Iterator.deref l ⟨some a, i⟩ = xs[i]? := by
  obtain ⟨n, hn, _, _, hnh⟩ := h.node_at
  simp [Iterator.deref, hn, hnh.2 i]

/-- C9: on a container whose buckets hold between 1 and `K` elements,
`erase` at a normal position `(a, i)` succeeds, forward iteration afterwards
yields the previous sequence with exactly the element at that position
removed, `size()` has dropped by one, and a bucket that held exactly one
element is released and leaves the chain, which stays properly linked from
`head` to `tail`. -/
theorem erase_removes (K : Nat) (l : unrolled_list T) (l1 l2 : List (Nat × List T))
    (a : Nat) (xs : List T) (i : Nat) (h : WF K l (l1 ++ (a, xs) :: l2))
    (hi : i < xs.length) :
    ∃ it l', l.erase ⟨some a, i⟩ = some (it, l') ∧
      Iterator.deref l ⟨some a, i⟩ = some xs[i] ∧
      l.to_list = some (elems l1 ++ xs ++ elems l2) ∧
      l'.to_list = some (elems l1 ++ xs.eraseIdx i ++ elems l2) ∧
      l'.size + 1 = l.size ∧
      (xs.length = 1 → Chain l' (l1 ++ l2) ∧ l'.nodes a = none) ∧
      (xs.length ≠ 1 → Chain l' (l1 ++ (a, xs.eraseIdx i) :: l2)) := by
  obtain ⟨it, l', h1, h2, _, h4⟩ := erase_chain h.1 i hi
  have hnon := h.nonempty
  refine ⟨it, l', h1, ?_, ?_, ?_, h2, ?_, ?_⟩
  · rw [deref_chain h.1, List.getElem?_eq_getElem hi]
  · rw [h.to_list, elems_mid]
  · rcases h4 with ⟨hx, _, hc⟩ | ⟨hx, _, hc⟩
    · have he : xs.eraseIdx i = [] :=
        List.length_eq_zero.mp (by rw [List.length_eraseIdx_of_lt hi, hx])
      rw [to_list_chain hc (nonempty_remove hnon), he, elems_append]; simp
    · have he : xs.eraseIdx i ≠ [] := by
        intro e
        have := congrArg List.length e
        rw [List.length_eraseIdx_of_lt hi] at this
        simp at this
        omega
      rw [to_list_chain hc (nonempty_replace hnon he), elems_mid]
  · intro hx
    rcases h4 with ⟨_, _, hc⟩ | ⟨hx', _, _⟩
    · exact ⟨hc, released_of_chain h.1 hc⟩
    · exact absurd hx hx'
  · intro hx
    rcases h4 with ⟨hx', _, _⟩ | ⟨_, _, hc⟩
    · exact absurd hx' hx
    · exact hc

theorem erase_removes_witness :
    WF 2 unrolled_list.sample ([] ++ (0, [1, 2]) :: [(1, [3])]) ∧ 1 < [1, 2].length ∧
    ∃ it l', unrolled_list.sample.erase ⟨some 0, 1⟩ = some (it, l') ∧
      Iterator.deref unrolled_list.sample ⟨some 0, 1⟩ = some 2 ∧
      unrolled_list.sample.to_list = some (elems [] ++ [1, 2] ++ elems [(1, [3])]) ∧
      l'.to_list = some (elems [] ++ [1, 2].eraseIdx 1 ++ elems [(1, [3])]) ∧
      l'.size + 1 = unrolled_list.sample.size ∧
      ([1, 2].length = 1 → Chain l' ([] ++ [(1, [3])]) ∧ l'.nodes 0 = none) ∧
      ([1, 2].length ≠ 1 → Chain l' ([] ++ (0, [1, 2].eraseIdx 1) :: [(1, [3])])) :=
  ⟨sample_wf, by decide,
    erase_removes 2 unrolled_list.sample [] [(1, [3])] 0 [1, 2] 1 sample_wf (by decide)⟩

/-! ## The split branch, `clear` and `assign` on arbitrary chains -/

theorem length_le_of_nodup_lt (xs : List Nat) (N : Nat) (hnd : xs.Nodup)
    (hlt : ∀ a ∈ xs, a < N) : xs.length ≤ N := by
  have hsub : xs ⊆ List.range N := fun a ha => List.mem_range.mpr (hlt a ha)
  have := (List.subperm_of_subset hnd hsub).length_le
  simpa using this

theorem Chain.length_le {l : unrolled_list T} {bs : List (Nat × List T)} (h : Chain l bs) :
    bs.length ≤ l.next_free := by
  have := length_le_of_nodup_lt (bs.map Prod.fst) l.next_free h.nodup h.below
  simpa using this

theorem sizes_from_seg (l : unrolled_list T) :
    ∀ (bs : List (Nat × List T)) (p : Option Nat) (fuel : Nat), Seg l.nodes p bs none →
      bs.length < fuel →
      l.sizes_from fuel (first_addr bs none) = some (bs.map (fun b => b.2.length)) := by
  intro bs
  induction bs with
  | nil =>
    intro p fuel _ _
    cases fuel <;> rfl
  | cons b rest ih =>
    intro p fuel hs hf
    obtain ⟨f, rfl⟩ : ∃ f, fuel = f + 1 := ⟨fuel - 1, by simp at hf; omega⟩
    obtain ⟨n, h1, _, h3, h4, h5⟩ := hs
    have hrec := ih (some b.1) f h5 (by simp at hf; omega)
    rw [← h3] at hrec
    simp [first_addr, unrolled_list.sizes_from, h1, hrec, h4.1]

theorem bucket_sizes_chain {l : unrolled_list T} {bs : List (Nat × List T)} (h : Chain l bs) :
    l.bucket_sizes = some (bs.map (fun b => b.2.length)) := by
  unfold unrolled_list.bucket_sizes
  rw [h.head_eq]
  exact sizes_from_seg l bs none _ h.seg (Nat.lt_succ_of_le h.length_le)

theorem clear_loop_seg :
    ∀ (bs : List (Nat × List T)) (p : Option Nat) (fuel : Nat) (s : unrolled_list T),
      Seg s.nodes p bs none → (bs.map Prod.fst).Nodup → bs.length < fuel →
      ∃ s', unrolled_list.clear_loop fuel s (first_addr bs none) = some s' ∧
        s'.next_free = s.next_free ∧
        ∀ a, s'.nodes a = if a ∈ bs.map Prod.fst then none else s.nodes a := by
  intro bs
  induction bs with
  | nil =>
    intro p fuel s _ _ _
    refine ⟨s, ?_, rfl, fun a => by simp⟩
    cases fuel <;> rfl
  | cons b rest ih =>
    intro p fuel s hs hnd hf
    obtain ⟨f, rfl⟩ : ∃ f, fuel = f + 1 := ⟨fuel - 1, by simp at hf; omega⟩
    obtain ⟨n, h1, _, h3, h4, h5⟩ := hs
    obtain ⟨d, hd⟩ := Option.isSome_iff_exists.mp h4.destroy_all_defined
    have hb : b.1 ∉ rest.map Prod.fst := (List.nodup_cons.mp hnd).1
    have hseg : Seg (s.deallocate b.1).nodes (some b.1) rest none :=
      seg_frame (fun a ha => by
        have : a ≠ b.1 := fun e => hb (e ▸ ha)
        simp [unrolled_list.deallocate, Function.update_apply, this]) h5
    obtain ⟨s', hs1, hs2, hs3⟩ :=
      ih (some b.1) f (s.deallocate b.1) hseg (List.nodup_cons.mp hnd).2
        (by simp at hf; omega)
    rw [← h3] at hs1
    refine ⟨s', ?_, hs2, fun a => ?_⟩
    · simp only [first_addr, unrolled_list.clear_loop, h1, hd, hs1]
    · rw [hs3 a]
      by_cases e : a = b.1
      · subst e
        simp [unrolled_list.deallocate, hb]
      · simp only [unrolled_list.deallocate, Function.update_apply, e, if_false,
          List.map_cons, List.mem_cons, false_or]

theorem clear_chain {l : unrolled_list T} {bs : List (Nat × List T)} (h : Chain l bs) :
    ∃ l', l.clear = some l' ∧ Chain l' [] ∧ l'.total_size = 0 := by
  obtain ⟨s', h1, h2, h3⟩ :=
    clear_loop_seg bs none (l.next_free + 1) l h.seg h.nodup (Nat.lt_succ_of_le h.length_le)
  rw [← h.head_eq] at h1
  refine ⟨{ s' with head := none, tail := none, total_size := 0 }, ?_, ?_, rfl⟩
  · simp [unrolled_list.clear, h1]
  · refine ⟨trivial, rfl, rfl, List.nodup_nil, by simp, ?_, rfl⟩
    intro a ha
    have ha' : (s'.nodes a).isSome := ha
    rw [h3 a] at ha'
    by_cases e : a ∈ bs.map Prod.fst
    · simp [e] at ha'
    · simp only [e, if_false] at ha'
      exact absurd (h.owned a ha') e

theorem normal_decomp {l : unrolled_list T} {bs : List (Nat × List T)} (h : Chain l bs)
    (pos : Iterator) (hn : l.normal pos = true) :
    ∃ l1 a xs l2, bs = l1 ++ (a, xs) :: l2 ∧ pos = ⟨some a, pos.index⟩ ∧
      pos.index < xs.length := by
  obtain ⟨node, index⟩ := pos
  cases node with
  | none => simp [unrolled_list.normal] at hn
  | some a =>
    cases hna : l.nodes a with
    | none => simp [unrolled_list.normal, hna] at hn
    | some n =>
      have hlt : index < n.size := by simpa [unrolled_list.normal, hna] using hn
      have hmem := h.owned a (by simp [hna])
      obtain ⟨b, hb, hba⟩ := List.mem_map.mp hmem
      obtain ⟨l1, l2, hbs⟩ := List.append_of_mem hb
      obtain ⟨a', xs⟩ := b
      simp only at hba
      subst hba
      subst hbs
      obtain ⟨n', hn', _, _, hh⟩ := h.node_at
      rw [hna] at hn'
      simp only [Option.some.injEq] at hn'
      subst hn'
      exact ⟨l1, a', xs, l2, rfl, rfl, by rw [← hh.1]; exact hlt⟩

theorem Iterator.eq_end (l : unrolled_list T) (pos : Iterator)
    (h : pos.eq l.end_ = true) : pos = l.end_ := by
  obtain ⟨node, index⟩ := pos
  simp only [Iterator.eq, unrolled_list.end_, Bool.and_eq_true, beq_iff_eq] at h
  simp only [unrolled_list.end_]
  rw [h.1, h.2]

/-- C2 (defect): with `K = 2` and the buckets `[1,2] -> [3]` built by three
`push_back` calls, `insert` at the position of `2` (node 0, index 1) takes
the branch `node->size <= NodeMaxSize` although the bucket is full: no node
is allocated, and the chain is `[1,99,2] -> [3]`, a first bucket of three
elements, not `[1] -> [99,2] -> [3]`. -/
theorem insert_full_bucket_no_split :
    ((unrolled_list.push_back_all 2 (unrolled_list.empty_list : unrolled_list Nat)
        [1, 2, 3]).map
      (fun l => (l.buckets, Iterator.deref l ⟨some 0, 1⟩, l.next_free))) =
      some (some [[some 1, some 2], [some 3]], some 2, 2) ∧
    (((unrolled_list.push_back_all 2 (unrolled_list.empty_list : unrolled_list Nat)
        [1, 2, 3]).bind (fun l => l.insert 2 ⟨some 0, 1⟩ 99)).map
      (fun r => (r.2.buckets, r.2.bucket_sizes, r.2.next_free))) =
      some (some [[some 1, some 99, some 2], [some 3]], some [3, 1], 2) := by
  constructor <;> decide

/-- C3 (defect): with `K = 2`, after `push_back(1); push_back(2);
insert(begin(), 9)` the only bucket has `size = 3 > NodeMaxSize`, its third
element sitting in slot 2. -/
theorem capacity_exceeded :
    ((unrolled_list.run 2 (unrolled_list.empty_list : unrolled_list Nat)
        [Op.push_back 1, Op.push_back 2, Op.insert ⟨some 0, 0⟩ 9]).map
      (fun l => (l.bucket_sizes, l.buckets))) =
      some (some [3], some [[some 9, some 1, some 2]]) := by
  decide

/-- C10 (defect): with `K = 10`, after `push_back` of 1, 2, 3 the call
`erase` at the position of `3` (node 0, index 2) leaves `1, 2` and returns
the iterator (node 0, index 2), which does not compare equal to `end()`. -/
theorem erase_last_not_end :
    (((unrolled_list.push_back_all 10 (unrolled_list.empty_list : unrolled_list Nat)
        [1, 2, 3]).bind (fun l => l.erase ⟨some 0, 2⟩)).map
      (fun r => (r.1, r.1.eq r.2.end_, r.2.to_list))) =
      some (⟨some 0, 2⟩, false, some [1, 2]) := by
  decide

/-! ## `assign`, emptied containers, `front` and `back` -/

theorem push_back_all_elems (K : Nat) :
    ∀ (xs : List T) (l : unrolled_list T) (bs : List (Nat × List T)), Chain l bs →
      (∀ b ∈ bs, b.2 ≠ []) →
      ∃ l' bs', unrolled_list.push_back_all K l xs = some l' ∧ Chain l' bs' ∧
        (∀ b ∈ bs', b.2 ≠ []) ∧ elems bs' = elems bs ++ xs := by
  intro xs
  induction xs with
  | nil => intro l bs h hne; exact ⟨l, bs, rfl, h, hne, by simp⟩
  | cons x xs ih =>
    intro l bs h hne
    obtain ⟨l1, bs1, h1, hc1, hne1, he1⟩ := push_back_elems K x h hne
    obtain ⟨l', bs', h2, hc2, hne2, he2⟩ := ih l1 bs1 hc1 hne1
    refine ⟨l', bs', by simp [unrolled_list.push_back_all, h1, h2], hc2, hne2, ?_⟩
    rw [he2, he1]; simp

theorem Chain.empty_state {l : unrolled_list T} (h : Chain l []) :
    l.empty = true ∧ l.size = 0 ∧ l.begin_.eq l.end_ = true := by
  have ht : l.total_size = 0 := h.total
  have hh : l.head = none := h.head_eq
  refine ⟨by simp [unrolled_list.empty, ht], ht, ?_⟩
  simp [Iterator.eq, unrolled_list.begin_, unrolled_list.end_, hh]

theorem singleton_eq_snoc {b c : Nat × List T} {init : List (Nat × List T)}
    (h : [b] = init ++ [c]) : init = [] ∧ b = c := by
  cases init with
  | nil => simpa using h
  | cons d rest =>
    have := congrArg List.length h
    simp at this

theorem single_chain : Chain unrolled_list.single [(0, [5])] := by
  refine ⟨?_, rfl, rfl, by decide, ?_, ?_, rfl⟩
  · refine ⟨⟨none, none, 1, fun i => if i = 0 then some 5 else none⟩, rfl, rfl, rfl,
      ⟨rfl, ?_⟩, trivial⟩
    intro k
    rcases k with _ | k <;> simp
  · intro a ha
    simp only [List.map_cons, List.map_nil, List.mem_singleton] at ha
    show a < 1
    omega
  · intro a ha
    simp only [List.map_cons, List.map_nil, List.mem_singleton]
    by_cases h0 : a = 0
    · exact h0
    · simp [unrolled_list.single, h0] at ha

theorem single_wf : WF 2 unrolled_list.single [(0, [5])] :=
  ⟨single_chain, by simp⟩

theorem WF.single {K : Nat} {l : unrolled_list T} {bs : List (Nat × List T)}
    (h : WF K l bs) (h1 : l.size = 1) : ∃ a x, bs = [(a, [x])] := by
  have hlen : (elems bs).length = 1 := by rw [← h.1.size_eq]; exact h1
  have hne := h.nonempty
  cases bs with
  | nil => simp [elems_nil] at hlen
  | cons b rest =>
    obtain ⟨a, xs⟩ := b
    rw [elems_cons, List.length_append] at hlen
    have hx : xs ≠ [] := hne (a, xs) (by simp)
    have hxl : 0 < xs.length := List.length_pos.mpr hx
    cases rest with
    | nil =>
      cases xs with
      | nil => exact absurd rfl hx
      | cons x xs' =>
        cases xs' with
        | nil => exact ⟨a, x, rfl⟩
        | cons y ys => simp [elems_nil] at hlen
    | cons c rest' =>
      have hc : c.2 ≠ [] := hne c (by simp)
      have hcl : 0 < c.2.length := List.length_pos.mpr hc
      rw [elems_cons, List.length_append] at hlen
      simp only at hlen
      omega

/-- C19: on a container whose buckets hold between 1 and `K` elements,
after `clear()` the container is empty (`empty()`, `size() == 0`) and
`begin() == end()`; and when the container holds exactly one element, the
same holds after `pop_back()`, after `pop_front()` and after
`erase(begin())`. -/
theorem empty_after_removal (K : Nat) (l : unrolled_list T) (bs : List (Nat × List T))
    (h : WF K l bs) :
    (∃ l', l.clear = some l' ∧ l'.empty = true ∧ l'.size = 0 ∧
      l'.begin_.eq l'.end_ = true) ∧
    (l.size = 1 →
      (∃ l', l.pop_back = some l' ∧ l'.empty = true ∧ l'.begin_.eq l'.end_ = true) ∧
      (∃ l', l.pop_front = some l' ∧ l'.empty = true ∧ l'.begin_.eq l'.end_ = true) ∧
      (∃ it l', l.erase l.begin_ = some (it, l') ∧ l'.empty = true ∧
        l'.begin_.eq l'.end_ = true)) := by
  constructor
  · obtain ⟨l', h1, hc, _⟩ := clear_chain h.1
    exact ⟨l', h1, hc.empty_state⟩
  · intro hs
    obtain ⟨a, x, hbs⟩ := h.single hs
    subst hbs
    refine ⟨?_, ?_, ?_⟩
    · obtain ⟨l', h1, h2⟩ := pop_back_chain h.1
      rcases h2 with ⟨hcase, _⟩ | ⟨init, t, xs, hbs, hx, _, _, hc⟩
      · rcases hcase with e | ⟨init, t, e⟩
        · simp at e
        · have := (singleton_eq_snoc e).2
          simp at this
      · obtain ⟨hi, hb⟩ := singleton_eq_snoc hbs
        have hxs : xs = [x] := (Prod.mk.inj hb).2.symm
        subst hi hxs
        rcases hc with ⟨_, hc⟩ | ⟨e, _⟩
        · exact ⟨l', h1, hc.empty_state.1, hc.empty_state.2.2⟩
        · simp at e
    · obtain ⟨l', h1, h2⟩ := pop_front_chain h.1
      rcases h2 with ⟨hcase, _⟩ | ⟨h0, y, ys, rest, hbs, _, _, hc⟩
      · rcases hcase with e | ⟨h0, rest, e⟩
        · simp at e
        · simp at e
      · simp only [List.cons.injEq, Prod.mk.injEq] at hbs
        obtain ⟨⟨_, _, hy⟩, hr⟩ := hbs
        subst hy
        rw [← hr] at hc
        rcases hc with ⟨_, hc⟩ | ⟨e, _⟩
        · exact ⟨l', h1, hc.empty_state.1, hc.empty_state.2.2⟩
        · simp at e
    · have hb : l.begin_ = ⟨some a, 0⟩ := by
        unfold unrolled_list.begin_
        rw [h.1.head_eq]; rfl
      have hch : Chain l ([] ++ (a, [x]) :: []) := h.1
      obtain ⟨it, l', h1, _, _, h4⟩ := erase_chain hch 0 (by simp)
      rcases h4 with ⟨_, _, hc⟩ | ⟨e, _, _⟩
      · rw [hb]
        exact ⟨it, l', h1, hc.empty_state.1, hc.empty_state.2.2⟩
      · simp at e

theorem empty_after_removal_witness :
    WF 2 unrolled_list.single [(0, [5])] ∧ unrolled_list.single.size = 1 ∧
    (∃ l', unrolled_list.single.clear = some l' ∧ l'.empty = true ∧ l'.size = 0 ∧
      l'.begin_.eq l'.end_ = true) ∧
    (∃ l', unrolled_list.single.pop_back = some l' ∧ l'.empty = true ∧
      l'.begin_.eq l'.end_ = true) ∧
    (∃ l', unrolled_list.single.pop_front = some l' ∧ l'.empty = true ∧
      l'.begin_.eq l'.end_ = true) ∧
    (∃ it l', unrolled_list.single.erase unrolled_list.single.begin_ = some (it, l') ∧
      l'.empty = true ∧ l'.begin_.eq l'.end_ = true) :=
  ⟨single_wf, rfl,
    (empty_after_removal 2 unrolled_list.single [(0, [5])] single_wf).1,
    (empty_after_removal 2 unrolled_list.single [(0, [5])] single_wf).2 rfl⟩

/-- C20: on a non-empty container whose buckets hold between 1 and `K`
elements, `front()` is the first and `back()` (the dereference of `end()`
decremented once) the last element of the forward-iteration sequence. -/
theorem front_back (K : Nat) (l : unrolled_list T) (bs : List (Nat × List T))
    (h : WF K l bs) (hne : l.empty = false) :
    ∃ xs x y it, l.to_list = some xs ∧ l.front = some x ∧ xs.head? = some x ∧
      Iterator.dec l l.end_ = some it ∧ Iterator.deref l it = some y ∧
      l.back = some y ∧ xs.getLast? = some y := by
  have hnil := h.ne_nil_of_not_empty hne
  have hnon := h.nonempty
  -- the first element
  have hfront : ∃ x, l.front = some x ∧ (elems bs).head? = some x := by
    cases bs with
    | nil => exact absurd rfl hnil
    | cons b rest =>
      obtain ⟨a, xs⟩ := b
      have hx : xs ≠ [] := hnon (a, xs) (by simp)
      cases xs with
      | nil => exact absurd rfl hx
      | cons x xs' =>
        have hch : Chain l ([] ++ (a, x :: xs') :: rest) := h.1
        refine ⟨x, ?_, rfl⟩
        have hb : l.begin_ = ⟨some a, 0⟩ := by
          unfold unrolled_list.begin_
          rw [h.1.head_eq]; rfl
        unfold unrolled_list.front
        rw [hb, deref_chain hch 0]
        exact List.getElem?_cons_zero
  -- the last element
  have hback : ∃ y it, Iterator.dec l l.end_ = some it ∧ Iterator.deref l it = some y ∧
      (elems bs).getLast? = some y := by
    rcases eq_nil_or_snoc bs with e | ⟨init, ⟨t, xs⟩, e⟩
    · exact absurd e hnil
    · subst e
      have hx : xs ≠ [] := hnon (t, xs) (by simp)
      have hpos : 0 < xs.length := List.length_pos.mpr hx
      have hlt : xs.length - 1 < xs.length := by omega
      refine ⟨xs[xs.length - 1], ⟨some t, xs.length - 1⟩, ?_, ?_, ?_⟩
      · rw [dec_end_chain h.1, size_t_sub_of_le (by omega)]
      · rw [deref_chain h.1, List.getElem?_eq_getElem hlt]
      · rw [elems_mid, elems_nil, List.append_nil, List.getLast?_append_of_ne_nil _ hx,
          List.getLast?_eq_getElem?, List.getElem?_eq_getElem hlt]
  obtain ⟨x, hf1, hf2⟩ := hfront
  obtain ⟨y, it, hb1, hb2, hb3⟩ := hback
  refine ⟨elems bs, x, y, it, h.to_list, hf1, hf2, hb1, hb2, ?_, hb3⟩
  simp [unrolled_list.back, hb1, hb2]

theorem front_back_witness :
    WF 2 unrolled_list.sample [(0, [1, 2]), (1, [3])] ∧ unrolled_list.sample.empty = false ∧
    ∃ xs x y it, unrolled_list.sample.to_list = some xs ∧
      unrolled_list.sample.front = some x ∧ xs.head? = some x ∧
      Iterator.dec unrolled_list.sample unrolled_list.sample.end_ = some it ∧
      Iterator.deref unrolled_list.sample it = some y ∧
      unrolled_list.sample.back = some y ∧ xs.getLast? = some y :=
  ⟨sample_wf, rfl, front_back 2 unrolled_list.sample [(0, [1, 2]), (1, [3])] sample_wf rfl⟩

/-! ## Reverse iteration -/

theorem dec_same (l : unrolled_list T) (a i : Nat) (hi : 0 < i) :
    Iterator.dec l ⟨some a, i⟩ = some ⟨some a, i - 1⟩ := by
  simp [Iterator.dec, hi]

theorem dec_prev {l : unrolled_list T} {init l2 : List (Nat × List T)} {p a : Nat}
    {ps xs : List T} (h : Chain l (init ++ (p, ps) :: (a, xs) :: l2)) (hp : ps ≠ []) :
    Iterator.dec l ⟨some a, 0⟩ = some ⟨some p, ps.length - 1⟩ := by
  have e : init ++ (p, ps) :: (a, xs) :: l2 = (init ++ [(p, ps)]) ++ (a, xs) :: l2 := by simp
  have h' : Chain l ((init ++ [(p, ps)]) ++ (a, xs) :: l2) := e ▸ h
  obtain ⟨n, hn, hnp, _, _⟩ := h'.node_at
  obtain ⟨m, hm, _, _, hmh⟩ := h.node_at
  rw [last_addr_snoc] at hnp
  have hpos : 0 < ps.length := List.length_pos.mpr hp
  simp [Iterator.dec, hn, hnp, hm, hmh.1, size_t_sub_of_le hpos]

theorem take_succ_eq (xs : List T) (j : Nat) (h : j < xs.length) :
    xs.take (j + 1) = xs.take j ++ [xs[j]] := by
  rw [List.take_succ, List.getElem?_eq_getElem h]
  rfl

theorem reverse_snoc (as bs : List T) (x : T) :
    (as ++ (bs ++ [x])).reverse = x :: (as ++ bs).reverse := by
  simp

theorem elems_eq_nil_of_nonempty {l1 : List (Nat × List T)} (hne : ∀ b ∈ l1, b.2 ≠ [])
    (h : (elems l1).length = 0) : l1 = [] := by
  cases l1 with
  | nil => rfl
  | cons b rest =>
    rw [elems_cons, List.length_append] at h
    have := List.length_pos.mpr (hne b (by simp))
    omega

/-- Reverse iteration from the base position `(a, i)` yields the elements
before that position, last first. -/
theorem collect_rev_prefix (l : unrolled_list T) :
    ∀ (n : Nat) (l1 l2 : List (Nat × List T)) (a : Nat) (xs : List T) (i : Nat),
      Chain l (l1 ++ (a, xs) :: l2) → (∀ b ∈ l1 ++ (a, xs) :: l2, b.2 ≠ []) →
      i < xs.length → (elems l1).length + i = n → ∀ fuel, n < fuel →
      l.collect_rev fuel ⟨some a, i⟩ = some ((elems l1 ++ xs.take i).reverse) := by
  intro n
  induction n with
  | zero =>
    intro l1 l2 a xs i h hne hi hn fuel hf
    have hi0 : i = 0 := by omega
    have hl1 : l1 = [] :=
      elems_eq_nil_of_nonempty (fun b hb => hne b (by simp [hb])) (by omega)
    subst hi0 hl1
    obtain ⟨f, rfl⟩ : ∃ f, fuel = f + 1 := ⟨fuel - 1, by omega⟩
    have hb : l.begin_ = ⟨some a, 0⟩ := by
      unfold unrolled_list.begin_
      rw [h.head_eq]; rfl
    simp [unrolled_list.collect_rev, hb, Iterator.eq, elems_nil]
  | succ n ih =>
    intro l1 l2 a xs i h hne hi hn fuel hf
    obtain ⟨f, rfl⟩ : ∃ f, fuel = f + 1 := ⟨fuel - 1, by omega⟩
    cases i with
    | succ j =>
      have hjx : j < xs.length := by omega
      have hnb : Iterator.eq ⟨some a, j + 1⟩ l.begin_ = false := by
        simp [Iterator.eq, unrolled_list.begin_]
      have hrec := ih l1 l2 a xs j h hne hjx (by omega) f (by omega)
      have hd : Iterator.deref l ⟨some a, j⟩ = some xs[j] := by
        rw [deref_chain h, List.getElem?_eq_getElem hjx]
      rw [unrolled_list.collect_rev, hnb]
      simp only [Bool.false_eq_true, if_false, dec_same l a (j + 1) (by omega),
        Nat.add_sub_cancel, hd, hrec, Option.map_some']
      rw [take_succ_eq xs j hjx, reverse_snoc]
    | zero =>
      have hl1 : l1 ≠ [] := by
        intro e
        subst e
        simp [elems_nil] at hn
      rcases eq_nil_or_snoc l1 with e | ⟨init, ⟨p, ps⟩, e⟩
      · exact absurd e hl1
      · subst e
        have hps : ps ≠ [] := hne (p, ps) (by simp)
        have hpos : 0 < ps.length := List.length_pos.mpr hps
        have hc : Chain l (init ++ (p, ps) :: (a, xs) :: l2) := by
          simpa [List.append_assoc] using h
        have hne' : ∀ b ∈ init ++ (p, ps) :: (a, xs) :: l2, b.2 ≠ [] := by
          intro b hb
          exact hne b (by simpa [List.append_assoc] using hb)
        have hnd := h.nodup
        have hpa : l.head ≠ some a := by
          rw [h.head_eq, first_addr_append]
          intro e
          have hmem : a ∈ (init ++ [(p, ps)]).map Prod.fst := by
            cases init with
            | nil =>
              simp only [List.nil_append, first_addr, Option.some.injEq] at e
              simp [e]
            | cons c rest =>
              simp only [List.cons_append, first_addr, Option.some.injEq] at e
              simp [e]
          rw [List.map_append, List.nodup_append] at hnd
          exact hnd.2.2 hmem (by simp)
        have hnb : Iterator.eq ⟨some a, 0⟩ l.begin_ = false := by
          simp only [Iterator.eq, unrolled_list.begin_, Bool.and_eq_false_imp, beq_iff_eq]
          intro e
          exact absurd e.symm hpa
        have hlt : ps.length - 1 < ps.length := by omega
        have he : elems (init ++ [(p, ps)]) = elems init ++ ps := by
          rw [elems_append]; simp [elems]
        have hcount : (elems init).length + (ps.length - 1) = n := by
          rw [he, List.length_append] at hn
          omega
        have hrec := ih init ((a, xs) :: l2) p ps (ps.length - 1) hc hne' hlt hcount f
          (by omega)
        have hd : Iterator.deref l ⟨some p, ps.length - 1⟩ = some ps[ps.length - 1] := by
          rw [deref_chain hc, List.getElem?_eq_getElem hlt]
        rw [unrolled_list.collect_rev, hnb]
        simp only [Bool.false_eq_true, if_false, dec_prev hc hps, hd, hrec, Option.map_some']
        have hsplit : ps = ps.take (ps.length - 1) ++ [ps[ps.length - 1]] := by
          have e1 : ps.take (ps.length - 1 + 1) = ps := by
            rw [List.take_of_length_le (by omega)]
          rw [take_succ_eq ps (ps.length - 1) hlt] at e1
          exact e1.symm
        rw [he, List.take_zero, List.append_nil]
        conv_rhs => rw [hsplit, reverse_snoc]

/-- C17: on a container whose buckets hold between 1 and `K` elements,
reverse traversal from `rbegin()` to `rend()` (decrement from `end()` until
`begin()` is reached, dereferencing after each decrement) comes to an end and
yields the reverse of the forward-iteration sequence. -/
theorem reverse_traversal (K : Nat) (l : unrolled_list T) (bs : List (Nat × List T))
    (h : WF K l bs) :
    ∃ xs, l.to_list = some xs ∧ l.to_list_rev = some xs.reverse := by
  refine ⟨elems bs, h.to_list, ?_⟩
  have hnon := h.nonempty
  unfold unrolled_list.to_list_rev
  rcases eq_nil_or_snoc bs with e | ⟨init, ⟨t, xs⟩, e⟩
  · subst e
    have hh : l.head = none := h.1.head_eq
    simp [unrolled_list.collect_rev, Iterator.eq, unrolled_list.begin_, unrolled_list.end_,
      hh, elems_nil]
  · subst e
    have hx : xs ≠ [] := hnon (t, xs) (by simp)
    have hpos : 0 < xs.length := List.length_pos.mpr hx
    have hlt : xs.length - 1 < xs.length := by omega
    obtain ⟨fst, hfst⟩ : ∃ f, l.head = some f := by
      rw [h.1.head_eq, first_addr_append]
      cases init with
      | nil => exact ⟨t, rfl⟩
      | cons c _ => exact ⟨c.1, rfl⟩
    have hnb : Iterator.eq l.end_ l.begin_ = false := by
      simp [Iterator.eq, unrolled_list.begin_, unrolled_list.end_, hfst]
    have htot : l.total_size = (elems init).length + xs.length := by
      have := h.1.size_eq
      rw [elems_mid, elems_nil, List.append_nil, List.length_append] at this
      exact this
    have hrec := collect_rev_prefix l ((elems init).length + (xs.length - 1)) init [] t xs
      (xs.length - 1) h.1 hnon hlt rfl l.total_size (by omega)
    have hd : Iterator.deref l ⟨some t, xs.length - 1⟩ = some xs[xs.length - 1] := by
      rw [deref_chain h.1, List.getElem?_eq_getElem hlt]
    rw [unrolled_list.collect_rev, hnb]
    simp only [Bool.false_eq_true, if_false, dec_end_chain h.1, size_t_sub_of_le hpos, hd,
      hrec, Option.map_some']
    have hsplit : xs = xs.take (xs.length - 1) ++ [xs[xs.length - 1]] := by
      have e1 : xs.take (xs.length - 1 + 1) = xs := by
        rw [List.take_of_length_le (by omega)]
      rw [take_succ_eq xs (xs.length - 1) hlt] at e1
      exact e1.symm
    rw [elems_mid, elems_nil, List.append_nil]
    conv_rhs => rw [hsplit, reverse_snoc]

theorem reverse_traversal_witness :
    WF 2 unrolled_list.sample [(0, [1, 2]), (1, [3])] ∧
    ∃ xs, unrolled_list.sample.to_list = some xs ∧
      unrolled_list.sample.to_list_rev = some xs.reverse :=
  ⟨sample_wf, reverse_traversal 2 unrolled_list.sample [(0, [1, 2]), (1, [3])] sample_wf⟩

/-! ## Comparison and copy -/

theorem collect_zero (l : unrolled_list T) (it : Iterator) : l.collect 0 it = none := rfl

theorem collect_succ_nil {l : unrolled_list T} {f : Nat} {it : Iterator}
    (h : l.collect (f + 1) it = some []) : it.eq l.end_ = true := by
  rw [unrolled_list.collect] at h
  by_cases he : it.eq l.end_ = true
  · exact he
  · have he' : it.eq l.end_ = false := by simpa using he
    simp only [he', Bool.false_eq_true, if_false] at h
    cases hd : it.deref l with
    | none => simp [hd] at h
    | some v =>
      cases hi : it.inc l with
      | none => simp [hd, hi] at h
      | some it1 =>
        simp only [hd, hi] at h
        cases hc : l.collect f it1 with
        | none => simp [hc] at h
        | some rest => simp [hc] at h

theorem collect_succ_cons {l : unrolled_list T} {f : Nat} {it : Iterator} {x : T}
    {xs : List T} (h : l.collect (f + 1) it = some (x :: xs)) :
    it.eq l.end_ = false ∧ it.deref l = some x ∧
      ∃ it1, it.inc l = some it1 ∧ l.collect f it1 = some xs := by
  rw [unrolled_list.collect] at h
  by_cases he : it.eq l.end_ = true
  · simp [he] at h
  · have he' : it.eq l.end_ = false := by simpa using he
    simp only [he', Bool.false_eq_true, if_false] at h
    cases hd : it.deref l with
    | none => simp [hd] at h
    | some v =>
      cases hi : it.inc l with
      | none => simp [hd, hi] at h
      | some it1 =>
        simp only [hd, hi] at h
        cases hc : l.collect f it1 with
        | none => simp [hc] at h
        | some rest =>
          simp only [hc, Option.map_some', Option.some.injEq, List.cons.injEq] at h
          refine ⟨he', ?_, it1, rfl, ?_⟩
          · rw [h.1]
          · rw [← h.2]; exact hc

theorem equal_loop_collect [DecidableEq T] (a b : unrolled_list T) :
    ∀ (f : Nat) (it1 it2 : Iterator) (xs ys : List T),
      a.collect f it1 = some xs → b.collect f it2 = some ys → xs.length = ys.length →
      unrolled_list.equal_loop a b f it1 it2 = some (decide (xs = ys)) := by
  intro f
  induction f with
  | zero => intro it1 it2 xs ys h1; simp [collect_zero] at h1
  | succ f ih =>
    intro it1 it2 xs ys h1 h2 hlen
    cases xs with
    | nil =>
      have hy : ys = [] := List.length_eq_zero.mp hlen.symm
      subst hy
      simp [unrolled_list.equal_loop, collect_succ_nil h1]
    | cons x xs' =>
      cases ys with
      | nil => simp at hlen
      | cons y ys' =>
        obtain ⟨e1, d1, i1, hi1, c1⟩ := collect_succ_cons h1
        obtain ⟨_, d2, i2, hi2, c2⟩ := collect_succ_cons h2
        have hlen' : xs'.length = ys'.length := by simpa using hlen
        rw [unrolled_list.equal_loop]
        simp only [e1, Bool.false_eq_true, if_false, d1, d2, hi1, hi2]
        by_cases hxy : x = y
        · subst hxy
          simp [ih i1 i2 xs' ys' c1 c2 hlen']
        · simp [hxy]

/-- The comparison operator `operator==` on two chains of non-empty buckets decides
equality of the element sequences. -/
theorem equals_chain [DecidableEq T] {a b : unrolled_list T}
    {bsa bsb : List (Nat × List T)} (ha : Chain a bsa) (hb : Chain b bsb)
    (hna : ∀ c ∈ bsa, c.2 ≠ []) (hnb : ∀ c ∈ bsb, c.2 ≠ []) :
    a.equals b = some (decide (elems bsa = elems bsb)) := by
  have hsa := ha.size_eq
  have hsb := hb.size_eq
  simp only [unrolled_list.size] at hsa hsb
  unfold unrolled_list.equals
  by_cases hs : a.total_size = b.total_size
  · have h1 := to_list_chain ha hna
    have h2 := to_list_chain hb hnb
    unfold unrolled_list.to_list at h1 h2
    rw [← hs] at h2
    simp only [hs, ne_eq, not_true_eq_false, if_false]
    rw [← hs]
    exact equal_loop_collect a b _ _ _ _ _ h1 h2 (by rw [← hsa, ← hsb, hs])
  · have hne : elems bsa ≠ elems bsb := by
      intro e
      apply hs
      rw [hsa, hsb, e]
    simp [hs, hne]

/-- C14: for two containers whose buckets hold between 1 and `K` elements,
`a == b` is true exactly when the sizes agree and the forward-iteration
sequences are equal, whatever the distribution of the elements over the
buckets; `a != b` is its negation. -/
theorem equality_by_sequence [DecidableEq T] (K : Nat) (a b : unrolled_list T)
    (bsa bsb : List (Nat × List T)) (ha : WF K a bsa) (hb : WF K b bsb) :
    ∃ xs ys, a.to_list = some xs ∧ b.to_list = some ys ∧
      a.equals b = some (decide (a.size = b.size ∧ xs = ys)) ∧
      a.not_equals b = some (!decide (a.size = b.size ∧ xs = ys)) := by
  have he := equals_chain ha.1 hb.1 ha.nonempty hb.nonempty
  have hd : decide (a.size = b.size ∧ elems bsa = elems bsb) =
      decide (elems bsa = elems bsb) := by
    by_cases e : elems bsa = elems bsb
    · have : a.size = b.size := by rw [ha.1.size_eq, hb.1.size_eq, e]
      simp [e, this]
    · simp [e]
  refine ⟨elems bsa, elems bsb, ha.to_list, hb.to_list, ?_, ?_⟩
  · rw [hd]; exact he
  · rw [hd]; simp [unrolled_list.not_equals, he]

theorem sample_alt_chain : Chain unrolled_list.sample_alt [(0, [1]), (1, [2, 3])] := by
  refine ⟨?_, rfl, rfl, by decide, ?_, ?_, rfl⟩
  · refine ⟨⟨some 1, none, 1, fun i => if i = 0 then some 1 else none⟩,
      rfl, rfl, rfl, ⟨rfl, ?_⟩,
      ⟨none, some 0, 2, fun i => if i = 0 then some 2 else if i = 1 then some 3 else none⟩,
      rfl, rfl, rfl, ⟨rfl, ?_⟩, trivial⟩
    · intro k
      rcases k with _ | k <;> simp
    · intro k
      rcases k with _ | _ | k <;> simp
  · intro a ha
    simp only [List.map_cons, List.map_nil, List.mem_cons, List.mem_singleton,
      List.not_mem_nil, or_false] at ha
    show a < 2
    omega
  · intro a ha
    simp only [List.map_cons, List.map_nil, List.mem_cons, List.mem_singleton,
      List.not_mem_nil, or_false]
    by_cases h0 : a = 0
    · exact Or.inl h0
    · by_cases h1 : a = 1
      · exact Or.inr h1
      · simp [unrolled_list.sample_alt, h0, h1] at ha

theorem sample_alt_wf : WF 2 unrolled_list.sample_alt [(0, [1]), (1, [2, 3])] :=
  ⟨sample_alt_chain, by simp⟩

theorem equality_by_sequence_witness :
    WF 2 unrolled_list.sample [(0, [1, 2]), (1, [3])] ∧
    WF 2 unrolled_list.sample_alt [(0, [1]), (1, [2, 3])] ∧
    ∃ xs ys, unrolled_list.sample.to_list = some xs ∧
      unrolled_list.sample_alt.to_list = some ys ∧
      unrolled_list.sample.equals unrolled_list.sample_alt =
        some (decide (unrolled_list.sample.size = unrolled_list.sample_alt.size ∧ xs = ys)) ∧
      unrolled_list.sample.not_equals unrolled_list.sample_alt =
        some (!decide (unrolled_list.sample.size = unrolled_list.sample_alt.size ∧ xs = ys)) :=
  ⟨sample_wf, sample_alt_wf,
    equality_by_sequence 2 unrolled_list.sample unrolled_list.sample_alt
      [(0, [1, 2]), (1, [3])] [(0, [1]), (1, [2, 3])] sample_wf sample_alt_wf⟩

theorem copy_loop_eq (K : Nat) (other : unrolled_list T) :
    ∀ (f : Nat) (it : Iterator) (l : unrolled_list T) (xs : List T),
      other.collect f it = some xs →
      unrolled_list.copy_loop K other f it l = unrolled_list.push_back_all K l xs := by
  intro f
  induction f with
  | zero => intro it l xs h; simp [collect_zero] at h
  | succ f ih =>
    intro it l xs h
    cases xs with
    | nil =>
      simp [unrolled_list.copy_loop, collect_succ_nil h, unrolled_list.push_back_all]
    | cons x xs' =>
      obtain ⟨e1, d1, i1, hi1, c1⟩ := collect_succ_cons h
      rw [unrolled_list.copy_loop, unrolled_list.push_back_all]
      simp only [e1, Bool.false_eq_true, if_false, d1]
      cases hp : l.push_back K x with
      | none => rfl
      | some l1 =>
        simp only [hi1]
        exact ih i1 l1 xs' c1

/-- The copy constructor builds a chain of non-empty buckets with the
elements of the source, in order. -/
theorem copy_chain (K : Nat) {src : unrolled_list T} {bs : List (Nat × List T)}
    (h : Chain src bs) (hne : ∀ b ∈ bs, b.2 ≠ []) :
    ∃ c bs', src.copy K = some c ∧ Chain c bs' ∧ (∀ b ∈ bs', b.2 ≠ []) ∧
      elems bs' = elems bs := by
  have hl := to_list_chain h hne
  unfold unrolled_list.to_list at hl
  obtain ⟨c, bs', h1, hc, hne', he⟩ :=
    push_back_all_elems K (elems bs) unrolled_list.empty_list [] empty_chain (by simp)
  refine ⟨c, bs', ?_, hc, hne', by simpa [elems_nil] using he⟩
  unfold unrolled_list.copy unrolled_list.copy_from
  rw [copy_loop_eq K src _ _ _ _ hl]
  exact h1

/-- C15, as amended: the copy `c` of a container `src` whose buckets hold
between 1 and `K` elements (whatever its bucket layout) satisfies `c == src`,
has the size and the forward-iteration sequence of `src`, and `src` still
iterates as before; after a `pop_back` on `c`, `src != c` holds when `src` is
not empty, while for an empty `src` the `pop_back` does nothing and
`src == c` still holds. -/
theorem copy_round_trip [DecidableEq T] (K : Nat) (src : unrolled_list T)
    (bs : List (Nat × List T)) (h : WF K src bs) :
    ∃ c c', src.copy K = some c ∧ c.equals src = some true ∧ c.size = src.size ∧
      src.to_list = some (elems bs) ∧ c.to_list = some (elems bs) ∧
      c.pop_back = some c' ∧
      (src.empty = false → src.not_equals c' = some true) ∧
      (src.empty = true → c' = c ∧ src.equals c' = some true) := by
  have hnon := h.nonempty
  obtain ⟨c, bs', h1, hc, hne', he⟩ := copy_chain K h.1 hnon
  have heq : c.equals src = some true := by
    rw [equals_chain hc h.1 hne' hnon, he]; simp
  have hsz : c.size = src.size := by rw [hc.size_eq, h.1.size_eq, he]
  obtain ⟨c', hp, hcase⟩ := pop_back_chain hc
  refine ⟨c, c', h1, heq, hsz, h.to_list, by rw [to_list_chain hc hne', he], hp, ?_, ?_⟩
  · intro hemp
    have hbs : bs ≠ [] := h.ne_nil_of_not_empty hemp
    rcases hcase with ⟨hc0, _⟩ | ⟨init, t, xs, _, _, hs, _, _⟩
    · exfalso
      rcases hc0 with e | ⟨init, t, e⟩
      · subst e
        rw [elems_nil] at he
        cases bs with
        | nil => exact hbs rfl
        | cons b rest =>
          have hb := hnon b (by simp)
          rw [elems_cons] at he
          have := congrArg List.length he
          simp only [List.length_nil, List.length_append] at this
          have := List.length_pos.mpr hb
          omega
      · exact hne' (t, []) (by rw [e]; simp) rfl
    · have hne_sz : src.total_size ≠ c'.total_size := by
        have : c.total_size = src.total_size := hsz
        omega
      simp [unrolled_list.not_equals, unrolled_list.equals, hne_sz]
  · intro hemp
    have htot : src.total_size = 0 := by simpa [unrolled_list.empty] using hemp
    have hbs : bs = [] :=
      elems_eq_nil_of_nonempty hnon (by rw [← h.1.size_eq]; exact htot)
    subst hbs
    have hbs' : bs' = [] := elems_eq_nil_of_nonempty hne' (by rw [he]; rfl)
    subst hbs'
    rcases hcase with ⟨_, e⟩ | ⟨init, t, xs, e, _⟩
    · subst e
      refine ⟨rfl, ?_⟩
      rw [equals_chain h.1 hc hnon hne']
      simp
    · simp at e

theorem copy_round_trip_witness :
    WF 2 unrolled_list.sample [(0, [1, 2]), (1, [3])] ∧
    unrolled_list.sample.empty = false ∧
    ∃ c c', unrolled_list.sample.copy 2 = some c ∧
      c.equals unrolled_list.sample = some true ∧ c.size = unrolled_list.sample.size ∧
      unrolled_list.sample.to_list = some (elems [(0, [1, 2]), (1, [3])]) ∧
      c.to_list = some (elems [(0, [1, 2]), (1, [3])]) ∧
      c.pop_back = some c' ∧
      (unrolled_list.sample.empty = false → unrolled_list.sample.not_equals c' = some true) ∧
      (unrolled_list.sample.empty = true →
        c' = c ∧ unrolled_list.sample.equals c' = some true) :=
  ⟨sample_wf, rfl, copy_round_trip 2 unrolled_list.sample [(0, [1, 2]), (1, [3])] sample_wf⟩

/-- C15 as stated fails for the empty container: its copy is empty, `pop_back`
on the copy is a guarded no-op, and afterwards `src != c` is false. -/
theorem copy_empty_pop_back_equal :
    (((unrolled_list.empty_list : unrolled_list Nat).copy 2).bind
        (fun c => c.pop_back.bind
          (fun c' => (unrolled_list.empty_list : unrolled_list Nat).not_equals c'))) =
      some false := by
  decide

/-! ## Where the code departs from the claims: ranges and small capacities -/

/-- C11 (defect): with `K = 10` and the elements 0..6 in one bucket,
`erase(first, last)` from the position of 2 (node 0, index 2) to the position
of 5 (node 0, index 5) does not stop after three passes: the container is
then `0, 1, 5, 6`, but the iterator is (node 0, index 2) and never equals
`last`; two more passes remove 5 and 6, and the sixth pass calls `erase` at
index 2 of a bucket of size 2, which has no outcome. -/
theorem erase_range_overruns :
    (((unrolled_list.push_back_all 10 (unrolled_list.empty_list : unrolled_list Nat)
        [0, 1, 2, 3, 4, 5, 6]).bind
      (fun l => (l.erase ⟨some 0, 2⟩).bind
        (fun r => (r.2.erase r.1).bind (fun r => r.2.erase r.1)))).map
      (fun r => (r.1, r.1.eq ⟨some 0, 5⟩, r.2.to_list))) =
      some (⟨some 0, 2⟩, false, some [0, 1, 5, 6]) ∧
    (((unrolled_list.push_back_all 10 (unrolled_list.empty_list : unrolled_list Nat)
        [0, 1, 2, 3, 4, 5, 6]).bind
      (fun l => (l.erase ⟨some 0, 2⟩).bind
        (fun r => (r.2.erase r.1).bind (fun r => (r.2.erase r.1).bind
          (fun r => (r.2.erase r.1).bind (fun r => r.2.erase r.1)))))).map
      (fun r => (r.1, r.1.eq ⟨some 0, 5⟩, r.2.to_list, (r.2.erase r.1).isSome))) =
      some (⟨some 0, 2⟩, false, some [0, 1], false) ∧
    (((unrolled_list.push_back_all 10 (unrolled_list.empty_list : unrolled_list Nat)
        [0, 1, 2, 3, 4, 5, 6]).bind
      (fun l => l.erase_range ⟨some 0, 2⟩ ⟨some 0, 5⟩)).isSome) = false := by
  refine ⟨?_, ?_, ?_⟩ <;> decide

/-- C12 (defect): with `K = 10`, after `push_back` of 0..9 (one full bucket)
`insert(pos, 3, 99)` at the position of 8 (node 0, index 8) gives
`0,1,2,3,4,99,5,6,7,99,99,8,9`: the third copy lands before 5, not before 8. -/
theorem insert_n_misplaces :
    (((unrolled_list.push_back_all 10 (unrolled_list.empty_list : unrolled_list Nat)
        [0, 1, 2, 3, 4, 5, 6, 7, 8, 9]).bind
      (fun l => l.insert_n 10 ⟨some 0, 8⟩ 3 99)).map (fun r => (r.2.to_list, r.2.buckets))) =
      some (some [0, 1, 2, 3, 4, 99, 5, 6, 7, 99, 99, 8, 9],
        some [[some 0, some 1, some 2, some 3, some 4],
          [some 99, some 5, some 6, some 7, some 99, some 99, some 8, some 9]]) := by
  decide

/-- C13 (defect): with `K = 1` and the one-element container `[7]`, the range
insert of `1, 2, 3` at `begin()` leaves the chain `[] -> [] -> [1,2,3,7]`: two
nodes of size 0 stay linked in front, and forward iteration from `begin()`
dereferences a slot without a live element instead of yielding `1, 2, 3, 7`. -/
theorem insert_range_leaves_empty_nodes :
    ((unrolled_list.push_back_all 1 (unrolled_list.empty_list : unrolled_list Nat) [7]).map
      (fun l => (l.buckets, l.valid_pos l.begin_))) = some (some [[some 7]], true) ∧
    (((unrolled_list.push_back_all 1 (unrolled_list.empty_list : unrolled_list Nat) [7]).bind
      (fun l => l.insert_range 1 l.begin_ [1, 2, 3])).map
      (fun l => (l.buckets, l.bucket_sizes, l.to_list, Iterator.deref l l.begin_))) =
      some (some [[], [], [some 1, some 2, some 3, some 7]], some [0, 0, 4], none, none) := by
  refine ⟨?_, ?_⟩ <;> decide

/-- C18 (defect): with `K = 1`, the calls `push_back(1); insert(begin(), 2);
insert((node 0, 1), 3)` leave the head node with size 0 beside the new node
`[2,3,1]`; after erasing the three elements of the new node, `total_size` is
0 and `empty()` is true, but `head` and `tail` still point to the empty node
and `begin() != end()`. -/
theorem empty_with_head :
    ((unrolled_list.run 1 (unrolled_list.empty_list : unrolled_list Nat)
        [Op.push_back 1, Op.insert ⟨some 0, 0⟩ 2, Op.insert ⟨some 0, 1⟩ 3]).map
      (fun l => l.buckets)) = some (some [[], [some 2, some 3, some 1]]) ∧
    ((unrolled_list.run 1 (unrolled_list.empty_list : unrolled_list Nat)
        [Op.push_back 1, Op.insert ⟨some 0, 0⟩ 2, Op.insert ⟨some 0, 1⟩ 3,
          Op.erase ⟨some 1, 0⟩, Op.erase ⟨some 1, 0⟩, Op.erase ⟨some 1, 0⟩]).map
      (fun l => (l.head, l.tail))) = some (some 0, some 0) ∧
    ((unrolled_list.run 1 (unrolled_list.empty_list : unrolled_list Nat)
        [Op.push_back 1, Op.insert ⟨some 0, 0⟩ 2, Op.insert ⟨some 0, 1⟩ 3,
          Op.erase ⟨some 1, 0⟩, Op.erase ⟨some 1, 0⟩, Op.erase ⟨some 1, 0⟩]).map
      (fun l => (l.total_size, l.bucket_sizes))) = some (0, some [0]) ∧
    ((unrolled_list.run 1 (unrolled_list.empty_list : unrolled_list Nat)
        [Op.push_back 1, Op.insert ⟨some 0, 0⟩ 2, Op.insert ⟨some 0, 1⟩ 3,
          Op.erase ⟨some 1, 0⟩, Op.erase ⟨some 1, 0⟩, Op.erase ⟨some 1, 0⟩]).map
      (fun l => (l.empty, l.begin_.eq l.end_))) = some (true, false) := by
  refine ⟨?_, ?_, ?_, ?_⟩ <;> decide

/-! ## Guards of the removal operations -/

/-- C24: `pop_back()` on a container without a tail and `pop_front()` on a
container without a head return the state as it is, so on an empty container
`head`, `tail` and `total_size` stay null, null and 0; and on every container
`erase(end())` returns the state as it is (bucket chain, element sequence and
`size()` included) together with an iterator equal to `end()`. -/
theorem removal_guards (l : unrolled_list T) :
    (l.tail = none → l.pop_back = some l) ∧
    (l.head = none → l.pop_front = some l) ∧
    (l.head = none → l.tail = none → l.total_size = 0 →
      ∃ l1 l2, l.pop_back = some l1 ∧ l.pop_front = some l2 ∧
        (l1.head, l1.tail, l1.total_size) = (none, none, 0) ∧
        (l2.head, l2.tail, l2.total_size) = (none, none, 0)) ∧
    ∃ it l', l.erase l.end_ = some (it, l') ∧ it.eq l.end_ = true ∧ l' = l ∧
      l'.buckets = l.buckets ∧ l'.to_list = l.to_list ∧ l'.size = l.size := by
  have hb : l.tail = none → l.pop_back = some l := by
    intro h
    simp [unrolled_list.pop_back, h]
  have hf : l.head = none → l.pop_front = some l := by
    intro h
    simp [unrolled_list.pop_front, h]
  refine ⟨hb, hf, ?_, l.end_, l, rfl, ?_, rfl, rfl, rfl, rfl⟩
  · intro hh ht hs
    exact ⟨l, l, hb ht, hf hh, by rw [hh, ht, hs], by rw [hh, ht, hs]⟩
  · simp [Iterator.eq]

theorem removal_guards_witness :
    (unrolled_list.empty_list : unrolled_list Nat).pop_back = some unrolled_list.empty_list ∧
    (unrolled_list.empty_list : unrolled_list Nat).pop_front = some unrolled_list.empty_list ∧
    (∃ l1 l2, (unrolled_list.empty_list : unrolled_list Nat).pop_back = some l1 ∧
      (unrolled_list.empty_list : unrolled_list Nat).pop_front = some l2 ∧
      (l1.head, l1.tail, l1.total_size) = (none, none, 0) ∧
      (l2.head, l2.tail, l2.total_size) = (none, none, 0)) ∧
    ∃ it l', unrolled_list.sample.erase unrolled_list.sample.end_ = some (it, l') ∧
      it.eq unrolled_list.sample.end_ = true ∧ l' = unrolled_list.sample ∧
      l'.buckets = unrolled_list.sample.buckets ∧ l'.to_list = unrolled_list.sample.to_list ∧
      l'.size = unrolled_list.sample.size :=
  ⟨(removal_guards (unrolled_list.empty_list : unrolled_list Nat)).1 rfl,
    (removal_guards (unrolled_list.empty_list : unrolled_list Nat)).2.1 rfl,
    (removal_guards (unrolled_list.empty_list : unrolled_list Nat)).2.2.1 rfl rfl rfl,
    (removal_guards unrolled_list.sample).2.2.2⟩

/-! ## Buckets left empty by a split -/

/-- C21 (defect): with `K = 1`, the calls `push_back(1); insert(begin(), 2);
insert((node 0, 1), 3)`, each at a valid position, leave the chain
`[] -> [2,3,1]`: the head node is reachable and has size 0. -/
theorem split_leaves_empty_bucket :
    ((unrolled_list.run 1 (unrolled_list.empty_list : unrolled_list Nat)
        [Op.push_back 1]).map
      (fun l => (l.bucket_sizes, l.valid_pos ⟨some 0, 0⟩))) = some (some [1], true) ∧
    ((unrolled_list.run 1 (unrolled_list.empty_list : unrolled_list Nat)
        [Op.push_back 1, Op.insert ⟨some 0, 0⟩ 2]).map
      (fun l => (l.bucket_sizes, l.normal ⟨some 0, 1⟩))) = some (some [2], true) ∧
    ((unrolled_list.run 1 (unrolled_list.empty_list : unrolled_list Nat)
        [Op.push_back 1, Op.insert ⟨some 0, 0⟩ 2, Op.insert ⟨some 0, 1⟩ 3]).map
      (fun l => (l.head, l.bucket_sizes))) = some (some 0, some [0, 3]) := by
  refine ⟨?_, ?_, ?_⟩ <;> decide

/-! ## Increment and decrement -/

theorem inc_chain {l : unrolled_list T} {l1 l2 : List (Nat × List T)} {a : Nat}
    {xs : List T} (h : Chain l (l1 ++ (a, xs) :: l2)) (i : Nat) :
    Iterator.inc l ⟨some a, i⟩ =
      some (if i + 1 < xs.length then ⟨some a, i + 1⟩ else ⟨first_addr l2 none, 0⟩) := by
  obtain ⟨n, hn, -, hnext, hh⟩ := h.node_at
  simp only [Iterator.inc, hn, hh.1, hnext]
  split_ifs <;> rfl

theorem iterator_eq_self (p : Iterator) : p.eq p = true := by
  simp [Iterator.eq]

/-- C23: on a container whose buckets are linked in a chain and hold at least
one element each, for every normal position `p` the decrement of the
increment of `p` is an iterator equal to `p` (also when the increment is
`end()`), and for every position `p` (normal or `end()`) other than `begin()`
the increment of the decrement of `p` is an iterator equal to `p`. -/
theorem inc_dec_inverse (l : unrolled_list T) (bs : List (Nat × List T)) (h : Chain l bs)
    (hne : ∀ b ∈ bs, b.2 ≠ []) (p : Iterator) :
    (l.normal p = true →
      ∃ q r, Iterator.inc l p = some q ∧ Iterator.dec l q = some r ∧ r.eq p = true) ∧
    (l.valid_pos p = true → p.eq l.begin_ = false →
      ∃ q r, Iterator.dec l p = some q ∧ Iterator.inc l q = some r ∧ r.eq p = true) := by
  constructor
  · intro hn
    obtain ⟨l1, a, xs, l2, e, hp, hi⟩ := normal_decomp h p hn
    subst e
    have hx : xs ≠ [] := hne (a, xs) (by simp)
    rw [hp]
    by_cases hlt : p.index + 1 < xs.length
    · refine ⟨⟨some a, p.index + 1⟩, ⟨some a, p.index⟩, ?_, ?_, iterator_eq_self _⟩
      · rw [inc_chain h, if_pos hlt]
      · rw [dec_same l a (p.index + 1) (by omega)]; rfl
    · have hidx : p.index = xs.length - 1 := by omega
      refine ⟨⟨first_addr l2 none, 0⟩, ⟨some a, p.index⟩, ?_, ?_, iterator_eq_self _⟩
      · rw [inc_chain h, if_neg hlt]
      · cases l2 with
        | nil =>
          have hd := dec_end_chain h
          rw [size_t_sub_of_le (by omega)] at hd
          rw [hidx]
          exact hd
        | cons b l2' =>
          obtain ⟨b1, ys⟩ := b
          rw [hidx]
          exact dec_prev h hx
  · intro hv hb
    have hcases : p.eq l.end_ = true ∨ l.normal p = true := by
      simpa [unrolled_list.valid_pos] using hv
    rcases hcases with he | hn
    · have hpe := Iterator.eq_end l p he
      rcases eq_nil_or_snoc bs with e | ⟨init, ⟨t, xs⟩, e⟩
      · subst e
        exfalso
        have hbeg : l.begin_ = l.end_ := by
          unfold unrolled_list.begin_ unrolled_list.end_
          rw [h.head_eq]; rfl
        rw [hpe, hbeg, iterator_eq_self] at hb
        exact Bool.noConfusion hb
      · subst e
        have hx : xs ≠ [] := hne (t, xs) (by simp)
        have hpos : 0 < xs.length := List.length_pos.mpr hx
        refine ⟨⟨some t, xs.length - 1⟩, l.end_, ?_, ?_, ?_⟩
        · rw [hpe, dec_end_chain h, size_t_sub_of_le (by omega)]
        · rw [inc_chain h, if_neg (by omega)]; rfl
        · rw [hpe]; exact iterator_eq_self _
    · obtain ⟨l1, a, xs, l2, e, hp, hi⟩ := normal_decomp h p hn
      subst e
      rw [hp]
      by_cases h0 : 0 < p.index
      · refine ⟨⟨some a, p.index - 1⟩, ⟨some a, p.index⟩, dec_same l a p.index h0, ?_,
          iterator_eq_self _⟩
        rw [inc_chain h, if_pos (by omega)]
        have : p.index - 1 + 1 = p.index := by omega
        rw [this]
      · have hz : p.index = 0 := by omega
        rcases eq_nil_or_snoc l1 with e1 | ⟨init, ⟨q, ps⟩, e1⟩
        · subst e1
          exfalso
          have hbeg : l.begin_ = ⟨some a, 0⟩ := by
            unfold unrolled_list.begin_
            rw [h.head_eq]; rfl
          rw [hp, hz, hbeg, iterator_eq_self] at hb
          exact Bool.noConfusion hb
        · subst e1
          have hps : ps ≠ [] := hne (q, ps) (by simp)
          have hpos : 0 < ps.length := List.length_pos.mpr hps
          have h2 : Chain l (init ++ (q, ps) :: (a, xs) :: l2) := by
            simpa using h
          refine ⟨⟨some q, ps.length - 1⟩, ⟨some a, 0⟩, ?_, ?_, ?_⟩
          · rw [hz]; exact dec_prev h2 hps
          · rw [inc_chain h2, if_neg (by omega)]; rfl
          · rw [hz]; exact iterator_eq_self _

theorem inc_dec_inverse_witness :
    Chain unrolled_list.sample [(0, [1, 2]), (1, [3])] ∧
    unrolled_list.sample.normal ⟨some 0, 1⟩ = true ∧
    (∃ q r, Iterator.inc unrolled_list.sample ⟨some 0, 1⟩ = some q ∧
      Iterator.dec unrolled_list.sample q = some r ∧ r.eq ⟨some 0, 1⟩ = true) ∧
    unrolled_list.sample.valid_pos unrolled_list.sample.end_ = true ∧
    unrolled_list.sample.end_.eq unrolled_list.sample.begin_ = false ∧
    (∃ q r, Iterator.dec unrolled_list.sample unrolled_list.sample.end_ = some q ∧
      Iterator.inc unrolled_list.sample q = some r ∧ r.eq unrolled_list.sample.end_ = true) :=
  ⟨sample_chain, rfl,
    (inc_dec_inverse unrolled_list.sample [(0, [1, 2]), (1, [3])] sample_chain
      sample_wf.nonempty ⟨some 0, 1⟩).1 rfl,
    rfl, rfl,
    (inc_dec_inverse unrolled_list.sample [(0, [1, 2]), (1, [3])] sample_chain
      sample_wf.nonempty unrolled_list.sample.end_).2 rfl rfl⟩

/-! ## Packing by `push_back` -/

theorem snoc_inj {init1 init2 : List (Nat × List T)} {b1 b2 : Nat × List T}
    (h : init1 ++ [b1] = init2 ++ [b2]) : init1 = init2 ∧ b1 = b2 := by
  have h2 := List.append_inj' h rfl
  exact ⟨h2.1, by simpa using h2.2⟩

theorem packed_nil (K : Nat) : Packed K ([] : List (Nat × List T)) := by
  intro init b e
  exact absurd e (by simp)

theorem Packed.wf {K : Nat} {l : unrolled_list T} {bs : List (Nat × List T)}
    (hK : 1 ≤ K) (h : Chain l bs) (hp : Packed K bs) : WF K l bs := by
  refine ⟨h, ?_⟩
  intro b hb
  rcases eq_nil_or_snoc bs with e | ⟨init, c, e⟩
  · subst e; simp at hb
  · obtain ⟨h1, h2, h3⟩ := hp init c e
    subst e
    rcases List.mem_append.mp hb with hm | hm
    · rw [h1 b hm]; exact ⟨hK, le_refl K⟩
    · have : b = c := by simpa using hm
      subst this
      exact ⟨h2, h3⟩

theorem push_back_packed (K : Nat) (hK : 1 ≤ K) {l : unrolled_list T}
    {bs : List (Nat × List T)} (v : T) (h : Chain l bs) (hp : Packed K bs) :
    ∃ l' bs', l.push_back K v = some l' ∧ Chain l' bs' ∧ Packed K bs' ∧
      elems bs' = elems bs ++ [v] := by
  obtain ⟨l', hpb, hcase⟩ := push_back_chain K v h
  rcases hcase with ⟨hfull, hch⟩ | ⟨init, t, xs, e, hlen, hch⟩
  · refine ⟨l', _, hpb, hch, ?_, ?_⟩
    · intro init b e
      obtain ⟨e1, e2⟩ := snoc_inj e
      subst e1
      subst e2
      refine ⟨?_, le_refl 1, hK⟩
      rcases hfull with e0 | ⟨init0, t, xs, e0, hlen⟩
      · subst e0; intro c hc; simp at hc
      · obtain ⟨h1, -, -⟩ := hp init0 (t, xs) e0
        subst e0
        intro c hc
        rcases List.mem_append.mp hc with hm | hm
        · exact h1 c hm
        · have : c = (t, xs) := by simpa using hm
          subst this
          exact hlen
    · rw [elems_append]; rfl
  · obtain ⟨h1, h2, h3⟩ := hp init (t, xs) e
    subst e
    refine ⟨l', _, hpb, hch, ?_, ?_⟩
    · intro init1 b e
      obtain ⟨e1, e2⟩ := snoc_inj e
      subst e1
      subst e2
      refine ⟨h1, ?_, ?_⟩
      · simp
      · have : xs.length < K := lt_of_le_of_ne h3 hlen
        simp only [List.length_append, List.length_singleton]
        omega
    · rw [elems_append, elems_append]
      simp [elems_cons, elems_nil]

theorem push_back_all_packed (K : Nat) (hK : 1 ≤ K) :
    ∀ (xs : List T) (l : unrolled_list T) (bs : List (Nat × List T)), Chain l bs →
      Packed K bs →
      ∃ l' bs', unrolled_list.push_back_all K l xs = some l' ∧ Chain l' bs' ∧
        Packed K bs' ∧ elems bs' = elems bs ++ xs := by
  intro xs
  induction xs with
  | nil =>
    intro l bs h hp
    exact ⟨l, bs, rfl, h, hp, by simp⟩
  | cons x xs ih =>
    intro l bs h hp
    obtain ⟨l1, bs1, hpb, hch1, hp1, he1⟩ := push_back_packed K hK x h hp
    obtain ⟨l2, bs2, hall, hch2, hp2, he2⟩ := ih l1 bs1 hch1 hp1
    refine ⟨l2, bs2, ?_, hch2, hp2, ?_⟩
    · simp only [unrolled_list.push_back_all, hpb]
      exact hall
    · rw [he2, he1, List.append_assoc]; rfl

theorem sum_lengths_const (K : Nat) (init : List (Nat × List T))
    (h : ∀ c ∈ init, c.2.length = K) :
    (init.map (fun b => b.2.length)).sum = K * init.length := by
  induction init with
  | nil => simp
  | cons c rest ih =>
    have hc : c.2.length = K := h c (by simp)
    have hr := ih (fun d hd => h d (by simp [hd]))
    simp only [List.map_cons, List.sum_cons, List.length_cons, hc, hr]
    ring

theorem ceil_div_packed (K m c : Nat) (h1 : 1 ≤ c) (h2 : c ≤ K) :
    (K * m + c + K - 1) / K = m + 1 := by
  apply Nat.div_eq_of_lt_le
  · have e : (m + 1) * K = K * m + K := by ring
    rw [e]; omega
  · have e : (m + 1 + 1) * K = K * m + K + K := by ring
    rw [e]; omega

theorem packed_sizes (K : Nat) (hK : 1 ≤ K) (bs : List (Nat × List T)) (hp : Packed K bs)
    (n : Nat) (hn : (bs.map (fun b => b.2.length)).sum = n) :
    (bs.map (fun b => b.2.length)).length = (n + K - 1) / K ∧
    (∀ i, i + 1 < (bs.map (fun b => b.2.length)).length →
      (bs.map (fun b => b.2.length))[i]? = some K) ∧
    (bs.map (fun b => b.2.length)).getLast? =
      if n = 0 then none else some (n - K * ((n + K - 1) / K - 1)) := by
  rcases eq_nil_or_snoc bs with e | ⟨init, b, e⟩
  · subst e
    simp only [List.map_nil, List.sum_nil] at hn
    subst hn
    refine ⟨?_, ?_, ?_⟩
    · rw [Nat.div_eq_of_lt (by omega)]; rfl
    · intro i hi; simp at hi
    · simp
  · obtain ⟨h1, h2, h3⟩ := hp init b e
    subst e
    have hsum := sum_lengths_const K init h1
    rw [sum_lengths_append, hsum] at hn
    simp only [List.map_cons, List.map_nil, List.sum_cons, List.sum_nil, Nat.add_zero] at hn
    subst hn
    have hceil := ceil_div_packed K init.length b.2.length h2 h3
    refine ⟨?_, ?_, ?_⟩
    · rw [hceil]; simp
    · intro i hi
      have hi2 : i < init.length := by
        simp only [List.length_map, List.length_append, List.length_singleton] at hi
        omega
      rw [List.map_append, List.getElem?_append_left (by simpa using hi2),
        List.getElem?_map, List.getElem?_eq_getElem hi2]
      simp only [Option.map_some']
      rw [h1 _ (List.getElem_mem hi2)]
    · have hne : K * init.length + b.2.length ≠ 0 := by omega
      rw [if_neg hne, hceil, List.map_append]
      simp only [List.map_cons, List.map_nil, List.getLast?_append_of_ne_nil _ (List.cons_ne_nil _ _),
        List.getLast?_singleton]
      congr 1
      rw [Nat.add_sub_cancel, Nat.add_sub_cancel_left]

theorem push_back_grows (K : Nat) {l : unrolled_list T} {bs : List (Nat × List T)} (v : T)
    (h : Chain l bs) :
    ∃ l' bs', l.push_back K v = some l' ∧ Chain l' bs' ∧
      (bs'.length = bs.length + 1 ↔
        (l.tail = none ∨ ∃ t n, l.tail = some t ∧ l.nodes t = some n ∧ n.size = K)) ∧
      (bs'.length = bs.length ∨ bs'.length = bs.length + 1) := by
  obtain ⟨l', hpb, hcase⟩ := push_back_chain K v h
  rcases hcase with ⟨hfull, hch⟩ | ⟨init, t, xs, e, hlen, hch⟩
  · refine ⟨l', _, hpb, hch, ?_, Or.inr (by simp)⟩
    refine ⟨fun _ => ?_, fun _ => by simp⟩
    rcases hfull with e0 | ⟨init0, t, xs, e0, hlen⟩
    · subst e0
      exact Or.inl h.tail_eq
    · subst e0
      obtain ⟨n, hn, -, -, hh⟩ := h.node_at
      refine Or.inr ⟨t, n, ?_, hn, ?_⟩
      · rw [h.tail_eq, last_addr_snoc]
      · rw [hh.1]; exact hlen
  · subst e
    refine ⟨l', _, hpb, hch, ?_, Or.inl (by simp)⟩
    have ht : l.tail = some t := by rw [h.tail_eq, last_addr_snoc]
    obtain ⟨n, hn, -, -, hh⟩ := h.node_at
    constructor
    · intro hl
      simp at hl
    · intro hc
      exfalso
      rcases hc with hc | ⟨t1, n1, h1, h2, h3⟩
      · rw [ht] at hc; exact Option.noConfusion hc
      · rw [ht] at h1
        have e1 : t = t1 := Option.some.inj h1
        subst e1
        rw [hn] at h2
        have e2 : n = n1 := Option.some.inj h2
        subst e2
        rw [hh.1] at h3
        exact hlen h3

/-- C22: for `K >= 1`, `n` calls of `push_back` on an empty container (the
elements `xs`, `n` their number) succeed and leave a chain of `ceil(n / K)`
buckets in which every bucket but the last has size `K` and the last has size
`n - K * (ceil(n / K) - 1)`; forward iteration yields `xs`; and the next
`push_back` adds a bucket to the chain exactly when the tail is absent or has
size `K`, and otherwise leaves the number of buckets as it is. -/
theorem push_back_packing (K : Nat) (hK : 1 ≤ K) (xs : List T) :
    ∃ l sizes, unrolled_list.push_back_all K unrolled_list.empty_list xs = some l ∧
      l.bucket_sizes = some sizes ∧ l.to_list = some xs ∧
      sizes.length = (xs.length + K - 1) / K ∧
      (∀ i, i + 1 < sizes.length → sizes[i]? = some K) ∧
      sizes.getLast? =
        (if xs.length = 0 then none
          else some (xs.length - K * ((xs.length + K - 1) / K - 1))) ∧
      ∀ v, ∃ l' sizes', l.push_back K v = some l' ∧ l'.bucket_sizes = some sizes' ∧
        (sizes'.length = sizes.length + 1 ↔
          (l.tail = none ∨ ∃ t n, l.tail = some t ∧ l.nodes t = some n ∧ n.size = K)) ∧
        (sizes'.length = sizes.length ∨ sizes'.length = sizes.length + 1) := by
  obtain ⟨l, bs, hall, hch, hp, he⟩ :=
    push_back_all_packed K hK xs unrolled_list.empty_list [] empty_chain (packed_nil K)
  have hel : elems bs = xs := by rw [he, elems_nil, List.nil_append]
  have hsum : (bs.map (fun b => b.2.length)).sum = xs.length := by
    rw [← length_elems, hel]
  obtain ⟨h1, h2, h3⟩ := packed_sizes K hK bs hp xs.length hsum
  refine ⟨l, bs.map (fun b => b.2.length), hall, bucket_sizes_chain hch, ?_, h1, h2, h3, ?_⟩
  · rw [(hp.wf hK hch).to_list, hel]
  · intro v
    obtain ⟨l', bs', hpb, hch', hiff, hor⟩ := push_back_grows K v hch
    refine ⟨l', bs'.map (fun b => b.2.length), hpb, bucket_sizes_chain hch', ?_, ?_⟩
    · simpa using hiff
    · simpa using hor

theorem push_back_packing_witness :
    1 ≤ 2 ∧
    (∃ l sizes, unrolled_list.push_back_all 2 unrolled_list.empty_list [1, 2, 3] = some l ∧
      l.bucket_sizes = some sizes ∧ l.to_list = some [1, 2, 3] ∧
      sizes.length = ([1, 2, 3].length + 2 - 1) / 2 ∧
      (∀ i, i + 1 < sizes.length → sizes[i]? = some 2) ∧
      sizes.getLast? =
        (if [1, 2, 3].length = 0 then none
          else some ([1, 2, 3].length - 2 * (([1, 2, 3].length + 2 - 1) / 2 - 1))) ∧
      ∀ v, ∃ l' sizes', l.push_back 2 v = some l' ∧ l'.bucket_sizes = some sizes' ∧
        (sizes'.length = sizes.length + 1 ↔
          (l.tail = none ∨ ∃ t n, l.tail = some t ∧ l.nodes t = some n ∧ n.size = 2)) ∧
        (sizes'.length = sizes.length ∨ sizes'.length = sizes.length + 1)) ∧
    ((unrolled_list.push_back_all 2 (unrolled_list.empty_list : unrolled_list Nat)
        [1, 2, 3]).map (fun l => l.buckets)) =
      some (some [[some 1, some 2], [some 3]]) :=
  ⟨by decide, push_back_packing 2 (by decide) [1, 2, 3], by decide⟩

/-! ## Sequences of calls that stay inside the slot arrays -/

theorem wf_of_chain {K : Nat} {l : unrolled_list T} {bs : List (Nat × List T)}
    (h : Chain l bs) (hb : ∀ b ∈ bs, 1 ≤ b.2.length ∧ b.2.length ≤ K) : WF K l bs :=
  ⟨h, hb⟩

theorem bounds_replace {K : Nat} {l1 l2 : List (Nat × List T)} {a : Nat} {xs ys : List T}
    (h : ∀ b ∈ l1 ++ (a, xs) :: l2, 1 ≤ b.2.length ∧ b.2.length ≤ K)
    (hy : 1 ≤ ys.length ∧ ys.length ≤ K) :
    ∀ b ∈ l1 ++ (a, ys) :: l2, 1 ≤ b.2.length ∧ b.2.length ≤ K := by
  intro b hb
  rw [List.mem_append, List.mem_cons] at hb
  rcases hb with hb | hb | hb
  · exact h b (by simp [hb])
  · rw [hb]; exact hy
  · exact h b (by simp [hb])

theorem push_back_wf (K : Nat) (hK : 1 ≤ K) {l : unrolled_list T} {bs : List (Nat × List T)}
    (v : T) (h : WF K l bs) : ∃ l' bs', l.push_back K v = some l' ∧ WF K l' bs' := by
  obtain ⟨l', h1, h2⟩ := push_back_chain K v h.1
  rcases h2 with ⟨-, hc⟩ | ⟨init, t, xs, e, hk, hc⟩
  · refine ⟨l', _, h1, hc, ?_⟩
    intro b hb
    rw [List.mem_append, List.mem_singleton] at hb
    rcases hb with hb | hb
    · exact h.2 b hb
    · rw [hb]; exact ⟨le_refl 1, hK⟩
  · subst e
    refine ⟨l', _, h1, hc, ?_⟩
    have hx := h.2 (t, xs) (by simp)
    have hb0 : ∀ b ∈ init ++ (t, xs) :: [], 1 ≤ b.2.length ∧ b.2.length ≤ K := h.2
    have hlen : (xs ++ [v]).length = xs.length + 1 := by simp
    have hlt : xs.length < K := lt_of_le_of_ne hx.2 hk
    exact bounds_replace hb0 ⟨by omega, by omega⟩

theorem read_value (l : unrolled_list T) (v : T) : Arg.read l (Arg.value v) = some v := rfl

theorem push_back_ref_value (K : Nat) (l : unrolled_list T) (v : T) :
    l.push_back_ref K (Arg.value v) = l.push_back K v := by
  unfold unrolled_list.push_back_ref unrolled_list.push_back
  simp only [read_value]

theorem push_front_ref_value (K : Nat) (l : unrolled_list T) (v : T) :
    l.push_front_ref K (Arg.value v) = l.push_front K v := by
  unfold unrolled_list.push_front_ref unrolled_list.push_front
  simp only [read_value]

theorem write_write (l : unrolled_list T) (a : Nat) (n m : Node T) :
    (l.write a n).write a m = l.write a m := by
  simp [unrolled_list.write]

theorem place_ref_value (l : unrolled_list T) (a : Nat) (n : Node T) (index : Nat) (v : T) :
    unrolled_list.place_ref l a n index (Arg.value v) =
      (unrolled_list.place n index v).map (fun n1 => l.write a n1) := by
  unfold unrolled_list.place_ref unrolled_list.place
  cases n.shift_right index n.size <;> simp [read_value]

theorem insert_split_ref_value (K : Nat) (l : unrolled_list T) (a : Nat) (n : Node T)
    (index : Nat) (v : T) :
    l.insert_split_ref K a n index (Arg.value v) = l.insert_split K a n index v := by
  unfold unrolled_list.insert_split_ref unrolled_list.insert_split
  cases hl : l.link_after a n with
  | none => rfl
  | some r =>
    obtain ⟨p, l6⟩ := r
    simp only
    cases h1 : l6.nodes a with
    | none => rfl
    | some src =>
      cases h2 : l6.nodes p with
      | none => rfl
      | some dst =>
        simp only
        cases hm : Node.move_across (K / 2) 0 (size_t_sub src.size (K / 2)) (src, dst) with
        | none => rfl
        | some r2 =>
          obtain ⟨src1, dst1⟩ := r2
          simp only [place_ref_value, Option.map_map]
          split_ifs
          · congr 1
            funext src3
            simp [Function.comp, write_write]
          · congr 1
            funext dst3
            simp only [Function.comp]
            congr 2
            simp only [unrolled_list.write]
            by_cases hap : a = p
            · subst hap; simp
            · rw [Function.update_comm hap, Function.update_idem,
                Function.update_comm (Ne.symm hap)]

/-- The functions that take the value are the by-reference functions at an
argument outside the node storage. -/
theorem insert_ref_value (K : Nat) (l : unrolled_list T) (pos : Iterator) (v : T) :
    l.insert_ref K pos (Arg.value v) = l.insert K pos v := by
  unfold unrolled_list.insert_ref unrolled_list.insert
  simp only [push_back_ref_value, insert_split_ref_value, place_ref_value, Option.map_map]
  rfl

theorem move_slot_below {n n1 : Node T} {j k : Nat} (h : n.move_slot j (j + 1) = some n1)
    (hk : k < j) : n1.elements k = n.elements k := by
  unfold Node.move_slot at h
  cases hs : n.elements j with
  | none => simp [hs] at h
  | some v =>
    simp only [hs, Node.destroy, Node.construct] at h
    split at h
    · have := Option.some.inj h
      subst this
      simp [Function.update, Nat.ne_of_lt hk, Nat.ne_of_lt (Nat.lt_succ_of_lt hk)]
    · exact Option.noConfusion h

theorem shift_right_below (index : Nat) :
    ∀ (j : Nat) (n n1 : Node T), n.shift_right index j = some n1 →
      ∀ k, k < index → n1.elements k = n.elements k := by
  intro j
  induction j with
  | zero =>
    intro n n1 h k _
    simp only [Node.shift_right] at h
    rw [← Option.some.inj h]
  | succ j ih =>
    intro n n1 h k hk
    simp only [Node.shift_right] at h
    by_cases hlt : index < j + 1
    · simp only [hlt, if_true] at h
      cases hm : n.move_slot j (j + 1) with
      | none => simp [hm] at h
      | some n2 =>
        simp only [hm] at h
        rw [ih n2 n1 h k hk, move_slot_below hm (by omega)]
    · simp only [hlt, if_false] at h
      rw [← Option.some.inj h]

theorem update_node_elements (f : Node T → Node T) {l l1 : unrolled_list T} {p : Nat}
    (hf : ∀ n, (f n).elements = n.elements) (h : l.update_node p f = some l1) :
    (∀ a m, l.nodes a = some m → ∃ m1, l1.nodes a = some m1 ∧ m1.elements = m.elements) ∧
      l1.head = l.head ∧ l1.tail = l.tail := by
  unfold unrolled_list.update_node at h
  cases hp : l.nodes p with
  | none => simp [hp] at h
  | some n =>
    simp only [hp] at h
    have := Option.some.inj h
    subst this
    refine ⟨?_, rfl, rfl⟩
    intro a m ha
    by_cases e : a = p
    · subst e
      rw [hp] at ha
      have := Option.some.inj ha
      subst this
      exact ⟨f n, by simp [unrolled_list.write], hf n⟩
    · exact ⟨m, by simp [unrolled_list.write, Function.update, e, ha], rfl⟩

theorem link_front_elements {l l1 : unrolled_list T} (h : l.link_front = some l1)
    (hfresh : l.nodes l.next_free = none) :
    ∀ a m, l.nodes a = some m → ∃ m1, l1.nodes a = some m1 ∧ m1.elements = m.elements := by
  intro a m ha
  have hne : a ≠ l.next_free := by
    intro e; rw [e, hfresh] at ha; exact Option.noConfusion ha
  unfold unrolled_list.link_front at h
  simp only [unrolled_list.allocate] at h
  cases h2 : unrolled_list.update_node
      ({ l with nodes := Function.update l.nodes l.next_free (some Node.blank),
                next_free := l.next_free + 1 } : unrolled_list T) l.next_free
      (fun n => { n with next := l.head, prev := none }) with
  | none => simp [h2] at h
  | some l2 =>
    simp only [h2] at h
    obtain ⟨hel2, -, -⟩ := update_node_elements
      (fun n => { n with next := l.head, prev := none }) (fun n => rfl) h2
    obtain ⟨m2, hm2, he2⟩ := hel2 a m (by simp [Function.update, hne, ha])
    cases hh : l.head with
    | none =>
      simp only [hh] at h
      have := Option.some.inj h
      subst this
      refine ⟨m2, ?_, he2⟩
      split_ifs <;> exact hm2
    | some h0 =>
      simp only [hh] at h
      cases h3 : l2.update_node h0 (fun n => { n with prev := some l.next_free }) with
      | none => simp [h3] at h
      | some l4 =>
        simp only [h3] at h
        obtain ⟨hel4, -, -⟩ := update_node_elements
          (fun n => { n with prev := some l.next_free }) (fun n => rfl) h3
        obtain ⟨m4, hm4, he4⟩ := hel4 a m2 hm2
        have := Option.some.inj h
        subst this
        refine ⟨m4, ?_, by rw [he4, he2]⟩
        split_ifs <;> exact hm4
theorem link_back_elements {l l1 : unrolled_list T} (h : l.link_back = some l1)
    (hfresh : l.nodes l.next_free = none) :
    ∀ a m, l.nodes a = some m → ∃ m1, l1.nodes a = some m1 ∧ m1.elements = m.elements := by
  intro a m ha
  have hne : a ≠ l.next_free := by
    intro e; rw [e, hfresh] at ha; exact Option.noConfusion ha
  unfold unrolled_list.link_back at h
  simp only [unrolled_list.allocate] at h
  cases h2 : unrolled_list.update_node
      ({ l with nodes := Function.update l.nodes l.next_free (some Node.blank),
                next_free := l.next_free + 1 } : unrolled_list T) l.next_free
      (fun n => { n with next := none, prev := l.tail }) with
  | none => simp [h2] at h
  | some l2 =>
    simp only [h2] at h
    obtain ⟨hel2, -, -⟩ := update_node_elements
      (fun n => { n with next := none, prev := l.tail }) (fun n => rfl) h2
    obtain ⟨m2, hm2, he2⟩ := hel2 a m (by simp [Function.update, hne, ha])
    cases hh : l.tail with
    | none =>
      simp only [hh] at h
      have := Option.some.inj h
      subst this
      refine ⟨m2, ?_, he2⟩
      split_ifs <;> exact hm2
    | some t0 =>
      simp only [hh] at h
      cases h3 : l2.update_node t0 (fun n => { n with next := some l.next_free }) with
      | none => simp [h3] at h
      | some l4 =>
        simp only [h3] at h
        obtain ⟨hel4, -, -⟩ := update_node_elements
          (fun n => { n with next := some l.next_free }) (fun n => rfl) h3
        obtain ⟨m4, hm4, he4⟩ := hel4 a m2 hm2
        have := Option.some.inj h
        subst this
        refine ⟨m4, ?_, by rw [he4, he2]⟩
        split_ifs <;> exact hm4

theorem read_preserved {l l1 : unrolled_list T} {arg : Arg T} {v : T}
    (hv : Arg.read l arg = some v)
    (hel : ∀ a i, arg = Arg.slot a i → ∀ m, l.nodes a = some m →
      ∃ m1, l1.nodes a = some m1 ∧ m1.elements i = m.elements i) :
    Arg.read l1 arg = some v := by
  cases arg with
  | value w => exact hv
  | slot a i =>
    simp only [Arg.read] at hv ⊢
    cases hm : l.nodes a with
    | none => simp [hm] at hv
    | some m =>
      obtain ⟨m1, hm1, he⟩ := hel a i rfl m hm
      rw [hm] at hv
      simp only [hm1, he]
      exact hv

theorem push_back_ref_eq (K : Nat) {l : unrolled_list T} {bs : List (Nat × List T)}
    (h : Chain l bs) {arg : Arg T} {v : T} (hv : Arg.read l arg = some v) :
    l.push_back_ref K arg = l.push_back K v := by
  unfold unrolled_list.push_back_ref unrolled_list.push_back
  dsimp only
  cases hfull : (match l.tail with
      | none => some true
      | some t => (l.nodes t).map (fun (n : Node T) => n.size == K)) with
  | none => rfl
  | some c =>
    simp only
    cases hl1 : (if c = true then l.link_back else some l) with
    | none => rfl
    | some l1 =>
      simp only
      have hr : Arg.read l1 arg = some v := by
        by_cases hc : c = true
        · rw [if_pos hc] at hl1
          refine read_preserved hv ?_
          intro a i _ m hm
          obtain ⟨m1, h1, h2⟩ := link_back_elements hl1 h.fresh_none a m hm
          exact ⟨m1, h1, by rw [h2]⟩
        · rw [if_neg hc] at hl1
          rw [← Option.some.inj hl1]
          exact hv
      simp only [hr]

theorem push_front_ref_eq (K : Nat) {l : unrolled_list T} {bs : List (Nat × List T)}
    (h : Chain l bs) {arg : Arg T} {v : T} (hv : Arg.read l arg = some v)
    (hfar : ∀ a i n, arg = Arg.slot a i → l.head = some a → l.nodes a = some n → n.size = K) :
    l.push_front_ref K arg = l.push_front K v := by
  unfold unrolled_list.push_front_ref unrolled_list.push_front
  dsimp only
  cases hfull : (match l.head with
      | none => some true
      | some h0 => (l.nodes h0).map (fun (n : Node T) => n.size == K)) with
  | none => rfl
  | some c =>
    simp only
    cases hl1 : (if c = true then l.link_front else l.shift_head) with
    | none => rfl
    | some l1 =>
      simp only
      have hr : Arg.read l1 arg = some v := by
        by_cases hc : c = true
        · rw [if_pos hc] at hl1
          refine read_preserved hv ?_
          intro a i _ m hm
          obtain ⟨m1, h1, h2⟩ := link_front_elements hl1 h.fresh_none a m hm
          exact ⟨m1, h1, by rw [h2]⟩
        · rw [if_neg hc] at hl1
          refine read_preserved hv ?_
          intro a i harg m hm
          unfold unrolled_list.shift_head at hl1
          cases hh : l.head with
          | none => simp [hh] at hl1
          | some h0 =>
            simp only [hh] at hl1
            cases hn : l.nodes h0 with
            | none => simp [hn] at hl1
            | some n =>
              simp only [hn, Option.map_eq_some'] at hl1
              obtain ⟨n1, -, hw⟩ := hl1
              subst hw
              have hne : a ≠ h0 := by
                intro e
                subst e
                have hsz := hfar a i n harg hh hn
                simp only [hh, hn, Option.map_some'] at hfull
                have hcc := Option.some.inj hfull
                rw [← hcc] at hc
                simp [hsz] at hc
              exact ⟨m, by simp [unrolled_list.write, Function.update, hne, hm], rfl⟩
      simp only [hr]

theorem triple_chain : Chain unrolled_list.triple [(0, [1, 2, 3])] := by
  refine ⟨?_, rfl, rfl, by decide, ?_, ?_, rfl⟩
  · refine ⟨⟨none, none, 3,
        fun i => if i = 0 then some 1 else if i = 1 then some 2 else if i = 2 then some 3
          else none⟩, rfl, rfl, rfl, ⟨rfl, ?_⟩, trivial⟩
    intro k
    rcases k with _ | _ | _ | k <;> simp
  · intro a ha
    simp only [List.map_cons, List.map_nil, List.mem_singleton] at ha
    show a < 1
    omega
  · intro a ha
    simp only [List.map_cons, List.map_nil, List.mem_singleton]
    by_cases h0 : a = 0
    · exact h0
    · simp [unrolled_list.triple, h0] at ha

theorem triple_wf : WF 10 unrolled_list.triple [(0, [1, 2, 3])] :=
  ⟨triple_chain, by simp⟩

/-- C6, as amended: for `K >= 1`, on a container whose buckets hold between 1
and `K` elements, for an argument that reads as `v` and is not an element of a head
bucket that the call shifts (an object outside the container, an element of
another bucket, or any element when the head bucket holds `K` elements),
`push_front(v)` succeeds, forward iteration afterwards yields `v` followed by
the previous element sequence, and `size()` has grown by one; this holds in
the branch that allocates a new head bucket (head absent or holding `K`
elements) and in the branch that shifts the head bucket right by one slot. -/
theorem push_front_prepends (K : Nat) (l : unrolled_list T) (bs : List (Nat × List T))
    (arg : Arg T) (v : T) (hK : 1 ≤ K) (h : WF K l bs) (hv : Arg.read l arg = some v)
    (hfar : ∀ a i n, arg = Arg.slot a i → l.head = some a → l.nodes a = some n →
      n.size = K) :
    ∃ l', l.push_front_ref K arg = some l' ∧ l.to_list = some (elems bs) ∧
      l'.to_list = some (v :: elems bs) ∧ l'.size = l.size + 1 ∧
      (((bs = [] ∨ ∃ h0 xs rest, bs = (h0, xs) :: rest ∧ xs.length = K) ∧
          WF K l' ((l.next_free, [v]) :: bs)) ∨
        ∃ h0 xs rest, bs = (h0, xs) :: rest ∧ xs.length ≠ K ∧
          WF K l' ((h0, v :: xs) :: rest)) := by
  rw [push_front_ref_eq K h.1 hv hfar]
  obtain ⟨l', h1, h2⟩ := push_front_chain K v h.1
  have hne := h.nonempty
  refine ⟨l', h1, h.to_list, ?_⟩
  rcases h2 with ⟨hcase, hc⟩ | ⟨h0, xs, rest, hbs, hk, hc⟩
  · have hne' : ∀ b ∈ (l.next_free, [v]) :: bs, b.2 ≠ [] := by
      intro b hb
      rw [List.mem_cons] at hb
      rcases hb with hb | hb
      · rw [hb]; simp
      · exact hne b hb
    have hbd : ∀ b ∈ (l.next_free, [v]) :: bs, 1 ≤ b.2.length ∧ b.2.length ≤ K := by
      intro b hb
      rw [List.mem_cons] at hb
      rcases hb with hb | hb
      · rw [hb]; exact ⟨le_refl 1, hK⟩
      · exact h.2 b hb
    have he : elems ((l.next_free, [v]) :: bs) = v :: elems bs := rfl
    refine ⟨by rw [to_list_chain hc hne', he], ?_, Or.inl ⟨hcase, hc, hbd⟩⟩
    rw [hc.size_eq, h.1.size_eq, he]; simp
  · subst hbs
    have hne0 : ∀ b ∈ [] ++ (h0, xs) :: rest, b.2 ≠ [] := hne
    have hne' : ∀ b ∈ [] ++ (h0, v :: xs) :: rest, b.2 ≠ [] :=
      nonempty_replace hne0 (by simp)
    have hx : 1 ≤ xs.length ∧ xs.length ≤ K := h.2 (h0, xs) (by simp)
    have hlt : xs.length < K := lt_of_le_of_ne hx.2 hk
    have hlen : (v :: xs).length = xs.length + 1 := by simp
    have hb0 : ∀ b ∈ [] ++ (h0, xs) :: rest, 1 ≤ b.2.length ∧ b.2.length ≤ K := h.2
    have hbd : ∀ b ∈ [] ++ (h0, v :: xs) :: rest, 1 ≤ b.2.length ∧ b.2.length ≤ K :=
      bounds_replace hb0 ⟨by omega, by omega⟩
    have he : elems ((h0, v :: xs) :: rest) = v :: elems ((h0, xs) :: rest) := rfl
    refine ⟨by rw [to_list_chain hc hne', he], ?_, Or.inr ⟨h0, xs, rest, rfl, hk, hc, hbd⟩⟩
    rw [hc.size_eq, h.1.size_eq, he]; simp

theorem push_front_prepends_witness :
    1 ≤ 2 ∧ WF 2 unrolled_list.sample_alt [(0, [1]), (1, [2, 3])] ∧
    Arg.read unrolled_list.sample_alt (Arg.slot 1 1) = some 3 ∧
    unrolled_list.sample_alt.back = some 3 ∧
    (∃ l', unrolled_list.sample_alt.push_front_ref 2 (Arg.slot 1 1) = some l' ∧
      unrolled_list.sample_alt.to_list = some (elems [(0, [1]), (1, [2, 3])]) ∧
      l'.to_list = some (3 :: elems [(0, [1]), (1, [2, 3])]) ∧
      l'.size = unrolled_list.sample_alt.size + 1 ∧
      ((([(0, [1]), (1, [2, 3])] = ([] : List (Nat × List Nat)) ∨
            ∃ h0 xs rest, [(0, [1]), (1, [2, 3])] = (h0, xs) :: rest ∧ xs.length = 2) ∧
          WF 2 l' ((unrolled_list.sample_alt.next_free, [3]) :: [(0, [1]), (1, [2, 3])])) ∨
        ∃ h0 xs rest, [(0, [1]), (1, [2, 3])] = (h0, xs) :: rest ∧ xs.length ≠ 2 ∧
          WF 2 l' ((h0, 3 :: xs) :: rest))) ∧
    (unrolled_list.sample_alt.push_front_ref 2 (Arg.slot 1 1)).map
        (fun l => (l.buckets, l.next_free)) =
      some (some [[some 3, some 1], [some 2, some 3]], 2) :=
  ⟨by decide, sample_alt_wf, rfl, by decide,
    push_front_prepends 2 unrolled_list.sample_alt [(0, [1]), (1, [2, 3])] (Arg.slot 1 1) 3
      (by decide) sample_alt_wf rfl
      (by
        intro a i n harg hh _
        have ha : (1 : Nat) = a := by injection harg
        have hh2 : (0 : Nat) = a := Option.some.inj hh
        omega),
    by decide⟩

/-- C6 as stated fails for an argument that is an element of the shifted head
bucket: with `K = 10` and the bucket `[1,2,3]`, `l.push_front(l.back())`
passes a reference to slot 2; the shift loop moves `2` into that slot before
the argument is read, and the result is `2,1,2,3`, not `3,1,2,3`. -/
theorem push_front_alias :
    ((unrolled_list.push_back_all 10 (unrolled_list.empty_list : unrolled_list Nat)
        [1, 2, 3]).map
      (fun l => (l.buckets, l.back, Arg.read l (Arg.slot 0 2)))) =
      some (some [[some 1, some 2, some 3]], some 3, some 3) ∧
    (((unrolled_list.push_back_all 10 (unrolled_list.empty_list : unrolled_list Nat)
        [1, 2, 3]).bind (fun l => l.push_front_ref 10 (Arg.slot 0 2))).map
      (fun l => (l.to_list, l.size))) = some (some [2, 1, 2, 3], 4) := by
  constructor <;> decide

theorem place_ref_eq {l : unrolled_list T} {a : Nat} {n : Node T} {index : Nat}
    {arg : Arg T} {v : T}
    (hr : ∀ n1, n.shift_right index n.size = some n1 → Arg.read (l.write a n1) arg = some v) :
    unrolled_list.place_ref l a n index arg =
      (unrolled_list.place n index v).map (fun n1 => l.write a n1) := by
  unfold unrolled_list.place_ref unrolled_list.place
  cases hs : n.shift_right index n.size with
  | none => rfl
  | some n1 => simp [hr n1 hs]

theorem insert_ref_eq (K : Nat) {l : unrolled_list T} {l1 l2 : List (Nat × List T)}
    {a : Nat} {xs : List T} (h : Chain l (l1 ++ (a, xs) :: l2)) (i : Nat)
    (hk : xs.length ≤ K) {arg : Arg T} {v : T} (hv : Arg.read l arg = some v)
    (hfar : ∀ j, arg = Arg.slot a j → j < i) :
    l.insert_ref K ⟨some a, i⟩ arg = l.insert K ⟨some a, i⟩ v := by
  obtain ⟨n, hn, -, -, hh⟩ := h.node_at
  have hsz : n.size ≤ K := by rw [hh.1]; exact hk
  have hpl : unrolled_list.place_ref l a n i arg =
      (unrolled_list.place n i v).map (fun n1 => l.write a n1) := by
    apply place_ref_eq
    intro n1 hs
    refine read_preserved hv ?_
    intro b j harg m hm
    by_cases e : b = a
    · subst e
      rw [hn] at hm
      have := Option.some.inj hm
      subst this
      refine ⟨n1, by simp [unrolled_list.write], ?_⟩
      exact shift_right_below i n.size n n1 hs j (hfar j harg)
    · exact ⟨m, by simp [unrolled_list.write, Function.update, e, hm], rfl⟩
  simp only [unrolled_list.insert_ref, unrolled_list.insert, Iterator.eq, unrolled_list.end_,
    hn, hsz, hpl, Option.map_map]
  rfl

theorem insert_ref_end_eq (K : Nat) {l : unrolled_list T} {bs : List (Nat × List T)}
    (h : Chain l bs) {arg : Arg T} {v : T} (hv : Arg.read l arg = some v) :
    l.insert_ref K l.end_ arg = l.insert K l.end_ v := by
  unfold unrolled_list.insert_ref unrolled_list.insert
  rw [push_back_ref_eq K h hv]
  have he : l.end_.eq l.end_ = true := by simp [Iterator.eq]
  rw [if_pos he, if_pos he]

/-- C1, as amended: for `K >= 1`, on a container whose buckets hold between 1
and `K` elements, for a position `pos` that is `end()` or a normal position in a
bucket holding fewer than `K` elements, and an argument that reads as `v` and
is not an element of that bucket at or after `pos` (an object outside the
container, an element of another bucket, or an element before `pos`),
`insert(pos, v)` succeeds; forward iteration afterwards yields the previous
sequence with `v` immediately before the element `pos` referred to (appended
when `pos` is `end()`), and `size()` has grown by one. -/
theorem insert_before (K : Nat) (l : unrolled_list T) (bs : List (Nat × List T))
    (pos : Iterator) (arg : Arg T) (v : T) (hK : 1 ≤ K) (h : WF K l bs)
    (hpos : l.valid_pos pos = true)
    (hroom : ∀ a n, pos.node = some a → l.nodes a = some n → n.size < K)
    (hv : Arg.read l arg = some v)
    (hfar : ∀ a i, arg = Arg.slot a i → pos.node = some a → i < pos.index) :
    ∃ it l' pre post, l.insert_ref K pos arg = some (it, l') ∧
      l.to_list = some (pre ++ post) ∧ l.advance pre.length l.begin_ = some pos ∧
      post.head? = Iterator.deref l pos ∧
      l'.to_list = some (pre ++ v :: post) ∧ l'.size = l.size + 1 ∧
      ∃ bs', WF K l' bs' := by
  by_cases he : pos.eq l.end_ = true
  · have := Iterator.eq_end l pos he
    subst this
    rw [insert_ref_end_eq K h.1 hv]
    obtain ⟨it, l', h1, h2⟩ := insert_end_chain K v h.1
    obtain ⟨l'', bs', h3, hc, hne', he⟩ := push_back_elems K v h.1 h.nonempty
    rw [h2] at h3
    have := Option.some.inj h3
    subst this
    obtain ⟨l3, bs3, h4, hw3⟩ := push_back_wf K hK v h
    rw [h2] at h4
    have := Option.some.inj h4
    subst this
    refine ⟨it, l', elems bs, [], h1, by simpa using h.to_list, advance_end h.1 h.nonempty,
      rfl, ?_, ?_, bs3, hw3⟩
    · rw [to_list_chain hc hne', he]
    · rw [hc.size_eq, h.1.size_eq, he]
      simp
  · have hn : l.normal pos = true := by
      simp only [unrolled_list.valid_pos, Bool.or_eq_true] at hpos
      rcases hpos with hv | hv
      · exact absurd hv he
      · exact hv
    obtain ⟨l1, a, xs, l2, hbs, hp, hi⟩ := normal_decomp h.1 pos hn
    subst hbs
    have hnode : pos.node = some a := by rw [hp]
    obtain ⟨n, hna, -, -, hh⟩ := h.1.node_at
    have hk : xs.length < K := by
      have := hroom a n hnode hna
      rw [hh.1] at this
      exact this
    have hfar' : ∀ j, arg = Arg.slot a j → j < pos.index := fun j hj => hfar a j hj hnode
    rw [hp]
    rw [insert_ref_eq K h.1 pos.index (Nat.le_of_lt hk) hv hfar']
    obtain ⟨l', h1, h2, _, hc⟩ :=
      insert_fit_chain K h.1 pos.index v (Nat.le_of_lt hi) (Nat.le_of_lt hk)
    have hlen : (ins xs pos.index v).length = xs.length + 1 := length_ins xs pos.index v
    have hbd : ∀ b ∈ l1 ++ (a, ins xs pos.index v) :: l2, 1 ≤ b.2.length ∧ b.2.length ≤ K :=
      bounds_replace h.2 ⟨by omega, by omega⟩
    refine ⟨⟨some a, pos.index⟩, l', elems l1 ++ xs.take pos.index,
      xs.drop pos.index ++ elems l2, h1, ?_, ?_, ?_, ?_, h2, _, hc, hbd⟩
    · rw [h.to_list, elems_mid]
      simp only [List.append_assoc]
      rw [← List.append_assoc (xs.take pos.index), List.take_append_drop]
    · have hl : (elems l1 ++ xs.take pos.index).length = (elems l1).length + pos.index := by
        simp [Nat.min_eq_left (Nat.le_of_lt hi)]
      rw [hl]
      exact advance_chain h.1 h.nonempty pos.index hi
    · rw [deref_chain h.1, List.drop_eq_getElem_cons hi, List.getElem?_eq_getElem hi]
      rfl
    · rw [to_list_chain hc (nonempty_replace h.nonempty (by simp [ins])), elems_mid, ins]
      simp only [List.append_assoc, List.cons_append]

theorem insert_before_witness :
    1 ≤ 10 ∧ WF 10 unrolled_list.triple [(0, [1, 2, 3])] ∧
    unrolled_list.triple.valid_pos ⟨some 0, 2⟩ = true ∧
    Arg.read unrolled_list.triple (Arg.slot 0 0) = some 1 ∧
    unrolled_list.triple.front = some 1 ∧
    (∃ it l' pre post,
      unrolled_list.triple.insert_ref 10 ⟨some 0, 2⟩ (Arg.slot 0 0) = some (it, l') ∧
      unrolled_list.triple.to_list = some (pre ++ post) ∧
      unrolled_list.triple.advance pre.length unrolled_list.triple.begin_ =
        some ⟨some 0, 2⟩ ∧
      post.head? = Iterator.deref unrolled_list.triple ⟨some 0, 2⟩ ∧
      l'.to_list = some (pre ++ 1 :: post) ∧ l'.size = unrolled_list.triple.size + 1 ∧
      ∃ bs', WF 10 l' bs') ∧
    (unrolled_list.triple.insert_ref 10 ⟨some 0, 2⟩ (Arg.slot 0 0)).map
        (fun r => (r.1, r.2.to_list)) = some (⟨some 0, 2⟩, some [1, 2, 1, 3]) :=
  ⟨by decide, triple_wf, rfl, rfl, rfl,
    insert_before 10 unrolled_list.triple [(0, [1, 2, 3])] ⟨some 0, 2⟩ (Arg.slot 0 0) 1
      (by decide) triple_wf rfl
      (by
        intro a n ha hn
        have ha0 : (0 : Nat) = a := Option.some.inj ha
        subst ha0
        have hn3 : n.size = 3 := by
          simp only [unrolled_list.triple, if_true] at hn
          rw [← Option.some.inj hn]
        omega)
      rfl
      (by
        intro a i harg _
        have hi : (0 : Nat) = i := by injection harg
        show i < 2
        omega),
    by decide⟩

/-- C1 as stated fails for an argument that is an element of the bucket at or
after `pos`: with `K = 10` and the bucket `[1,2,3]`, `l.insert(l.begin(),
l.back())` passes a reference to slot 2; the shift loop moves `2` into that
slot before the argument is read, and the result is `2,1,2,3`, not
`3,1,2,3`. -/
theorem insert_alias :
    ((unrolled_list.push_back_all 10 (unrolled_list.empty_list : unrolled_list Nat)
        [1, 2, 3]).map
      (fun l => (l.buckets, l.valid_pos l.begin_, l.back, Arg.read l (Arg.slot 0 2)))) =
      some (some [[some 1, some 2, some 3]], true, some 3, some 3) ∧
    (((unrolled_list.push_back_all 10 (unrolled_list.empty_list : unrolled_list Nat)
        [1, 2, 3]).bind (fun l => l.insert_ref 10 l.begin_ (Arg.slot 0 2))).map
      (fun r => (r.2.to_list, r.2.size))) = some (some [2, 1, 2, 3], 4) := by
  constructor <;> decide

end UnrolledList
